import Mathlib

/-!
Verification of the `.furry` container codec (crates `furry_crypto`,
`furry_format`, `furry_converter`, `furry_player::virtual_stream`).

Modelling conventions:
* Byte strings are `List Nat` (each element is a byte value 0..255).
* Little-endian integer serialization is `leBytes w v`; explicit Rust casts
  such as `as u32` are modelled by `% 2 ^ 32`.  Plain Rust integer additions
  are modelled by exact `Nat` addition (they panic or wrap only on overflow,
  which the smallness hypotheses of the theorems rule out).
* The external cryptographic crates (aes-gcm, hkdf, blake3, getrandom) are
  abstracted by a `CryptoModel` record; the theorems assume the AEAD
  round-trip/length contract (`CryptoModel.Sound`), and randomness (file id,
  salt, padding contents) is passed in as explicit input.
* I/O streams are byte lists: writing appends, seeking to offset `o` and
  reading is `List.drop o`.  Fallible operations return `Except FormatError`.
-/

namespace Furry

abbrev Bytes := List Nat

/-- Little-endian bytes of width `w` for value `v` (`v.to_le_bytes()`). -/
def leBytes : Nat → Nat → Bytes
  | 0, _ => []
  | w + 1, v => v % 256 :: leBytes w (v / 256)

/-- Value of a little-endian byte string (`read_uNN::<LittleEndian>`). -/
def leVal : Bytes → Nat
  | [] => 0
  | b :: t => b + 256 * leVal t

theorem leBytes_length (w v : Nat) : (leBytes w v).length = w := by
  induction w generalizing v with
  | zero => rfl
  | succ w ih => simp [leBytes, ih]

theorem leVal_leBytes (w v : Nat) : leVal (leBytes w v) = v % 2 ^ (8 * w) := by
  induction w generalizing v with
  | zero => simp [leBytes, leVal, Nat.mod_one]
  | succ w ih =>
    have h : (2 : Nat) ^ (8 * (w + 1)) = 256 * 2 ^ (8 * w) := by ring
    rw [leBytes, leVal, ih, h, Nat.mod_mul]

/-- Errors of the crypto crate (`furry_crypto::CryptoError`). -/
inductive CryptoError
  | HkdfExpand
  | Aead
  | Random
deriving DecidableEq, Repr

/-- Errors of the format crate (`furry_format::FormatError`).  `Io` stands for
any underlying I/O error (in this byte-list model: reading past the end). -/
inductive FormatError
  | Io
  | InvalidMagic
  | UnsupportedVersion (v : Nat)
  | InvalidHeaderSize (s : Nat)
  | InvalidChunkMagic
  | UnsupportedChunkHeaderVersion (v : Nat)
  | InvalidIndexMagic
  | UnsupportedIndexVersion (v : Nat)
  | Crypto (e : CryptoError)
  | CorruptIndex (reason : String)
deriving DecidableEq, Repr

/-- Reading `n` raw bytes from a byte stream (`read_exact`). -/
def takeBytes (n : Nat) (s : Bytes) : Except FormatError (Bytes × Bytes) :=
  if n ≤ s.length then .ok (s.take n, s.drop n) else .error .Io

/-- Reading a `w`-byte little-endian unsigned integer from a byte stream. -/
def readLE (w : Nat) (s : Bytes) : Except FormatError (Nat × Bytes) := do
  let (b, s) ← takeBytes w s
  .ok (leVal b, s)

theorem takeBytes_append (n : Nat) (l r : Bytes) (h : l.length = n) :
    takeBytes n (l ++ r) = .ok (l, r) := by
  subst h
  simp [takeBytes, List.take_left, List.drop_left]

theorem readLE_leBytes (w v : Nat) (r : Bytes) :
    readLE w (leBytes w v ++ r) = .ok (v % 2 ^ (8 * w), r) := by
  simp [readLE, takeBytes_append w _ r (leBytes_length w v), leVal_leBytes, Bind.bind,
    Except.bind]

/-- Chunk type byte (`furry_format::ChunkType`). -/
inductive ChunkType
  | Audio
  | Index
  | Meta
  | Padding
deriving DecidableEq, Repr

def ChunkType.toU8 : ChunkType → Nat
  | .Audio => 0x01
  | .Index => 0x02
  | .Meta => 0x03
  | .Padding => 0x04

def ChunkType.fromU8 : Nat → Option ChunkType
  | 0x01 => some .Audio
  | 0x02 => some .Index
  | 0x03 => some .Meta
  | 0x04 => some .Padding
  | _ => none

theorem ChunkType.fromU8_toU8 (t : ChunkType) : ChunkType.fromU8 t.toU8 = some t := by
  cases t <;> rfl

/-- Original audio format byte (`furry_format::OriginalFormat`). -/
inductive OriginalFormat
  | Unknown
  | Wav
  | Mp3
  | Ogg
  | Flac
deriving DecidableEq, Repr

def OriginalFormat.toU8 : OriginalFormat → Nat
  | .Unknown => 0
  | .Wav => 1
  | .Mp3 => 2
  | .Ogg => 3
  | .Flac => 4

def OriginalFormat.from_u8 (v : Nat) : OriginalFormat :=
  match v with
  | 1 => .Wav
  | 2 => .Mp3
  | 3 => .Ogg
  | 4 => .Flac
  | _ => .Unknown

theorem OriginalFormat.from_u8_toU8 (f : OriginalFormat) :
    OriginalFormat.from_u8 f.toU8 = f := by
  cases f <;> rfl

/-- Metadata kind (`furry_format::MetaKind`), stored on disk as a u16. -/
inductive MetaKind
  | Unknown
  | CoverArt
  | Lyrics
  | Tags
deriving DecidableEq, Repr

def MetaKind.toU16 : MetaKind → Nat
  | .Unknown => 0
  | .CoverArt => 1
  | .Lyrics => 2
  | .Tags => 3

def MetaKind.from_u16 (v : Nat) : MetaKind :=
  match v with
  | 1 => .CoverArt
  | 2 => .Lyrics
  | 3 => .Tags
  | _ => .Unknown

theorem MetaKind.from_u16_toU16 (k : MetaKind) : MetaKind.from_u16 k.toU16 = k := by
  cases k <;> rfl

/-- Flag bit `chunk_flags::FLAG_META_XOR` (value 0x01). -/
def FLAG_META_XOR : Nat := 0x01

/-! ## furry_crypto -/

/-- Hard-coded compile-time master key `MASTER_KEY_BYTES` (the ASCII bytes of
the string "FURRY_MASTER_KEY_2026_V1_SECRET!"). -/
def MASTER_KEY_BYTES : Bytes :=
  [0x46, 0x55, 0x52, 0x52, 0x59, 0x5f, 0x4d, 0x41,
   0x53, 0x54, 0x45, 0x52, 0x5f, 0x4b, 0x45, 0x59,
   0x5f, 0x32, 0x30, 0x32, 0x36, 0x5f, 0x56, 0x31,
   0x5f, 0x53, 0x45, 0x43, 0x52, 0x45, 0x54, 0x21]

/-- Wrapper around the 32 master key bytes (`furry_crypto::MasterKey`). -/
structure MasterKey where
  key : Bytes
deriving DecidableEq, Repr

def MasterKey.new (b : Bytes) : MasterKey := ⟨b⟩

/-- The `MasterKey::default_key()` constructor: wraps `MASTER_KEY_BYTES`. -/
def MasterKey.default_key : MasterKey := ⟨MASTER_KEY_BYTES⟩

def MasterKey.bytes (k : MasterKey) : Bytes := k.key

/-- Per-file derived keys (`furry_crypto::FileKeys`).  `noncePre` is the
4-byte `nonce_prefix` field of the source. -/
structure FileKeys where
  aead_key : Bytes
  noncePre : Bytes
  meta_xor_key : Bytes
deriving DecidableEq, Repr

/-- Nonce for a chunk: the 4 prefix bytes followed by `chunk_seq` as 8
little-endian bytes (`nonce_for_chunk`). -/
def nonce_for_chunk (np : Bytes) (chunk_seq : Nat) : Bytes :=
  np ++ leBytes 8 chunk_seq

/-- ASCII bytes of the AAD label "FURRYAAD" (`AAD_PREFIX` constant). -/
def AAD_LABEL : Bytes := [0x46, 0x55, 0x52, 0x52, 0x59, 0x41, 0x41, 0x44]

/-- The 70-byte AAD layout (`build_aad_v1`): label, header version (u16 LE),
header flags (u32 LE), file id (16), chunk header bytes (40). -/
def build_aad_v1 (file_id : Bytes) (header_version header_flags : Nat)
    (chunk_header_bytes : Bytes) : Bytes :=
  AAD_LABEL ++ leBytes 2 header_version ++ leBytes 4 header_flags ++ file_id
    ++ chunk_header_bytes

/-- XOR of a data buffer with a mask stream (the loop body of
`xor_meta_in_place`; the BLAKE3 XOF stream itself is a `CryptoModel` field). -/
def xorMask (mask data : Bytes) : Bytes :=
  data.zipWith (fun d m => d ^^^ m) mask

/-- Abstraction of the external cryptographic crates.  `deriveFileKeys` is
HKDF-SHA256 (`derive_file_keys`), `aeadEncrypt`/`aeadDecrypt` are detached
AES-256-GCM, `metaMask key seq len` is the BLAKE3 keyed XOF stream of `len`
bytes for the META mask, `randBytes n` is `n` bytes from the RNG. -/
structure CryptoModel where
  deriveFileKeys : Bytes → Bytes → FileKeys
  aeadEncrypt : Bytes → Bytes → Bytes → Bytes → Bytes × Bytes
  aeadDecrypt : Bytes → Bytes → Bytes → Bytes → Bytes → Option Bytes
  metaMask : Bytes → Nat → Nat → Bytes
  randBytes : Nat → Bytes

/-- Contract assumed of the external crypto: AEAD preserves length, produces a
16-byte tag, decryption inverts encryption, and the RNG fills the requested
buffer size. -/
def CryptoModel.Sound (C : CryptoModel) : Prop :=
  (∀ k n a pt, (C.aeadEncrypt k n a pt).1.length = pt.length) ∧
  (∀ k n a pt, (C.aeadEncrypt k n a pt).2.length = 16) ∧
  (∀ k n a pt, C.aeadDecrypt k n a (C.aeadEncrypt k n a pt).1 (C.aeadEncrypt k n a pt).2
      = some pt) ∧
  (∀ n, (C.randBytes n).length = n)

/-- A trivially sound crypto instantiation used by the concrete witnesses:
encryption is the identity with an all-zero tag. -/
def idCrypto : CryptoModel where
  deriveFileKeys := fun mk salt => ⟨mk ++ salt, [0, 0, 0, 0], mk⟩
  aeadEncrypt := fun _ _ _ pt => (pt, List.replicate 16 0)
  aeadDecrypt := fun _ _ _ ct _ => some ct
  metaMask := fun _ _ n => List.replicate n 1
  randBytes := fun n => List.replicate n 0

theorem idCrypto_sound : idCrypto.Sound := by
  refine ⟨fun _ _ _ _ => rfl, fun _ _ _ _ => by simp [idCrypto], fun _ _ _ _ => rfl,
    fun n => by simp [idCrypto]⟩

/-! ## furry_format: file header -/

/-- ASCII bytes of "FURRYFMT". -/
def FURRY_MAGIC : Bytes := [0x46, 0x55, 0x52, 0x52, 0x59, 0x46, 0x4d, 0x54]

def FURRY_VERSION : Nat := 1

def FURRY_HEADER_LEN : Nat := 96

theorem FURRY_MAGIC_length : FURRY_MAGIC.length = 8 := rfl

/-- The 96-byte file header (`furry_format::FurryHeaderV1`). -/
structure FurryHeaderV1 where
  version : Nat
  header_size : Nat
  flags : Nat
  fake_header_len : Nat
  file_id : Bytes
  salt : Bytes
  kdf_id : Nat
  aead_id : Nat
  chunk_header_version : Nat
  index_offset : Nat
  index_total_len : Nat
  header_crc32 : Nat
  reserved2 : Bytes
deriving DecidableEq, Repr

def FurryHeaderV1.new (file_id salt : Bytes) : FurryHeaderV1 where
  version := FURRY_VERSION
  header_size := FURRY_HEADER_LEN
  flags := 0
  fake_header_len := 0
  file_id := file_id
  salt := salt
  kdf_id := 1
  aead_id := 1
  chunk_header_version := 1
  index_offset := 0
  index_total_len := 0
  header_crc32 := 0
  reserved2 := List.replicate 16 0

/-- Serialization of the file header (`FurryHeaderV1::write_to`). -/
def FurryHeaderV1.write_to (h : FurryHeaderV1) : Bytes :=
  FURRY_MAGIC ++ leBytes 2 h.version ++ leBytes 2 h.header_size ++ leBytes 4 h.flags
    ++ leBytes 4 h.fake_header_len ++ leBytes 4 0 ++ h.file_id ++ h.salt
    ++ leBytes 2 h.kdf_id ++ leBytes 2 h.aead_id ++ leBytes 2 h.chunk_header_version
    ++ leBytes 2 0 ++ leBytes 8 h.index_offset ++ leBytes 4 h.index_total_len
    ++ leBytes 4 h.header_crc32 ++ h.reserved2

/-- Parsing and validation of the file header (`FurryHeaderV1::read_from`). -/
def FurryHeaderV1.read_from (s : Bytes) : Except FormatError FurryHeaderV1 := do
  let (magic, s) ← takeBytes 8 s
  if magic ≠ FURRY_MAGIC then
    throw FormatError.InvalidMagic
  let (version, s) ← readLE 2 s
  if version ≠ FURRY_VERSION then
    throw (FormatError.UnsupportedVersion version)
  let (header_size, s) ← readLE 2 s
  if header_size ≠ FURRY_HEADER_LEN then
    throw (FormatError.InvalidHeaderSize header_size)
  let (flags, s) ← readLE 4 s
  let (fake_header_len, s) ← readLE 4 s
  let (_reserved0, s) ← readLE 4 s
  let (file_id, s) ← takeBytes 16 s
  let (salt, s) ← takeBytes 16 s
  let (kdf_id, s) ← readLE 2 s
  let (aead_id, s) ← readLE 2 s
  let (chunk_header_version, s) ← readLE 2 s
  let (_reserved1, s) ← readLE 2 s
  let (index_offset, s) ← readLE 8 s
  let (index_total_len, s) ← readLE 4 s
  let (header_crc32, s) ← readLE 4 s
  let (reserved2, _s) ← takeBytes 16 s
  pure { version, header_size, flags, fake_header_len, file_id, salt, kdf_id, aead_id,
         chunk_header_version, index_offset, index_total_len, header_crc32, reserved2 }

/-- Field bounds under which the header serializes and parses back exactly. -/
def HeaderWF (h : FurryHeaderV1) : Prop :=
  h.version = 1 ∧ h.header_size = 96 ∧ h.flags < 2 ^ 32 ∧ h.fake_header_len < 2 ^ 32 ∧
  h.file_id.length = 16 ∧ h.salt.length = 16 ∧ h.kdf_id < 2 ^ 16 ∧ h.aead_id < 2 ^ 16 ∧
  h.chunk_header_version < 2 ^ 16 ∧ h.index_offset < 2 ^ 64 ∧
  h.index_total_len < 2 ^ 32 ∧ h.header_crc32 < 2 ^ 32 ∧ h.reserved2.length = 16

theorem FurryHeaderV1.write_to_length (h : FurryHeaderV1) (h5 : h.file_id.length = 16)
    (h6 : h.salt.length = 16) (h13 : h.reserved2.length = 16) :
    h.write_to.length = 96 := by
  simp [FurryHeaderV1.write_to, leBytes_length, FURRY_MAGIC_length, h5, h6, h13]

theorem FurryHeaderV1.read_from_write_to (h : FurryHeaderV1) (r : Bytes)
    (hwf : HeaderWF h) : FurryHeaderV1.read_from (h.write_to ++ r) = .ok h := by
  obtain ⟨version, header_size, flags, fake, fid, salt, kdf, aead, chv, io, itl, crc, r2⟩ := h
  obtain ⟨h1, h2, h3, h4, h5, h6, h7, h8, h9, h10, h11, h12, h13⟩ := hwf
  simp only at h1 h2 h3 h4 h5 h6 h7 h8 h9 h10 h11 h12 h13
  subst h1 h2
  have e4 : flags % 4294967296 = flags := by omega
  have e5 : fake % 4294967296 = fake := by omega
  have e7 : kdf % 65536 = kdf := by omega
  have e8 : aead % 65536 = aead := by omega
  have e9 : chv % 65536 = chv := by omega
  have e10 : io % 18446744073709551616 = io := by omega
  have e11 : itl % 4294967296 = itl := by omega
  have e12 : crc % 4294967296 = crc := by omega
  simp only [FurryHeaderV1.write_to, List.append_assoc]
  simp [FurryHeaderV1.read_from, takeBytes_append, FURRY_MAGIC_length, h5, h6, h13,
    readLE_leBytes, e4, e5, e7, e8, e9, e10, e11, e12,
    FURRY_VERSION, FURRY_HEADER_LEN, Bind.bind, Except.bind, throw, throwThe,
    MonadExceptOf.throw, pure, Except.pure, Functor.map, Except.map]

/-! ## furry_format: chunk record header -/

/-- ASCII bytes of "FRCK". -/
def CHUNK_MAGIC : Bytes := [0x46, 0x52, 0x43, 0x4b]

def CHUNK_HEADER_LEN : Nat := 40

def CHUNK_HEADER_VERSION : Nat := 1

theorem CHUNK_MAGIC_length : CHUNK_MAGIC.length = 4 := rfl

/-- The 40-byte chunk record header (`furry_format::ChunkRecordHeaderV1`). -/
structure ChunkRecordHeaderV1 where
  header_len : Nat
  header_version : Nat
  chunk_type : ChunkType
  chunk_flags : Nat
  reserved0 : Nat
  chunk_seq : Nat
  virtual_offset : Nat
  plain_len : Nat
  reserved1 : Nat
  reserved2 : Nat
deriving DecidableEq, Repr

def ChunkRecordHeaderV1.new (chunk_type : ChunkType) (chunk_seq virtual_offset plain_len : Nat) :
    ChunkRecordHeaderV1 where
  header_len := CHUNK_HEADER_LEN
  header_version := CHUNK_HEADER_VERSION
  chunk_type := chunk_type
  chunk_flags := 0
  reserved0 := 0
  chunk_seq := chunk_seq
  virtual_offset := virtual_offset
  plain_len := plain_len
  reserved1 := 0
  reserved2 := 0

/-- The 40 serialized bytes of a chunk header (`to_bytes`, also the byte
sequence produced by `write_to`). -/
def ChunkRecordHeaderV1.to_bytes (h : ChunkRecordHeaderV1) : Bytes :=
  CHUNK_MAGIC ++ leBytes 2 h.header_len ++ leBytes 2 h.header_version
    ++ [h.chunk_type.toU8] ++ [h.chunk_flags] ++ leBytes 2 h.reserved0
    ++ leBytes 8 h.chunk_seq ++ leBytes 8 h.virtual_offset ++ leBytes 4 h.plain_len
    ++ leBytes 4 h.reserved1 ++ leBytes 4 h.reserved2

/-- Streaming serialization (`write_to`) emits the same bytes as `to_bytes`. -/
def ChunkRecordHeaderV1.write_to (h : ChunkRecordHeaderV1) : Bytes :=
  h.to_bytes

/-- Total record length on disk: header + ciphertext + tag (`record_len`). -/
def ChunkRecordHeaderV1.record_len (h : ChunkRecordHeaderV1) : Nat :=
  CHUNK_HEADER_LEN + h.plain_len + 16

/-- Parsing and validation of a chunk record header
(`ChunkRecordHeaderV1::read_from`); returns the remaining stream. -/
def ChunkRecordHeaderV1.read_from (s : Bytes) :
    Except FormatError (ChunkRecordHeaderV1 × Bytes) := do
  let (magic, s) ← takeBytes 4 s
  if magic ≠ CHUNK_MAGIC then
    throw FormatError.InvalidChunkMagic
  let (header_len, s) ← readLE 2 s
  let (header_version, s) ← readLE 2 s
  if header_version ≠ CHUNK_HEADER_VERSION then
    throw (FormatError.UnsupportedChunkHeaderVersion header_version)
  let (tb, s) ← readLE 1 s
  let chunk_type ← match ChunkType.fromU8 tb with
    | some t => pure t
    | none => throw (FormatError.CorruptIndex "unknown chunk_type")
  let (chunk_flags, s) ← readLE 1 s
  let (reserved0, s) ← readLE 2 s
  let (chunk_seq, s) ← readLE 8 s
  let (virtual_offset, s) ← readLE 8 s
  let (plain_len, s) ← readLE 4 s
  let (reserved1, s) ← readLE 4 s
  let (reserved2, s) ← readLE 4 s
  if header_len ≠ CHUNK_HEADER_LEN then
    throw (FormatError.CorruptIndex "chunk header_len != 40")
  pure ({ header_len, header_version, chunk_type, chunk_flags, reserved0, chunk_seq,
          virtual_offset, plain_len, reserved1, reserved2 }, s)

/-- Field bounds under which a chunk header serializes and parses back. -/
def ChunkHeaderWF (h : ChunkRecordHeaderV1) : Prop :=
  h.header_len = 40 ∧ h.header_version = 1 ∧ h.chunk_flags < 256 ∧
  h.reserved0 < 2 ^ 16 ∧ h.chunk_seq < 2 ^ 64 ∧ h.virtual_offset < 2 ^ 64 ∧
  h.plain_len < 2 ^ 32 ∧ h.reserved1 < 2 ^ 32 ∧ h.reserved2 < 2 ^ 32

theorem ChunkRecordHeaderV1.to_bytes_length_chunk (h : ChunkRecordHeaderV1) :
    h.to_bytes.length = 40 := by
  simp [ChunkRecordHeaderV1.to_bytes, leBytes_length, CHUNK_MAGIC_length]

theorem ChunkRecordHeaderV1.read_from_to_bytes (h : ChunkRecordHeaderV1) (r : Bytes)
    (hwf : ChunkHeaderWF h) :
    ChunkRecordHeaderV1.read_from (h.to_bytes ++ r) = .ok (h, r) := by
  obtain ⟨hl, hv, ct, cf, r0, seq, voff, pl, r1, r2⟩ := h
  obtain ⟨h1, h2, h3, h4, h5, h6, h7, h8, h9⟩ := hwf
  simp only at h1 h2 h3 h4 h5 h6 h7 h8 h9
  subst h1 h2
  have e3 : ct.toU8 % 256 = ct.toU8 := by cases ct <;> rfl
  have e4 : cf % 256 = cf := by omega
  have e5 : r0 % 65536 = r0 := by omega
  have e6 : seq % 18446744073709551616 = seq := by omega
  have e7 : voff % 18446744073709551616 = voff := by omega
  have e8 : pl % 4294967296 = pl := by omega
  have e9 : r1 % 4294967296 = r1 := by omega
  have e10 : r2 % 4294967296 = r2 := by omega
  have hb1 : [ct.toU8] = leBytes 1 ct.toU8 := by
    simp [leBytes]
    cases ct <;> rfl
  have hb2 : [cf] = leBytes 1 cf := by
    simp [leBytes]
    omega
  simp only [ChunkRecordHeaderV1.to_bytes, hb1, hb2, List.append_assoc]
  simp [ChunkRecordHeaderV1.read_from, takeBytes_append, CHUNK_MAGIC_length,
    leBytes_length, readLE_leBytes, e3, e4, e5, e6, e7, e8, e9, e10,
    ChunkType.fromU8_toU8, CHUNK_HEADER_VERSION, CHUNK_HEADER_LEN,
    Bind.bind, Except.bind, throw, throwThe, MonadExceptOf.throw, pure, Except.pure,
    Functor.map, Except.map]

/-! ## furry_format: index -/

/-- ASCII bytes of "FURRYIDX". -/
def INDEX_MAGIC : Bytes := [0x46, 0x55, 0x52, 0x52, 0x59, 0x49, 0x44, 0x58]

def INDEX_VERSION : Nat := 1

def INDEX_HEADER_LEN : Nat := 32

def INDEX_ENTRY_LEN : Nat := 48

theorem INDEX_MAGIC_length : INDEX_MAGIC.length = 8 := rfl

/-- The 32-byte index header (`furry_format::IndexHeaderV1`). -/
structure IndexHeaderV1 where
  version : Nat
  flags : Nat
  entry_count : Nat
  audio_stream_len : Nat
  original_format : OriginalFormat
  reserved : Bytes
deriving DecidableEq, Repr

def IndexHeaderV1.new (entry_count audio_stream_len : Nat)
    (original_format : OriginalFormat) : IndexHeaderV1 where
  version := INDEX_VERSION
  flags := 0
  entry_count := entry_count
  audio_stream_len := audio_stream_len
  original_format := original_format
  reserved := List.replicate 7 0

/-- A 48-byte index entry (`furry_format::IndexEntryV1`). -/
structure IndexEntryV1 where
  chunk_seq : Nat
  file_offset : Nat
  record_len : Nat
  plain_len : Nat
  virtual_offset : Nat
  chunk_type : ChunkType
  chunk_flags : Nat
  reserved0 : Nat
  meta_kind : Nat
  reserved1 : Nat
  reserved2 : Nat
  reserved3 : Nat
deriving DecidableEq, Repr

def IndexEntryV1.new_audio (chunk_seq file_offset record_len plain_len virtual_offset : Nat) :
    IndexEntryV1 where
  chunk_seq := chunk_seq
  file_offset := file_offset
  record_len := record_len
  plain_len := plain_len
  virtual_offset := virtual_offset
  chunk_type := .Audio
  chunk_flags := 0
  reserved0 := 0
  meta_kind := 0
  reserved1 := 0
  reserved2 := 0
  reserved3 := 0

def IndexEntryV1.new_meta (chunk_seq file_offset record_len plain_len : Nat)
    (meta_kind : MetaKind) (chunk_flags : Nat) : IndexEntryV1 where
  chunk_seq := chunk_seq
  file_offset := file_offset
  record_len := record_len
  plain_len := plain_len
  virtual_offset := 0
  chunk_type := .Meta
  chunk_flags := chunk_flags
  reserved0 := 0
  meta_kind := meta_kind.toU16
  reserved1 := 0
  reserved2 := 0
  reserved3 := 0

def IndexEntryV1.new_padding (chunk_seq file_offset record_len plain_len : Nat) :
    IndexEntryV1 where
  chunk_seq := chunk_seq
  file_offset := file_offset
  record_len := record_len
  plain_len := plain_len
  virtual_offset := 0
  chunk_type := .Padding
  chunk_flags := 0
  reserved0 := 0
  meta_kind := 0
  reserved1 := 0
  reserved2 := 0
  reserved3 := 0

/-- Serialized index entry (one iteration of the entry loop in `to_bytes`). -/
def IndexEntryV1.to_bytes (e : IndexEntryV1) : Bytes :=
  leBytes 8 e.chunk_seq ++ leBytes 8 e.file_offset ++ leBytes 4 e.record_len
    ++ leBytes 4 e.plain_len ++ leBytes 8 e.virtual_offset ++ [e.chunk_type.toU8]
    ++ [e.chunk_flags] ++ leBytes 2 e.reserved0 ++ leBytes 2 e.meta_kind
    ++ leBytes 2 e.reserved1 ++ leBytes 4 e.reserved2 ++ leBytes 4 e.reserved3

/-- Complete index (`furry_format::FurryIndexV1`). -/
structure FurryIndexV1 where
  header : IndexHeaderV1
  entries : List IndexEntryV1
deriving DecidableEq, Repr

def FurryIndexV1.new (audio_stream_len : Nat) (original_format : OriginalFormat) :
    FurryIndexV1 where
  header := IndexHeaderV1.new 0 audio_stream_len original_format
  entries := []

/-- Appending an entry updates `entry_count` to the vector length
(`add_entry`; the `as u32` cast is `% 2 ^ 32`). -/
def FurryIndexV1.add_entry (idx : FurryIndexV1) (e : IndexEntryV1) : FurryIndexV1 where
  header := { idx.header with entry_count := (idx.entries.length + 1) % 2 ^ 32 }
  entries := idx.entries ++ [e]

/-- Serialization of the whole index (`FurryIndexV1::to_bytes`). -/
def FurryIndexV1.to_bytes (idx : FurryIndexV1) : Bytes :=
  INDEX_MAGIC ++ leBytes 2 idx.header.version ++ leBytes 2 idx.header.flags
    ++ leBytes 4 idx.header.entry_count ++ leBytes 8 idx.header.audio_stream_len
    ++ [idx.header.original_format.toU8] ++ idx.header.reserved
    ++ (idx.entries.map IndexEntryV1.to_bytes).flatten

/-- Entry-list parser (the `for _ in 0..entry_count` loop of `parse`). -/
def parseIndexEntries : Nat → Bytes → Except FormatError (List IndexEntryV1 × Bytes)
  | 0, s => .ok ([], s)
  | n + 1, s => do
    let (chunk_seq, s) ← readLE 8 s
    let (file_offset, s) ← readLE 8 s
    let (record_len, s) ← readLE 4 s
    let (plain_len, s) ← readLE 4 s
    let (virtual_offset, s) ← readLE 8 s
    let (tb, s) ← readLE 1 s
    let chunk_type ← match ChunkType.fromU8 tb with
      | some t => pure t
      | none => throw (FormatError.CorruptIndex "unknown chunk_type in index")
    let (chunk_flags, s) ← readLE 1 s
    let (reserved0, s) ← readLE 2 s
    let (meta_kind, s) ← readLE 2 s
    let (reserved1, s) ← readLE 2 s
    let (reserved2, s) ← readLE 4 s
    let (reserved3, s) ← readLE 4 s
    let (rest, s) ← parseIndexEntries n s
    .ok ({ chunk_seq, file_offset, record_len, plain_len, virtual_offset, chunk_type,
           chunk_flags, reserved0, meta_kind, reserved1, reserved2, reserved3 } :: rest, s)

/-- Parsing the decrypted index plaintext (`FurryIndexV1::parse`). -/
def FurryIndexV1.parse (plain : Bytes) : Except FormatError FurryIndexV1 := do
  if plain.length < INDEX_HEADER_LEN then
    throw (FormatError.CorruptIndex "index header too short")
  let (magic, s) ← takeBytes 8 plain
  if magic ≠ INDEX_MAGIC then
    throw FormatError.InvalidIndexMagic
  let (version, s) ← readLE 2 s
  if version ≠ INDEX_VERSION then
    throw (FormatError.UnsupportedIndexVersion version)
  let (flags, s) ← readLE 2 s
  let (entry_count, s) ← readLE 4 s
  let (audio_stream_len, s) ← readLE 8 s
  let (fb, s) ← readLE 1 s
  let original_format := OriginalFormat.from_u8 fb
  let (reserved, s) ← takeBytes 7 s
  if plain.length ≠ INDEX_HEADER_LEN + entry_count * INDEX_ENTRY_LEN then
    throw (FormatError.CorruptIndex "index length mismatch")
  let (entries, _s) ← parseIndexEntries entry_count s
  pure { header := { version, flags, entry_count, audio_stream_len, original_format,
                     reserved },
         entries }

/-- Field bounds under which an index entry serializes and parses back. -/
def EntryWF (e : IndexEntryV1) : Prop :=
  e.chunk_seq < 2 ^ 64 ∧ e.file_offset < 2 ^ 64 ∧ e.record_len < 2 ^ 32 ∧
  e.plain_len < 2 ^ 32 ∧ e.virtual_offset < 2 ^ 64 ∧ e.chunk_flags < 256 ∧
  e.reserved0 < 2 ^ 16 ∧ e.meta_kind < 2 ^ 16 ∧ e.reserved1 < 2 ^ 16 ∧
  e.reserved2 < 2 ^ 32 ∧ e.reserved3 < 2 ^ 32

/-- Bounds under which a whole index serializes and parses back. -/
def IndexWF (idx : FurryIndexV1) : Prop :=
  idx.header.version = 1 ∧ idx.header.flags < 2 ^ 16 ∧
  idx.header.entry_count = idx.entries.length ∧ idx.entries.length < 2 ^ 32 ∧
  idx.header.audio_stream_len < 2 ^ 64 ∧ idx.header.reserved.length = 7 ∧
  ∀ e ∈ idx.entries, EntryWF e

theorem IndexEntryV1.to_bytes_length_entry (e : IndexEntryV1) : e.to_bytes.length = 48 := by
  simp [IndexEntryV1.to_bytes, leBytes_length]

theorem parseIndexEntries_to_bytes (es : List IndexEntryV1) (r : Bytes)
    (hwf : ∀ e ∈ es, EntryWF e) :
    parseIndexEntries es.length ((es.map IndexEntryV1.to_bytes).flatten ++ r)
      = .ok (es, r) := by
  induction es with
  | nil => simp [parseIndexEntries]
  | cons e es ih =>
    have ih' := ih (fun x hx => hwf x (by simp [hx]))
    have hewf := hwf e (by simp)
    obtain ⟨seq, fo, rl, pl, voff, ct, cf, r0, mk, r1, r2, r3⟩ := e
    obtain ⟨w1, w2, w3, w4, w5, w6, w7, w8, w9, w10, w11⟩ := hewf
    simp only at w1 w2 w3 w4 w5 w6 w7 w8 w9 w10 w11
    have e1 : seq % 18446744073709551616 = seq := by omega
    have e2 : fo % 18446744073709551616 = fo := by omega
    have e3 : rl % 4294967296 = rl := by omega
    have e4 : pl % 4294967296 = pl := by omega
    have e5 : voff % 18446744073709551616 = voff := by omega
    have e6 : ct.toU8 % 256 = ct.toU8 := by cases ct <;> rfl
    have e7 : cf % 256 = cf := by omega
    have e8 : r0 % 65536 = r0 := by omega
    have e9 : mk % 65536 = mk := by omega
    have e10 : r1 % 65536 = r1 := by omega
    have e11 : r2 % 4294967296 = r2 := by omega
    have e12 : r3 % 4294967296 = r3 := by omega
    have hb1 : [ct.toU8] = leBytes 1 ct.toU8 := by
      simp [leBytes]
      cases ct <;> rfl
    have hb2 : [cf] = leBytes 1 cf := by
      simp [leBytes]
      omega
    simp only [List.map_cons, List.flatten_cons, List.length_cons, List.append_assoc]
    simp only [IndexEntryV1.to_bytes, hb1, hb2, List.append_assoc]
    simp [parseIndexEntries, readLE_leBytes, e1, e2, e3, e4, e5, e6, e7, e8, e9, e10,
      e11, e12, ChunkType.fromU8_toU8, ih', Bind.bind, Except.bind, throw, throwThe,
      MonadExceptOf.throw, pure, Except.pure, Functor.map, Except.map]

theorem entriesBytes_length (es : List IndexEntryV1) :
    ((es.map IndexEntryV1.to_bytes).flatten).length = es.length * 48 := by
  induction es with
  | nil => simp
  | cons e es ih =>
    simp [IndexEntryV1.to_bytes_length_entry, ih, Nat.succ_mul]
    omega

theorem FurryIndexV1.to_bytes_length_index (idx : FurryIndexV1)
    (h : idx.header.reserved.length = 7) :
    idx.to_bytes.length = 32 + idx.entries.length * 48 := by
  simp [FurryIndexV1.to_bytes, leBytes_length, INDEX_MAGIC_length, h,
    entriesBytes_length idx.entries]
  omega

set_option maxHeartbeats 1000000 in
theorem FurryIndexV1.parse_to_bytes (idx : FurryIndexV1) (hwf : IndexWF idx) :
    FurryIndexV1.parse idx.to_bytes = .ok idx := by
  obtain ⟨⟨ver, fl, ec, asl, fmt, rsv⟩, es⟩ := idx
  obtain ⟨h1, h2, h3, h4, h5, h6, h7⟩ := hwf
  simp only at h1 h2 h3 h4 h5 h6 h7
  subst h1 h3
  have hsum : (List.map (List.length ∘ IndexEntryV1.to_bytes) es).sum = es.length * 48 := by
    have := entriesBytes_length es
    simpa [List.length_flatten, Function.comp] using this
  have e2 : fl % 65536 = fl := by omega
  have e3 : es.length % 4294967296 = es.length := by omega
  have e4 : asl % 18446744073709551616 = asl := by omega
  have e5 : fmt.toU8 % 256 = fmt.toU8 := by cases fmt <;> rfl
  have hb1 : [fmt.toU8] = leBytes 1 fmt.toU8 := by
    simp [leBytes]
    cases fmt <;> rfl
  have hparse := parseIndexEntries_to_bytes es [] h7
  rw [List.append_nil] at hparse
  simp only [FurryIndexV1.parse, FurryIndexV1.to_bytes, hb1, List.append_assoc]
  simp [takeBytes_append, INDEX_MAGIC_length, leBytes_length, h6, readLE_leBytes,
    hsum, e2, e3, e4, e5, OriginalFormat.from_u8_toU8, hparse,
    INDEX_VERSION, INDEX_HEADER_LEN, INDEX_ENTRY_LEN,
    Bind.bind, Except.bind, throw, throwThe, MonadExceptOf.throw, pure, Except.pure,
    Functor.map, Except.map, Nat.add_assoc]
  rw [if_neg (by omega), if_pos (by omega)]

/-- Audio entries sorted by `virtual_offset` (`audio_entries`; Rust
`sort_by_key` is a stable sort, modelled by insertion sort). -/
def FurryIndexV1.audio_entries (idx : FurryIndexV1) : List IndexEntryV1 :=
  (idx.entries.filter (fun e => e.chunk_type = .Audio)).insertionSort
    (fun a b => a.virtual_offset ≤ b.virtual_offset)

/-- All Meta entries in index order (`meta_entries`). -/
def FurryIndexV1.meta_entries (idx : FurryIndexV1) : List IndexEntryV1 :=
  idx.entries.filter (fun e => e.chunk_type = .Meta)

/-! ## furry_format: writer

Randomness (file id, salt, padding contents) and the output sink are
externalized: `create` takes the generated `file_id`/`salt` as arguments and
starts from an empty sink, and the sink is the `out` byte list. -/

structure FurryWriter where
  out : Bytes
  header : FurryHeaderV1
  keys : FileKeys
  index : FurryIndexV1
  chunk_seq : Nat
  current_offset : Nat
deriving DecidableEq, Repr

/-- `FurryWriter::create`: derive the file keys, write the placeholder
header, start counting at offset 96 and sequence 0. -/
def FurryWriter.create (C : CryptoModel) (master : MasterKey) (file_id salt : Bytes)
    (original_format : OriginalFormat) : FurryWriter :=
  let keys := C.deriveFileKeys master.bytes salt
  let header := FurryHeaderV1.new file_id salt
  { out := header.write_to
    header := header
    keys := keys
    index := FurryIndexV1.new 0 original_format
    chunk_seq := 0
    current_offset := FURRY_HEADER_LEN }

/-- `FurryWriter::write_chunk_internal`: assign the next `chunk_seq`, build
the chunk header (the `data.len() as u32` cast is `% 2 ^ 32`), AEAD-encrypt
the data with the per-chunk nonce and AAD, append header ∥ ciphertext ∥ tag,
advance `current_offset` by `record_len`, and append the per-type index entry
(Audio also grows `audio_stream_len`; an Index chunk type adds no entry). -/
def FurryWriter.write_chunk_internal (C : CryptoModel) (w : FurryWriter)
    (chunk_type : ChunkType) (data : Bytes) (virtual_offset meta_kind chunk_flags : Nat) :
    FurryWriter :=
  let chunk_seq := w.chunk_seq
  let chunk_header : ChunkRecordHeaderV1 :=
    { ChunkRecordHeaderV1.new chunk_type chunk_seq virtual_offset (data.length % 2 ^ 32)
        with chunk_flags := chunk_flags }
  let nonce := nonce_for_chunk w.keys.noncePre chunk_seq
  let aad := build_aad_v1 w.header.file_id w.header.version w.header.flags
    chunk_header.to_bytes
  let ct := C.aeadEncrypt w.keys.aead_key nonce aad data
  let file_offset := w.current_offset
  let record_len := chunk_header.record_len
  let index1 :=
    match chunk_type with
    | .Audio => { w.index with header := { w.index.header with
        audio_stream_len := w.index.header.audio_stream_len + data.length } }
    | _ => w.index
  let entry? : Option IndexEntryV1 :=
    match chunk_type with
    | .Audio => some (.new_audio chunk_seq file_offset record_len (data.length % 2 ^ 32)
        virtual_offset)
    | .Meta => some (.new_meta chunk_seq file_offset record_len (data.length % 2 ^ 32)
        (MetaKind.from_u16 meta_kind) chunk_flags)
    | .Padding => some (.new_padding chunk_seq file_offset record_len (data.length % 2 ^ 32))
    | .Index => none
  let index2 :=
    match entry? with
    | some e => index1.add_entry e
    | none => index1
  { w with
    out := w.out ++ chunk_header.write_to ++ ct.1 ++ ct.2
    index := index2
    chunk_seq := chunk_seq + 1
    current_offset := w.current_offset + record_len }

def FurryWriter.write_audio_chunk (C : CryptoModel) (w : FurryWriter) (data : Bytes)
    (virtual_offset : Nat) : FurryWriter :=
  FurryWriter.write_chunk_internal C w .Audio data virtual_offset 0 0

/-- `write_padding_chunk` fills a fresh buffer of `size` random bytes. -/
def FurryWriter.write_padding_chunk (C : CryptoModel) (w : FurryWriter) (size : Nat) :
    FurryWriter :=
  FurryWriter.write_chunk_internal C w .Padding (C.randBytes size) 0 0 0

def FurryWriter.write_meta_chunk (C : CryptoModel) (w : FurryWriter) (kind : MetaKind)
    (data : Bytes) (chunk_flags : Nat) : FurryWriter :=
  FurryWriter.write_chunk_internal C w .Meta data 0 kind.toU16 chunk_flags

/-- `FurryWriter::finish`: encrypt the serialized index as one more chunk
with the next `chunk_seq`, append it, then patch `index_offset` and
`index_total_len` into the header by rewriting the first 96 bytes. -/
def FurryWriter.finish (C : CryptoModel) (w : FurryWriter) : Bytes :=
  let index_offset := w.current_offset
  let index_data := w.index.to_bytes
  let index_plain_len := index_data.length % 2 ^ 32
  let chunk_seq := w.chunk_seq
  let chunk_header := ChunkRecordHeaderV1.new .Index chunk_seq 0 index_plain_len
  let nonce := nonce_for_chunk w.keys.noncePre chunk_seq
  let aad := build_aad_v1 w.header.file_id w.header.version w.header.flags
    chunk_header.to_bytes
  let ct := C.aeadEncrypt w.keys.aead_key nonce aad index_data
  let out := w.out ++ chunk_header.write_to ++ ct.1 ++ ct.2
  let index_total_len := chunk_header.record_len
  let header := { w.header with
    index_offset := index_offset
    index_total_len := index_total_len }
  header.write_to ++ out.drop FURRY_HEADER_LEN

/-! ## furry_format: reader -/

structure FurryReader where
  inner : Bytes
  header : FurryHeaderV1
  keys : FileKeys
  index : FurryIndexV1
deriving DecidableEq, Repr

/-- The index-loading part of `FurryReader::open`: seek to `index_offset`,
parse the chunk header, require chunk type Index, read ciphertext and tag,
decrypt with the chunk nonce and the header-bound AAD, parse the plaintext. -/
def FurryReader.read_and_decrypt_index (C : CryptoModel) (inner : Bytes)
    (header : FurryHeaderV1) (keys : FileKeys) : Except FormatError FurryIndexV1 := do
  let s := inner.drop header.index_offset
  let (chunk_header, s) ← ChunkRecordHeaderV1.read_from s
  if chunk_header.chunk_type ≠ ChunkType.Index then
    throw (FormatError.CorruptIndex "index_offset not pointing to INDEX chunk")
  let (ciphertext, s) ← takeBytes chunk_header.plain_len s
  let (tag, _s) ← takeBytes 16 s
  let nonce := nonce_for_chunk keys.noncePre chunk_header.chunk_seq
  let aad := build_aad_v1 header.file_id header.version header.flags chunk_header.to_bytes
  match C.aeadDecrypt keys.aead_key nonce aad ciphertext tag with
  | none => throw (FormatError.Crypto CryptoError.Aead)
  | some plain => FurryIndexV1.parse plain

/-- `FurryReader::open`: parse and validate the file header, derive the file
keys from the master key and the header salt, load and decrypt the index. -/
def FurryReader.open (C : CryptoModel) (inner : Bytes) (master : MasterKey) :
    Except FormatError FurryReader := do
  let header ← FurryHeaderV1.read_from inner
  let keys := C.deriveFileKeys master.bytes header.salt
  let index ← FurryReader.read_and_decrypt_index C inner header keys
  pure { inner, header, keys, index }

/-- `FurryReader::read_chunk`: seek to the entry's `file_offset`, parse the
chunk header, read `plain_len` ciphertext bytes and the 16-byte tag, decrypt
with the chunk nonce and the header-bound AAD, return the plaintext. -/
def FurryReader.read_chunk (C : CryptoModel) (r : FurryReader) (entry : IndexEntryV1) :
    Except FormatError Bytes := do
  let s := r.inner.drop entry.file_offset
  let (chunk_header, s) ← ChunkRecordHeaderV1.read_from s
  let (ciphertext, s) ← takeBytes chunk_header.plain_len s
  let (tag, _s) ← takeBytes 16 s
  let nonce := nonce_for_chunk r.keys.noncePre chunk_header.chunk_seq
  let aad := build_aad_v1 r.header.file_id r.header.version r.header.flags
    chunk_header.to_bytes
  match C.aeadDecrypt r.keys.aead_key nonce aad ciphertext tag with
  | none => throw (FormatError.Crypto CryptoError.Aead)
  | some plain => pure plain

/-- Modelled from the spec: `meta_entries_by_kind` is called by
`read_latest_meta` but its definition is missing from the provided sources
(only `meta_entries` is present).  Per the spec — §6 exposes
`index.meta_entries_by_kind(kind)` and §4.4 selects "the Meta entry with
matching `meta_kind`" — it returns the Meta entries whose `meta_kind` matches
the requested kind, in index order like `meta_entries`. -/
def FurryIndexV1.meta_entries_by_kind (idx : FurryIndexV1) (kind : MetaKind) :
    List IndexEntryV1 :=
  idx.entries.filter (fun e => e.chunk_type = .Meta ∧ MetaKind.from_u16 e.meta_kind = kind)

/-- `FurryReader::read_latest_meta`: take the last matching Meta entry,
return `None` if there is none or its `plain_len` exceeds the per-kind cap,
else decrypt it. -/
def FurryReader.read_latest_meta (C : CryptoModel) (r : FurryReader) (kind : MetaKind) :
    Except FormatError (Option Bytes) :=
  match (r.index.meta_entries_by_kind kind).getLast? with
  | none => .ok none
  | some entry =>
    let max_plain_len : Nat :=
      match kind with
      | .Tags => 256 * 1024
      | .Lyrics => 2 * 1024 * 1024
      | .CoverArt => 64 * 1024 * 1024
      | .Unknown => 256 * 1024
    if entry.plain_len > max_plain_len then
      .ok none
    else do
      let d ← FurryReader.read_chunk C r entry
      pure (some d)

/-! ## furry_player: virtual stream -/

/-- `furry_player::virtual_stream::StreamError`. -/
inductive StreamError
  | Io
  | Format (e : FormatError)
  | SeekOutOfBounds
deriving DecidableEq, Repr

/-- Error side of the `std::io` results returned by the stream's `Read` and
`Seek` implementations: `invalidInput` is the negative-seek error,
`other` wraps a `StreamError` (`std::io::Error::other`), and `panicked`
models the `unwrap()` in `read` (unreachable in the verified paths). -/
inductive StreamIoError
  | invalidInput
  | other (e : StreamError)
  | panicked
deriving DecidableEq, Repr

/-- `std::io::SeekFrom`; a `Start` offset is a u64, the others are i64. -/
inductive SeekFrom
  | Start (offset : Nat)
  | End (offset : Int)
  | Current (offset : Int)
deriving DecidableEq, Repr

structure ChunkCache where
  data : Bytes
  virtual_start : Nat
deriving DecidableEq, Repr

structure VirtualAudioStream where
  reader : FurryReader
  audio_entries : List IndexEntryV1
  total_len : Nat
  position : Nat
  current_chunk : Option ChunkCache
deriving DecidableEq, Repr

/-- `VirtualAudioStream::open` (the `File::open` of the path is externalized:
the file content is passed as bytes). -/
def VirtualAudioStream.open (C : CryptoModel) (file : Bytes) (master : MasterKey) :
    Except StreamError VirtualAudioStream :=
  match FurryReader.open C file master with
  | .error e => .error (.Format e)
  | .ok reader =>
    .ok { reader := reader
          audio_entries := reader.index.audio_entries
          total_len := reader.index.header.audio_stream_len
          position := 0
          current_chunk := none }

/-- `find_chunk_index`: the source runs `binary_search_by` with an interval
comparator over the sorted, disjoint audio entries; over such entries the
comparator matches at most one index, which is equally the first match of a
linear scan. -/
def VirtualAudioStream.find_chunk_index (s : VirtualAudioStream) (virtual_offset : Nat) :
    Option Nat :=
  s.audio_entries.findIdx? (fun e =>
    e.virtual_offset ≤ virtual_offset ∧ virtual_offset < e.virtual_offset + e.plain_len)

/-- `ensure_chunk_loaded`: nothing to do at EOF or when the cache covers the
position; otherwise locate the covering entry (`find_chunk_index` followed by
indexing, modelled as `find?`), decrypt it and cache it. -/
def VirtualAudioStream.ensure_chunk_loaded (C : CryptoModel) (s : VirtualAudioStream) :
    Except StreamError VirtualAudioStream :=
  if s.position ≥ s.total_len then .ok s
  else
    let need_load :=
      match s.current_chunk with
      | none => true
      | some cache =>
        s.position < cache.virtual_start ||
          s.position ≥ cache.virtual_start + cache.data.length
    if need_load then
      match s.audio_entries.find? (fun e =>
          e.virtual_offset ≤ s.position ∧ s.position < e.virtual_offset + e.plain_len) with
      | none => .error .SeekOutOfBounds
      | some entry =>
        match FurryReader.read_chunk C s.reader entry with
        | .error e => .error (.Format e)
        | .ok data =>
          .ok { s with current_chunk := some ⟨data, entry.virtual_offset⟩ }
    else .ok s

/-- `Read::read` for the stream with a buffer of length `buf_len`: EOF at or
past `total_len`, else load the covering chunk and copy up to
`min buf_len available` bytes from the cache, advancing the position. -/
def VirtualAudioStream.read (C : CryptoModel) (s : VirtualAudioStream) (buf_len : Nat) :
    Except StreamIoError (Bytes × VirtualAudioStream) :=
  if s.position ≥ s.total_len then .ok ([], s)
  else
    match VirtualAudioStream.ensure_chunk_loaded C s with
    | .error e => .error (.other e)
    | .ok s1 =>
      match s1.current_chunk with
      | none => .error .panicked
      | some cache =>
        let offset_in_chunk := s1.position - cache.virtual_start
        let available := cache.data.length - offset_in_chunk
        let to_read := min buf_len available
        let bytes := (cache.data.drop offset_in_chunk).take to_read
        .ok (bytes, { s1 with position := s1.position + to_read })

/-- The `offset as i64` cast of a u64 value (two's complement wrap). -/
def i64ofU64 (v : Nat) : Int :=
  if v < 2 ^ 63 then (v : Int) else (v : Int) - 2 ^ 64

/-- `Seek::seek` for the stream: compute the absolute position as an i64
(a `Start` u64 offset is cast, so offsets ≥ 2^63 go negative), reject
negative positions with an invalid-input error, and otherwise set the
position without clamping to the stream length. -/
def VirtualAudioStream.seek (s : VirtualAudioStream) (pos : SeekFrom) :
    Except StreamIoError (Nat × VirtualAudioStream) :=
  let new_pos : Int :=
    match pos with
    | .Start offset => i64ofU64 offset
    | .End offset => i64ofU64 s.total_len + offset
    | .Current offset => i64ofU64 s.position + offset
  if new_pos < 0 then .error .invalidInput
  else .ok (new_pos.toNat, { s with position := new_pos.toNat })

/-- Consumer loop reading exactly `n` bytes from the stream by repeated
`read` calls (partial reads are allowed, so callers loop; a zero-length read
signals EOF and stops the loop). -/
def readLoop (C : CryptoModel) (s : VirtualAudioStream) (n : Nat) :
    Except StreamIoError (Bytes × VirtualAudioStream) :=
  if _hn : n = 0 then .ok ([], s)
  else
    match VirtualAudioStream.read C s n with
    | .error e => .error e
    | .ok (bytes, s1) =>
      if _hb : bytes.length = 0 then .ok ([], s1)
      else
        match readLoop C s1 (n - bytes.length) with
        | .error e => .error e
        | .ok (rest, s2) => .ok (bytes ++ rest, s2)
termination_by n
decreasing_by omega

/-! ## furry_converter -/

/-- `furry_converter::PackOptions`. -/
structure PackOptions where
  chunk_size : Nat
  padding_bytes : Nat
  padding_chunk_size : Nat
  include_meta : Bool
deriving DecidableEq, Repr

def PackOptions.default : PackOptions where
  chunk_size := 256 * 1024
  padding_bytes := 0
  padding_chunk_size := 64 * 1024
  include_meta := true

/-- Extracted cover art (`furry_converter::CoverArt`). -/
structure CoverArt where
  mime : Bytes
  bytes : Bytes
deriving DecidableEq, Repr

/-- Result of `extract_meta_from_path` (`furry_converter::ExtractedMeta`);
the symphonia-based extraction itself is external input to `pack_to_furry`
in this model. -/
structure ExtractedMeta where
  tags_json : Option Bytes
  cover : Option CoverArt
  lyrics : Option Bytes
deriving DecidableEq, Repr

/-- One writer call of the pack sequence; lets the writer lemmas quantify
over arbitrary interleavings of audio, meta, and padding writes. -/
inductive WriteOp
  | audio (data : Bytes) (virtual_offset : Nat)
  | metaW (kind : MetaKind) (data : Bytes) (chunk_flags : Nat)
  | padding (size : Nat)
deriving DecidableEq, Repr

def applyOp (C : CryptoModel) (w : FurryWriter) : WriteOp → FurryWriter
  | .audio data voff => FurryWriter.write_audio_chunk C w data voff
  | .metaW kind data flags => FurryWriter.write_meta_chunk C w kind data flags
  | .padding size => FurryWriter.write_padding_chunk C w size

def runOps (C : CryptoModel) (w : FurryWriter) (ops : List WriteOp) : FurryWriter :=
  ops.foldl (applyOp C) w

/-- The meta chunk writes of `pack_to_furry` (tags, then cover art with the
`mime ∥ 0x00 ∥ image` payload, then lyrics), performed when `include_meta` is
set and metadata extraction succeeded. -/
def metaOps (opts : PackOptions) (meta : Option ExtractedMeta) : List WriteOp :=
  match opts.include_meta, meta with
  | true, some m =>
    (match m.tags_json with | some t => [.metaW .Tags t 0] | none => []) ++
    (match m.cover with
      | some c => [.metaW .CoverArt (c.mime ++ [0] ++ c.bytes) 0]
      | none => []) ++
    (match m.lyrics with | some l => [.metaW .Lyrics l 0] | none => [])
  | _, _ => []

/-- The audio chunk writes of the read loop in `pack_to_furry`: `read_full`
fills the `chunk_size` buffer, so each chunk is `take chunk_size` of the
remaining input (the last may be short) and `virtual_offset` accumulates the
bytes read.  With `chunk_size = 0` the loop reads 0 bytes and stops at once. -/
def audioOps (chunk_size : Nat) (input : Bytes) (virtual_offset : Nat) : List WriteOp :=
  if chunk_size = 0 ∨ input = [] then []
  else
    .audio (input.take chunk_size) virtual_offset ::
      audioOps chunk_size (input.drop chunk_size)
        (virtual_offset + (input.take chunk_size).length)
termination_by input.length
decreasing_by
  rename_i h
  push_neg at h
  have : input.length ≠ 0 := by
    intro hlen
    exact h.2 (List.eq_nil_of_length_eq_zero hlen)
  simp [List.length_drop]
  omega

/-- Chunk sizes produced by the padding loop of `pack_to_furry`:
`min remaining padding_chunk_size` repeatedly until `remaining` is zero.
With `padding_chunk_size = 0` and nonzero `remaining` the source loop never
terminates; the claims assume valid options (`padding_chunk_size > 0`),
under which this function agrees with the loop. -/
def paddingSizes (remaining padding_chunk_size : Nat) : List Nat :=
  if remaining = 0 then []
  else if padding_chunk_size = 0 then []
  else
    min remaining padding_chunk_size ::
      paddingSizes (remaining - min remaining padding_chunk_size) padding_chunk_size
termination_by remaining
decreasing_by
  rename_i h1 h2
  omega

/-- The full sequence of chunk writes performed by `pack_to_furry`. -/
def packOps (opts : PackOptions) (input : Bytes) (meta : Option ExtractedMeta) :
    List WriteOp :=
  metaOps opts meta ++ audioOps opts.chunk_size input 0 ++
    (paddingSizes opts.padding_bytes opts.padding_chunk_size).map .padding

/-- `pack_to_furry`: create the writer, write meta chunks, chunk the input
into audio chunks, write padding, finish.  `meta` is the (external)
`extract_meta_from_path` result for the optional input path, and
`file_id`/`salt` are the random bytes drawn at create time. -/
def pack_to_furry (C : CryptoModel) (input : Bytes) (meta : Option ExtractedMeta)
    (original_format : OriginalFormat) (master : MasterKey) (opts : PackOptions)
    (file_id salt : Bytes) : Bytes :=
  FurryWriter.finish C
    (runOps C (FurryWriter.create C master file_id salt original_format)
      (packOps opts input meta))

/-- The output loop of `unpack_from_furry`: decrypt each audio chunk in
order and append its plaintext to the output. -/
def readConcat (C : CryptoModel) (r : FurryReader) :
    List IndexEntryV1 → Except FormatError Bytes
  | [] => .ok []
  | e :: es => do
    let data ← FurryReader.read_chunk C r e
    let rest ← readConcat C r es
    .ok (data ++ rest)

/-- `unpack_from_furry`: open the reader, then write out the plaintext of
every audio entry in `virtual_offset` order; returns the recorded original
format together with the produced output bytes. -/
def unpack_from_furry (C : CryptoModel) (input : Bytes) (master : MasterKey) :
    Except FormatError (OriginalFormat × Bytes) := do
  let reader ← FurryReader.open C input master
  let original_format := reader.index.header.original_format
  let out ← readConcat C reader reader.index.audio_entries
  pure (original_format, out)

/-! ## Derived forms: what one writer call contributes to the state

These definitions name, per `WriteOp`, the chunk header, plaintext, on-disk
record, and index entry that `write_chunk_internal` produces, so that a whole
write sequence can be described by folds over the op list. -/

def opChunkType : WriteOp → ChunkType
  | .audio _ _ => .Audio
  | .metaW _ _ _ => .Meta
  | .padding _ => .Padding

def opPlain (C : CryptoModel) : WriteOp → Bytes
  | .audio data _ => data
  | .metaW _ data _ => data
  | .padding size => C.randBytes size

def opVoff : WriteOp → Nat
  | .audio _ voff => voff
  | .metaW _ _ _ => 0
  | .padding _ => 0

def opFlags : WriteOp → Nat
  | .audio _ _ => 0
  | .metaW _ _ flags => flags
  | .padding _ => 0

def opAudioLen : WriteOp → Nat
  | .audio data _ => data.length
  | .metaW _ _ _ => 0
  | .padding _ => 0

/-- The chunk header `write_chunk_internal` builds for `op` at sequence
number `seq`. -/
def opChunkHeader (C : CryptoModel) (op : WriteOp) (seq : Nat) : ChunkRecordHeaderV1 :=
  { ChunkRecordHeaderV1.new (opChunkType op) seq (opVoff op)
      ((opPlain C op).length % 2 ^ 32) with
    chunk_flags := opFlags op }

/-- On-disk record for a chunk: header bytes, then the AEAD ciphertext of
`data` under the chunk nonce and header-bound AAD, then the tag. -/
def encRecord (C : CryptoModel) (keys : FileKeys) (hv hf : Nat) (fid : Bytes)
    (ch : ChunkRecordHeaderV1) (data : Bytes) : Bytes :=
  let nonce := nonce_for_chunk keys.noncePre ch.chunk_seq
  let aad := build_aad_v1 fid hv hf ch.to_bytes
  let ct := C.aeadEncrypt keys.aead_key nonce aad data
  ch.to_bytes ++ ct.1 ++ ct.2

/-- `record_len` of the chunk written for `op`. -/
def opRecLen (C : CryptoModel) (op : WriteOp) : Nat :=
  CHUNK_HEADER_LEN + (opPlain C op).length % 2 ^ 32 + 16

/-- The index entry `write_chunk_internal` adds for `op` at sequence `seq`
and file offset `off`. -/
def opEntry (C : CryptoModel) (op : WriteOp) (seq off : Nat) : IndexEntryV1 :=
  match op with
  | .audio data voff =>
    .new_audio seq off (opRecLen C op) (data.length % 2 ^ 32) voff
  | .metaW kind data flags =>
    .new_meta seq off (opRecLen C op) (data.length % 2 ^ 32) kind flags
  | .padding size =>
    .new_padding seq off (opRecLen C op) ((C.randBytes size).length % 2 ^ 32)

/-- Bytes appended to the sink by a sequence of writes starting at `seq`. -/
def opsBytes (C : CryptoModel) (keys : FileKeys) (hv hf : Nat) (fid : Bytes)
    (seq : Nat) : List WriteOp → Bytes
  | [] => []
  | op :: rest =>
    encRecord C keys hv hf fid (opChunkHeader C op seq) (opPlain C op)
      ++ opsBytes C keys hv hf fid (seq + 1) rest

/-- Index entries appended by a sequence of writes starting at sequence
`seq` and file offset `off`. -/
def opsEntries (C : CryptoModel) (seq off : Nat) : List WriteOp → List IndexEntryV1
  | [] => []
  | op :: rest =>
    opEntry C op seq off :: opsEntries C (seq + 1) (off + opRecLen C op) rest

def opsRecLenSum (C : CryptoModel) : List WriteOp → Nat
  | [] => 0
  | op :: rest => opRecLen C op + opsRecLenSum C rest

def opsAudioLen (C : CryptoModel) : List WriteOp → Nat
  | [] => 0
  | op :: rest => opAudioLen op + opsAudioLen C rest

theorem applyOp_spec (C : CryptoModel) (w : FurryWriter) (op : WriteOp) :
    applyOp C w op = { w with
      out := w.out ++ encRecord C w.keys w.header.version w.header.flags w.header.file_id
        (opChunkHeader C op w.chunk_seq) (opPlain C op),
      chunk_seq := w.chunk_seq + 1,
      current_offset := w.current_offset + opRecLen C op,
      index := {
        header := { w.index.header with
          audio_stream_len := w.index.header.audio_stream_len + opAudioLen op,
          entry_count := (w.index.entries.length + 1) % 2 ^ 32 },
        entries := w.index.entries ++ [opEntry C op w.chunk_seq w.current_offset] } } := by
  cases op <;>
    simp [applyOp, FurryWriter.write_audio_chunk, FurryWriter.write_meta_chunk,
      FurryWriter.write_padding_chunk, FurryWriter.write_chunk_internal,
      FurryIndexV1.add_entry, encRecord, opChunkHeader, opChunkType, opPlain, opVoff,
      opFlags, opAudioLen, opRecLen, opEntry, ChunkRecordHeaderV1.record_len,
      ChunkRecordHeaderV1.write_to, ChunkRecordHeaderV1.new, MetaKind.from_u16_toU16]

theorem runOps_spec (C : CryptoModel) (ops : List WriteOp) (w : FurryWriter) :
    (runOps C w ops).header = w.header ∧
    (runOps C w ops).keys = w.keys ∧
    (runOps C w ops).chunk_seq = w.chunk_seq + ops.length ∧
    (runOps C w ops).out = w.out
      ++ opsBytes C w.keys w.header.version w.header.flags w.header.file_id w.chunk_seq ops ∧
    (runOps C w ops).current_offset = w.current_offset + opsRecLenSum C ops ∧
    (runOps C w ops).index.entries
      = w.index.entries ++ opsEntries C w.chunk_seq w.current_offset ops ∧
    (runOps C w ops).index.header.audio_stream_len
      = w.index.header.audio_stream_len + opsAudioLen C ops ∧
    (runOps C w ops).index.header.original_format = w.index.header.original_format ∧
    (runOps C w ops).index.header.version = w.index.header.version ∧
    (runOps C w ops).index.header.flags = w.index.header.flags ∧
    (runOps C w ops).index.header.reserved = w.index.header.reserved ∧
    (runOps C w ops).index.header.entry_count
      = (if ops.isEmpty then w.index.header.entry_count
         else (w.index.entries.length + ops.length) % 2 ^ 32) := by
  induction ops generalizing w with
  | nil => simp [runOps, opsBytes, opsEntries, opsRecLenSum, opsAudioLen]
  | cons op rest ih =>
    have hstep := applyOp_spec C w op
    have hrun : runOps C w (op :: rest) = runOps C (applyOp C w op) rest := rfl
    obtain ⟨i1, i2, i3, i4, i5, i6, i7, i8, i9, i10, i11, i12⟩ := ih (applyOp C w op)
    rw [hrun]
    refine ⟨?_, ?_, ?_, ?_, ?_, ?_, ?_, ?_, ?_, ?_, ?_, ?_⟩
    · rw [i1, hstep]
    · rw [i2, hstep]
    · rw [i3, hstep]
      simp
      omega
    · rw [i4, hstep]
      simp [opsBytes, List.append_assoc]
    · rw [i5, hstep]
      simp [opsRecLenSum]
      omega
    · rw [i6, hstep]
      simp [opsEntries, List.append_assoc]
    · rw [i7, hstep]
      simp [opsAudioLen]
      omega
    · rw [i8, hstep]
    · rw [i9, hstep]
    · rw [i10, hstep]
    · rw [i11, hstep]
    · rw [i12, hstep]
      simp
      cases rest with
      | nil => simp
      | cons r rs => simp [Nat.add_assoc, Nat.add_comm 1 _]

theorem drop_append_of_le (n : Nat) (a b : Bytes) (h : n ≤ a.length) :
    (a ++ b).drop n = a.drop n ++ b := by
  rw [List.drop_append_eq_append_drop, Nat.sub_eq_zero_of_le h, List.drop_zero]

/-- What `finish` produces: the patched header, the already-written records,
and the encrypted index chunk. -/
theorem finish_spec (C : CryptoModel) (w : FurryWriter) (hlen : 96 ≤ w.out.length) :
    FurryWriter.finish C w =
      ({ w.header with
          index_offset := w.current_offset,
          index_total_len :=
            CHUNK_HEADER_LEN + w.index.to_bytes.length % 2 ^ 32 + 16 }).write_to
        ++ w.out.drop 96
        ++ encRecord C w.keys w.header.version w.header.flags w.header.file_id
            (ChunkRecordHeaderV1.new .Index w.chunk_seq 0 (w.index.to_bytes.length % 2 ^ 32))
            w.index.to_bytes := by
  simp [FurryWriter.finish, encRecord, ChunkRecordHeaderV1.record_len,
    ChunkRecordHeaderV1.write_to, FURRY_HEADER_LEN,
    drop_append_of_le 96 w.out _ hlen, ChunkRecordHeaderV1.new]

/-- Boundedness of a write sequence: few enough chunks and small enough
plaintexts for every explicit cast and every header field to round-trip. -/
def OpsWF (C : CryptoModel) (ops : List WriteOp) : Prop :=
  ops.length ≤ 2 ^ 26 ∧
  ∀ op ∈ ops, (opPlain C op).length ≤ 2 ^ 26 ∧ opVoff op < 2 ^ 64 ∧ opFlags op < 256

theorem opsEntries_length (C : CryptoModel) (ops : List WriteOp) (seq off : Nat) :
    (opsEntries C seq off ops).length = ops.length := by
  induction ops generalizing seq off with
  | nil => rfl
  | cons op rest ih => simp [opsEntries, ih]

theorem encRecord_length (C : CryptoModel) (hC : C.Sound) (keys : FileKeys)
    (hv hf : Nat) (fid : Bytes) (ch : ChunkRecordHeaderV1) (data : Bytes) :
    (encRecord C keys hv hf fid ch data).length = 40 + data.length + 16 := by
  obtain ⟨henc, htag, -, -⟩ := hC
  simp [encRecord, ChunkRecordHeaderV1.to_bytes_length_chunk, henc, htag]
  omega

theorem opsBytes_length (C : CryptoModel) (hC : C.Sound) (keys : FileKeys)
    (hv hf : Nat) (fid : Bytes) (seq : Nat) (ops : List WriteOp)
    (hsmall : ∀ op ∈ ops, (opPlain C op).length < 2 ^ 32) :
    (opsBytes C keys hv hf fid seq ops).length = opsRecLenSum C ops := by
  induction ops generalizing seq with
  | nil => rfl
  | cons op rest ih =>
    have h1 : (opPlain C op).length % 2 ^ 32 = (opPlain C op).length :=
      Nat.mod_eq_of_lt (hsmall op (by simp))
    have ih' := ih (seq + 1) (fun x hx => hsmall x (List.mem_cons_of_mem op hx))
    simp [opsBytes, opsRecLenSum, encRecord_length C hC, opRecLen, CHUNK_HEADER_LEN,
      h1, ih']
    omega

theorem opsRecLenSum_le (C : CryptoModel) (ops : List WriteOp)
    (h : ∀ op ∈ ops, (opPlain C op).length ≤ 2 ^ 26) :
    opsRecLenSum C ops ≤ ops.length * (56 + 2 ^ 26) := by
  induction ops with
  | nil => simp [opsRecLenSum]
  | cons op rest ih =>
    have h1 : (opPlain C op).length % 2 ^ 32 ≤ 2 ^ 26 :=
      le_trans (Nat.mod_le _ _) (h op (by simp))
    have h2 := ih (fun x hx => h x (by simp [hx]))
    simp only [opsRecLenSum, opRecLen, CHUNK_HEADER_LEN, List.length_cons, Nat.succ_mul]
    omega

theorem opsAudioLen_le (C : CryptoModel) (ops : List WriteOp)
    (h : ∀ op ∈ ops, (opPlain C op).length ≤ 2 ^ 26) :
    opsAudioLen C ops ≤ opsRecLenSum C ops := by
  induction ops with
  | nil => simp [opsAudioLen, opsRecLenSum]
  | cons op rest ih =>
    have h2 := ih (fun x hx => h x (by simp [hx]))
    have h3 : opAudioLen op ≤ opRecLen C op := by
      cases op with
      | audio data voff =>
        have : data.length ≤ 2 ^ 26 := by
          have := h (.audio data voff) (by simp)
          simpa [opPlain] using this
        have : data.length % 2 ^ 32 = data.length := Nat.mod_eq_of_lt (by omega)
        simp [opAudioLen, opRecLen, opPlain, CHUNK_HEADER_LEN, this]
        omega
      | metaW kind data flags => simp [opAudioLen, opRecLen]
      | padding size => simp [opAudioLen, opRecLen]
    simp only [opsAudioLen, opsRecLenSum]
    omega

theorem opEntry_wf (C : CryptoModel) (op : WriteOp) (seq off : Nat)
    (h1 : (opPlain C op).length ≤ 2 ^ 26) (h2 : opVoff op < 2 ^ 64)
    (h3 : opFlags op < 256) (hseq : seq < 2 ^ 64) (hoff : off < 2 ^ 64) :
    EntryWF (opEntry C op seq off) := by
  have hrl : opRecLen C op < 2 ^ 32 := by
    have : (opPlain C op).length % 2 ^ 32 ≤ 2 ^ 26 := le_trans (Nat.mod_le _ _) h1
    simp only [opRecLen, CHUNK_HEADER_LEN]
    omega
  cases op with
  | audio data voff =>
    simp only [opVoff] at h2
    simp only [opEntry, EntryWF, IndexEntryV1.new_audio]
    exact ⟨hseq, hoff, hrl, Nat.mod_lt _ (by norm_num), h2, by norm_num, by norm_num,
      by norm_num, by norm_num, by norm_num, by norm_num⟩
  | metaW kind data flags =>
    simp only [opFlags] at h3
    simp only [opEntry, EntryWF, IndexEntryV1.new_meta]
    exact ⟨hseq, hoff, hrl, Nat.mod_lt _ (by norm_num), by norm_num, h3, by norm_num,
      by cases kind <;> norm_num [MetaKind.toU16], by norm_num, by norm_num, by norm_num⟩
  | padding size =>
    simp only [opEntry, EntryWF, IndexEntryV1.new_padding]
    exact ⟨hseq, hoff, hrl, Nat.mod_lt _ (by norm_num), by norm_num, by norm_num,
      by norm_num, by norm_num, by norm_num, by norm_num, by norm_num⟩

theorem opsEntries_wf (C : CryptoModel) (ops : List WriteOp) (seq off : Nat)
    (hseq : seq + ops.length ≤ 2 ^ 64) (hoff : off + opsRecLenSum C ops ≤ 2 ^ 64)
    (hops : ∀ op ∈ ops, (opPlain C op).length ≤ 2 ^ 26 ∧ opVoff op < 2 ^ 64 ∧
      opFlags op < 256) :
    ∀ e ∈ opsEntries C seq off ops, EntryWF e := by
  induction ops generalizing seq off with
  | nil => simp [opsEntries]
  | cons op rest ih =>
    intro e he
    obtain ⟨hop1, hop2, hop3⟩ := hops op (by simp)
    have hpos : 0 < opRecLen C op := by
      simp [opRecLen, CHUNK_HEADER_LEN]
    simp only [opsEntries, List.mem_cons] at he
    rcases he with he | he
    · subst he
      refine opEntry_wf C op seq off hop1 hop2 hop3 ?_ ?_
      · simp at hseq
        omega
      · simp only [opsRecLenSum] at hoff
        omega
    · exact ih (seq + 1) (off + opRecLen C op) (by simp at hseq ⊢; omega)
        (by simp only [opsRecLenSum] at hoff; omega)
        (fun x hx => hops x (List.mem_cons_of_mem op hx)) e he

/-! ## The packed file, characterized -/

def packKeys (C : CryptoModel) (master : MasterKey) (salt : Bytes) : FileKeys :=
  C.deriveFileKeys master.bytes salt

/-- The index a `pack_to_furry` run serializes at finish time. -/
def packedIndex (C : CryptoModel) (input : Bytes) (meta : Option ExtractedMeta)
    (fmt : OriginalFormat) (opts : PackOptions) : FurryIndexV1 where
  header :=
    { version := 1
      flags := 0
      entry_count :=
        if (packOps opts input meta).isEmpty then 0
        else (packOps opts input meta).length % 2 ^ 32
      audio_stream_len := opsAudioLen C (packOps opts input meta)
      original_format := fmt
      reserved := List.replicate 7 0 }
  entries := opsEntries C 0 96 (packOps opts input meta)

/-- The final (patched) file header a `pack_to_furry` run writes. -/
def packedHeader (C : CryptoModel) (input : Bytes) (meta : Option ExtractedMeta)
    (fmt : OriginalFormat) (opts : PackOptions) (fid salt : Bytes) : FurryHeaderV1 :=
  { FurryHeaderV1.new fid salt with
    index_offset := 96 + opsRecLenSum C (packOps opts input meta),
    index_total_len :=
      CHUNK_HEADER_LEN + (packedIndex C input meta fmt opts).to_bytes.length % 2 ^ 32 + 16 }

/-- The reader state obtained by opening a packed file. -/
def packedReader (C : CryptoModel) (input : Bytes) (meta : Option ExtractedMeta)
    (fmt : OriginalFormat) (master : MasterKey) (opts : PackOptions)
    (fid salt : Bytes) : FurryReader where
  inner := pack_to_furry C input meta fmt master opts fid salt
  header := packedHeader C input meta fmt opts fid salt
  keys := packKeys C master salt
  index := packedIndex C input meta fmt opts

def packWriter (C : CryptoModel) (input : Bytes) (meta : Option ExtractedMeta)
    (fmt : OriginalFormat) (master : MasterKey) (opts : PackOptions)
    (fid salt : Bytes) : FurryWriter :=
  runOps C (FurryWriter.create C master fid salt fmt) (packOps opts input meta)

theorem pack_eq_finish (C : CryptoModel) (input : Bytes) (meta : Option ExtractedMeta)
    (fmt : OriginalFormat) (master : MasterKey) (opts : PackOptions) (fid salt : Bytes) :
    pack_to_furry C input meta fmt master opts fid salt
      = FurryWriter.finish C (packWriter C input meta fmt master opts fid salt) := rfl

theorem packWriter_spec (C : CryptoModel) (input : Bytes) (meta : Option ExtractedMeta)
    (fmt : OriginalFormat) (master : MasterKey) (opts : PackOptions) (fid salt : Bytes) :
    (packWriter C input meta fmt master opts fid salt).header = FurryHeaderV1.new fid salt ∧
    (packWriter C input meta fmt master opts fid salt).keys = packKeys C master salt ∧
    (packWriter C input meta fmt master opts fid salt).chunk_seq
      = (packOps opts input meta).length ∧
    (packWriter C input meta fmt master opts fid salt).out
      = (FurryHeaderV1.new fid salt).write_to
        ++ opsBytes C (packKeys C master salt) 1 0 fid 0 (packOps opts input meta) ∧
    (packWriter C input meta fmt master opts fid salt).current_offset
      = 96 + opsRecLenSum C (packOps opts input meta) ∧
    (packWriter C input meta fmt master opts fid salt).index
      = packedIndex C input meta fmt opts := by
  obtain ⟨r1, r2, r3, r4, r5, r6, r7, r8, r9, r10, r11, r12⟩ :=
    runOps_spec C (packOps opts input meta)
      (FurryWriter.create C master fid salt fmt)
  have hidx : (packWriter C input meta fmt master opts fid salt).index
      = ⟨⟨(packWriter C input meta fmt master opts fid salt).index.header.version,
          (packWriter C input meta fmt master opts fid salt).index.header.flags,
          (packWriter C input meta fmt master opts fid salt).index.header.entry_count,
          (packWriter C input meta fmt master opts fid salt).index.header.audio_stream_len,
          (packWriter C input meta fmt master opts fid salt).index.header.original_format,
          (packWriter C input meta fmt master opts fid salt).index.header.reserved⟩,
        (packWriter C input meta fmt master opts fid salt).index.entries⟩ := rfl
  refine ⟨?_, ?_, ?_, ?_, ?_, ?_⟩
  · rw [show packWriter C input meta fmt master opts fid salt
        = runOps C (FurryWriter.create C master fid salt fmt) (packOps opts input meta)
        from rfl, r1]
    simp [FurryWriter.create]
  · rw [show packWriter C input meta fmt master opts fid salt
        = runOps C (FurryWriter.create C master fid salt fmt) (packOps opts input meta)
        from rfl, r2]
    simp [FurryWriter.create, packKeys]
  · rw [show packWriter C input meta fmt master opts fid salt
        = runOps C (FurryWriter.create C master fid salt fmt) (packOps opts input meta)
        from rfl, r3]
    simp [FurryWriter.create]
  · rw [show packWriter C input meta fmt master opts fid salt
        = runOps C (FurryWriter.create C master fid salt fmt) (packOps opts input meta)
        from rfl, r4]
    simp [FurryWriter.create, FurryHeaderV1.new, packKeys, FURRY_VERSION]
  · rw [show packWriter C input meta fmt master opts fid salt
        = runOps C (FurryWriter.create C master fid salt fmt) (packOps opts input meta)
        from rfl, r5]
    simp [FurryWriter.create, FURRY_HEADER_LEN]
  · rw [hidx]
    rw [show packWriter C input meta fmt master opts fid salt
        = runOps C (FurryWriter.create C master fid salt fmt) (packOps opts input meta)
        from rfl] at *
    rw [r6, r7, r8, r9, r10, r11, r12]
    simp [FurryWriter.create, FurryIndexV1.new, IndexHeaderV1.new, packedIndex,
      INDEX_VERSION, FURRY_HEADER_LEN]

theorem takeBytes_exact (n : Nat) (l : Bytes) (h : l.length = n) :
    takeBytes n l = .ok (l, []) := by
  subst h
  simp [takeBytes, List.take_length, List.drop_length]

theorem pack_decomp (C : CryptoModel) (input : Bytes)
    (meta : Option ExtractedMeta) (fmt : OriginalFormat) (master : MasterKey)
    (opts : PackOptions) (fid salt : Bytes)
    (hfid : fid.length = 16) (hsalt : salt.length = 16) :
    pack_to_furry C input meta fmt master opts fid salt
      = (packedHeader C input meta fmt opts fid salt).write_to
        ++ opsBytes C (packKeys C master salt) 1 0 fid 0 (packOps opts input meta)
        ++ encRecord C (packKeys C master salt) 1 0 fid
            (ChunkRecordHeaderV1.new .Index (packOps opts input meta).length 0
              ((packedIndex C input meta fmt opts).to_bytes.length % 2 ^ 32))
            (packedIndex C input meta fmt opts).to_bytes := by
  obtain ⟨p1, p2, p3, p4, p5, p6⟩ := packWriter_spec C input meta fmt master opts fid salt
  have h96 : (FurryHeaderV1.new fid salt).write_to.length = 96 :=
    FurryHeaderV1.write_to_length _ (by simp [FurryHeaderV1.new, hfid])
      (by simp [FurryHeaderV1.new, hsalt]) (by simp [FurryHeaderV1.new])
  have hlen : 96 ≤ (packWriter C input meta fmt master opts fid salt).out.length := by
    rw [p4]
    simp [h96]
  have hdrop : ((FurryHeaderV1.new fid salt).write_to
        ++ opsBytes C (packKeys C master salt) 1 0 fid 0 (packOps opts input meta)).drop 96
      = opsBytes C (packKeys C master salt) 1 0 fid 0 (packOps opts input meta) := by
    rw [← h96, List.drop_left]
  rw [pack_eq_finish, finish_spec C _ hlen, p1, p2, p3, p4, p5, p6, hdrop]
  simp [packedHeader, FurryHeaderV1.new, FURRY_VERSION]

/-- Field bounds needed for the packed file to parse back; established from
`OpsWF` of the pack op sequence. -/
theorem packed_bounds (C : CryptoModel) (input : Bytes)
    (meta : Option ExtractedMeta) (fmt : OriginalFormat) (opts : PackOptions)
    (fid salt : Bytes) (hfid : fid.length = 16) (hsalt : salt.length = 16)
    (hops : OpsWF C (packOps opts input meta)) :
    HeaderWF (packedHeader C input meta fmt opts fid salt) ∧
    IndexWF (packedIndex C input meta fmt opts) ∧
    (packedIndex C input meta fmt opts).to_bytes.length
      = 32 + (packOps opts input meta).length * 48 ∧
    (packedIndex C input meta fmt opts).to_bytes.length < 2 ^ 32 ∧
    opsRecLenSum C (packOps opts input meta) ≤ 2 ^ 26 * (56 + 2 ^ 26) := by
  obtain ⟨hn, hbound⟩ := hops
  have hrec : opsRecLenSum C (packOps opts input meta) ≤ 2 ^ 26 * (56 + 2 ^ 26) := by
    calc opsRecLenSum C (packOps opts input meta)
        ≤ (packOps opts input meta).length * (56 + 2 ^ 26) :=
          opsRecLenSum_le C _ (fun op h => (hbound op h).1)
      _ ≤ 2 ^ 26 * (56 + 2 ^ 26) := Nat.mul_le_mul_right _ hn
  have hentlen : (packedIndex C input meta fmt opts).entries.length
      = (packOps opts input meta).length := by
    simp [packedIndex, opsEntries_length]
  have hreserved : (packedIndex C input meta fmt opts).header.reserved.length = 7 := by
    simp [packedIndex]
  have hidxlen : (packedIndex C input meta fmt opts).to_bytes.length
      = 32 + (packOps opts input meta).length * 48 := by
    rw [FurryIndexV1.to_bytes_length_index _ hreserved, hentlen]
  have hidxlt : (packedIndex C input meta fmt opts).to_bytes.length < 2 ^ 32 := by
    rw [hidxlen]
    have : (packOps opts input meta).length * 48 ≤ 2 ^ 26 * 48 :=
      Nat.mul_le_mul_right _ hn
    omega
  have hasl : opsAudioLen C (packOps opts input meta) < 2 ^ 64 := by
    have h1 := opsAudioLen_le C _ (fun op h => (hbound op h).1)
    omega
  refine ⟨?_, ?_, hidxlen, hidxlt, hrec⟩
  · refine ⟨?_, ?_, ?_, ?_, ?_, ?_, ?_, ?_, ?_, ?_, ?_, ?_, ?_⟩ <;>
      simp [packedHeader, FurryHeaderV1.new, FURRY_VERSION, FURRY_HEADER_LEN, hfid, hsalt]
    · omega
    · rw [hidxlen]
      have : (packOps opts input meta).length * 48 ≤ 2 ^ 26 * 48 :=
        Nat.mul_le_mul_right _ hn
      have h2 : (32 + (packOps opts input meta).length * 48) % 2 ^ 32
          = 32 + (packOps opts input meta).length * 48 := by omega
      simp [CHUNK_HEADER_LEN, h2]
      omega
  · refine ⟨?_, ?_, ?_, ?_, ?_, ?_, ?_⟩
    · simp [packedIndex]
    · simp [packedIndex]
    · simp only [packedIndex]
      rw [opsEntries_length]
      rcases hempty : (packOps opts input meta) with _ | ⟨op, rest⟩
      · simp
      · have hlen := hn
        rw [hempty] at hlen
        simp at hlen ⊢
        omega
    · rw [hentlen]
      omega
    · simp only [packedIndex]
      exact hasl
    · exact hreserved
    · simp only [packedIndex]
      exact opsEntries_wf C _ 0 96 (by omega) (by omega)
        (fun op h => hbound op h)

/-- Reading the index chunk from a file whose bytes at `index_offset` are an
encrypted record of type Index decrypts to the serialized index. -/
theorem read_index_encRecord (C : CryptoModel) (hC : C.Sound) (inner : Bytes)
    (header : FurryHeaderV1) (keys : FileKeys) (ch : ChunkRecordHeaderV1) (data : Bytes)
    (hdrop : inner.drop header.index_offset
      = encRecord C keys header.version header.flags header.file_id ch data)
    (hch : ChunkHeaderWF ch) (htype : ch.chunk_type = .Index)
    (hpl : ch.plain_len = data.length) :
    FurryReader.read_and_decrypt_index C inner header keys = FurryIndexV1.parse data := by
  obtain ⟨henc, htag, hdec, -⟩ := hC
  have hct1 : (C.aeadEncrypt keys.aead_key (nonce_for_chunk keys.noncePre ch.chunk_seq)
      (build_aad_v1 header.file_id header.version header.flags ch.to_bytes) data).1.length
      = ch.plain_len := by rw [henc, hpl]
  simp only [FurryReader.read_and_decrypt_index, hdrop, encRecord, List.append_assoc]
  rw [ChunkRecordHeaderV1.read_from_to_bytes ch _ hch]
  simp [htype, takeBytes_append _ _ _ hct1, takeBytes_exact 16 _ (htag _ _ _ _), hdec,
    Bind.bind, Except.bind, throw, throwThe, MonadExceptOf.throw, pure, Except.pure]

/-- Reading a chunk whose on-disk record sits at the entry's `file_offset`
recovers the chunk's plaintext. -/
theorem read_chunk_encRecord (C : CryptoModel) (hC : C.Sound) (r : FurryReader)
    (e : IndexEntryV1) (ch : ChunkRecordHeaderV1) (data tail : Bytes)
    (hdrop : r.inner.drop e.file_offset
      = encRecord C r.keys r.header.version r.header.flags r.header.file_id ch data ++ tail)
    (hch : ChunkHeaderWF ch) (hpl : ch.plain_len = data.length) :
    FurryReader.read_chunk C r e = .ok data := by
  obtain ⟨henc, htag, hdec, -⟩ := hC
  have hct1 : (C.aeadEncrypt r.keys.aead_key (nonce_for_chunk r.keys.noncePre ch.chunk_seq)
      (build_aad_v1 r.header.file_id r.header.version r.header.flags ch.to_bytes) data).1.length
      = ch.plain_len := by rw [henc, hpl]
  have htag2 := htag r.keys.aead_key (nonce_for_chunk r.keys.noncePre ch.chunk_seq)
    (build_aad_v1 r.header.file_id r.header.version r.header.flags ch.to_bytes) data
  simp only [FurryReader.read_chunk, hdrop, encRecord, List.append_assoc]
  rw [ChunkRecordHeaderV1.read_from_to_bytes ch _ hch]
  simp [takeBytes_append _ _ _ hct1, takeBytes_append 16 _ _ htag2, hdec,
    Bind.bind, Except.bind, throw, throwThe, MonadExceptOf.throw, pure, Except.pure]

/-- Opening a packed file succeeds and yields exactly the header, keys, and
index the writer produced. -/
theorem open_pack (C : CryptoModel) (hC : C.Sound) (input : Bytes)
    (meta : Option ExtractedMeta) (fmt : OriginalFormat) (master : MasterKey)
    (opts : PackOptions) (fid salt : Bytes)
    (hfid : fid.length = 16) (hsalt : salt.length = 16)
    (hops : OpsWF C (packOps opts input meta)) :
    FurryReader.open C (pack_to_furry C input meta fmt master opts fid salt) master
      = .ok (packedReader C input meta fmt master opts fid salt) := by
  obtain ⟨hhwf, hiwf, hidxlen, hidxlt, hrec⟩ :=
    packed_bounds C input meta fmt opts fid salt hfid hsalt hops
  have hsmall : ∀ op ∈ packOps opts input meta, (opPlain C op).length < 2 ^ 32 :=
    fun op h => lt_of_le_of_lt (hops.2 op h).1 (by norm_num)
  have hOBlen : (opsBytes C (packKeys C master salt) 1 0 fid 0
      (packOps opts input meta)).length = opsRecLenSum C (packOps opts input meta) :=
    opsBytes_length C hC _ 1 0 fid 0 _ hsmall
  have hAlen : (packedHeader C input meta fmt opts fid salt).write_to.length = 96 :=
    FurryHeaderV1.write_to_length _ (by simp [packedHeader, FurryHeaderV1.new, hfid])
      (by simp [packedHeader, FurryHeaderV1.new, hsalt])
      (by simp [packedHeader, FurryHeaderV1.new])
  have hfile := pack_decomp C input meta fmt master opts fid salt hfid hsalt
  have hread : FurryHeaderV1.read_from
      (pack_to_furry C input meta fmt master opts fid salt)
      = .ok (packedHeader C input meta fmt opts fid salt) := by
    rw [hfile, List.append_assoc]
    exact FurryHeaderV1.read_from_write_to _ _ hhwf
  have hio : (packedHeader C input meta fmt opts fid salt).index_offset
      = 96 + opsRecLenSum C (packOps opts input meta) := by
    simp [packedHeader]
  have hlen2 : ((packedHeader C input meta fmt opts fid salt).write_to
      ++ opsBytes C (packKeys C master salt) 1 0 fid 0 (packOps opts input meta)).length
      = 96 + opsRecLenSum C (packOps opts input meta) := by
    simp [hAlen, hOBlen]
  have hdropF : (pack_to_furry C input meta fmt master opts fid salt).drop
        (packedHeader C input meta fmt opts fid salt).index_offset
      = encRecord C (packKeys C master salt) 1 0 fid
          (ChunkRecordHeaderV1.new .Index (packOps opts input meta).length 0
            ((packedIndex C input meta fmt opts).to_bytes.length % 2 ^ 32))
          (packedIndex C input meta fmt opts).to_bytes := by
    rw [hfile, hio, List.drop_append_eq_append_drop,
      List.drop_eq_nil_of_le (le_of_eq hlen2), hlen2, Nat.sub_self, List.drop_zero,
      List.nil_append]
  have hmod : (packedIndex C input meta fmt opts).to_bytes.length % 2 ^ 32
      = (packedIndex C input meta fmt opts).to_bytes.length := Nat.mod_eq_of_lt hidxlt
  have hchwf : ChunkHeaderWF (ChunkRecordHeaderV1.new .Index
      (packOps opts input meta).length 0
      ((packedIndex C input meta fmt opts).to_bytes.length % 2 ^ 32)) := by
    simp only [ChunkRecordHeaderV1.new]
    exact ⟨rfl, rfl, by norm_num, by norm_num, lt_of_le_of_lt hops.1 (by norm_num),
      by norm_num, Nat.mod_lt _ (by norm_num), by norm_num, by norm_num⟩
  have hidxread : FurryReader.read_and_decrypt_index C
      (pack_to_furry C input meta fmt master opts fid salt)
      (packedHeader C input meta fmt opts fid salt) (packKeys C master salt)
      = FurryIndexV1.parse (packedIndex C input meta fmt opts).to_bytes :=
    read_index_encRecord C hC _ _ _ _ _ hdropF hchwf rfl hmod
  have hparse : FurryIndexV1.parse (packedIndex C input meta fmt opts).to_bytes
      = .ok (packedIndex C input meta fmt opts) :=
    FurryIndexV1.parse_to_bytes _ hiwf
  have hsaltp : (packedHeader C input meta fmt opts fid salt).salt = salt := by
    simp [packedHeader, FurryHeaderV1.new]
  rw [show packKeys C master salt = C.deriveFileKeys master.bytes salt from rfl]
    at hidxread
  simp [FurryReader.open, hread, hsaltp, hidxread, hparse, packedReader, packKeys,
    Bind.bind, Except.bind, pure, Except.pure]

/-! ## Finished files of arbitrary write sequences -/

/-- The bytes produced by creating a writer, applying a write sequence, and
finishing (randomness passed in as `fid`/`salt`). -/
def wFile (C : CryptoModel) (ops : List WriteOp) (fmt : OriginalFormat)
    (master : MasterKey) (fid salt : Bytes) : Bytes :=
  FurryWriter.finish C (runOps C (FurryWriter.create C master fid salt fmt) ops)

/-- The index any writer run over a given op sequence serializes at finish. -/
def wIndex (C : CryptoModel) (ops : List WriteOp)
    (fmt : OriginalFormat) : FurryIndexV1 where
  header :=
    { version := 1
      flags := 0
      entry_count :=
        if (ops).isEmpty then 0
        else (ops).length % 2 ^ 32
      audio_stream_len := opsAudioLen C (ops)
      original_format := fmt
      reserved := List.replicate 7 0 }
  entries := opsEntries C 0 96 (ops)

/-- The final (patched) file header such a writer run writes. -/
def wHeader (C : CryptoModel) (ops : List WriteOp)
    (fmt : OriginalFormat) (fid salt : Bytes) : FurryHeaderV1 :=
  { FurryHeaderV1.new fid salt with
    index_offset := 96 + opsRecLenSum C (ops),
    index_total_len :=
      CHUNK_HEADER_LEN + (wIndex C ops fmt).to_bytes.length % 2 ^ 32 + 16 }

/-- The reader state obtained by opening the finished file of a writer run. -/
def wReader (C : CryptoModel) (ops : List WriteOp)
    (fmt : OriginalFormat) (master : MasterKey)
    (fid salt : Bytes) : FurryReader where
  inner := wFile C ops fmt master fid salt
  header := wHeader C ops fmt fid salt
  keys := packKeys C master salt
  index := wIndex C ops fmt

def wWriter (C : CryptoModel) (ops : List WriteOp)
    (fmt : OriginalFormat) (master : MasterKey)
    (fid salt : Bytes) : FurryWriter :=
  runOps C (FurryWriter.create C master fid salt fmt) (ops)

theorem wFile_eq_finish (C : CryptoModel) (ops : List WriteOp)
    (fmt : OriginalFormat) (master : MasterKey) (fid salt : Bytes) :
    wFile C ops fmt master fid salt
      = FurryWriter.finish C (wWriter C ops fmt master fid salt) := rfl

theorem wWriter_spec (C : CryptoModel) (ops : List WriteOp)
    (fmt : OriginalFormat) (master : MasterKey) (fid salt : Bytes) :
    (wWriter C ops fmt master fid salt).header = FurryHeaderV1.new fid salt ∧
    (wWriter C ops fmt master fid salt).keys = packKeys C master salt ∧
    (wWriter C ops fmt master fid salt).chunk_seq
      = (ops).length ∧
    (wWriter C ops fmt master fid salt).out
      = (FurryHeaderV1.new fid salt).write_to
        ++ opsBytes C (packKeys C master salt) 1 0 fid 0 (ops) ∧
    (wWriter C ops fmt master fid salt).current_offset
      = 96 + opsRecLenSum C (ops) ∧
    (wWriter C ops fmt master fid salt).index
      = wIndex C ops fmt := by
  obtain ⟨r1, r2, r3, r4, r5, r6, r7, r8, r9, r10, r11, r12⟩ :=
    runOps_spec C (ops)
      (FurryWriter.create C master fid salt fmt)
  have hidx : (wWriter C ops fmt master fid salt).index
      = ⟨⟨(wWriter C ops fmt master fid salt).index.header.version,
          (wWriter C ops fmt master fid salt).index.header.flags,
          (wWriter C ops fmt master fid salt).index.header.entry_count,
          (wWriter C ops fmt master fid salt).index.header.audio_stream_len,
          (wWriter C ops fmt master fid salt).index.header.original_format,
          (wWriter C ops fmt master fid salt).index.header.reserved⟩,
        (wWriter C ops fmt master fid salt).index.entries⟩ := rfl
  refine ⟨?_, ?_, ?_, ?_, ?_, ?_⟩
  · rw [show wWriter C ops fmt master fid salt
        = runOps C (FurryWriter.create C master fid salt fmt) (ops)
        from rfl, r1]
    simp [FurryWriter.create]
  · rw [show wWriter C ops fmt master fid salt
        = runOps C (FurryWriter.create C master fid salt fmt) (ops)
        from rfl, r2]
    simp [FurryWriter.create, packKeys]
  · rw [show wWriter C ops fmt master fid salt
        = runOps C (FurryWriter.create C master fid salt fmt) (ops)
        from rfl, r3]
    simp [FurryWriter.create]
  · rw [show wWriter C ops fmt master fid salt
        = runOps C (FurryWriter.create C master fid salt fmt) (ops)
        from rfl, r4]
    simp [FurryWriter.create, FurryHeaderV1.new, packKeys, FURRY_VERSION]
  · rw [show wWriter C ops fmt master fid salt
        = runOps C (FurryWriter.create C master fid salt fmt) (ops)
        from rfl, r5]
    simp [FurryWriter.create, FURRY_HEADER_LEN]
  · rw [hidx]
    rw [show wWriter C ops fmt master fid salt
        = runOps C (FurryWriter.create C master fid salt fmt) (ops)
        from rfl] at *
    rw [r6, r7, r8, r9, r10, r11, r12]
    simp [FurryWriter.create, FurryIndexV1.new, IndexHeaderV1.new, wIndex,
      INDEX_VERSION, FURRY_HEADER_LEN]

theorem wFile_decomp (C : CryptoModel) (ops : List WriteOp)
    (fmt : OriginalFormat) (master : MasterKey) (fid salt : Bytes)
    (hfid : fid.length = 16) (hsalt : salt.length = 16) :
    wFile C ops fmt master fid salt
      = (wHeader C ops fmt fid salt).write_to
        ++ opsBytes C (packKeys C master salt) 1 0 fid 0 (ops)
        ++ encRecord C (packKeys C master salt) 1 0 fid
            (ChunkRecordHeaderV1.new .Index (ops).length 0
              ((wIndex C ops fmt).to_bytes.length % 2 ^ 32))
            (wIndex C ops fmt).to_bytes := by
  obtain ⟨p1, p2, p3, p4, p5, p6⟩ := wWriter_spec C ops fmt master fid salt
  have h96 : (FurryHeaderV1.new fid salt).write_to.length = 96 :=
    FurryHeaderV1.write_to_length _ (by simp [FurryHeaderV1.new, hfid])
      (by simp [FurryHeaderV1.new, hsalt]) (by simp [FurryHeaderV1.new])
  have hlen : 96 ≤ (wWriter C ops fmt master fid salt).out.length := by
    rw [p4]
    simp [h96]
  have hdrop : ((FurryHeaderV1.new fid salt).write_to
        ++ opsBytes C (packKeys C master salt) 1 0 fid 0 (ops)).drop 96
      = opsBytes C (packKeys C master salt) 1 0 fid 0 (ops) := by
    rw [← h96, List.drop_left]
  rw [wFile_eq_finish, finish_spec C _ hlen, p1, p2, p3, p4, p5, p6, hdrop]
  simp [wHeader, FurryHeaderV1.new, FURRY_VERSION]

/-- Field bounds needed for the finished file to parse back, from `OpsWF`. -/
theorem w_bounds (C : CryptoModel) (ops : List WriteOp)
    (fmt : OriginalFormat)
    (fid salt : Bytes) (hfid : fid.length = 16) (hsalt : salt.length = 16)
    (hops : OpsWF C (ops)) :
    HeaderWF (wHeader C ops fmt fid salt) ∧
    IndexWF (wIndex C ops fmt) ∧
    (wIndex C ops fmt).to_bytes.length
      = 32 + (ops).length * 48 ∧
    (wIndex C ops fmt).to_bytes.length < 2 ^ 32 ∧
    opsRecLenSum C (ops) ≤ 2 ^ 26 * (56 + 2 ^ 26) := by
  obtain ⟨hn, hbound⟩ := hops
  have hrec : opsRecLenSum C (ops) ≤ 2 ^ 26 * (56 + 2 ^ 26) := by
    calc opsRecLenSum C (ops)
        ≤ (ops).length * (56 + 2 ^ 26) :=
          opsRecLenSum_le C _ (fun op h => (hbound op h).1)
      _ ≤ 2 ^ 26 * (56 + 2 ^ 26) := Nat.mul_le_mul_right _ hn
  have hentlen : (wIndex C ops fmt).entries.length
      = (ops).length := by
    simp [wIndex, opsEntries_length]
  have hreserved : (wIndex C ops fmt).header.reserved.length = 7 := by
    simp [wIndex]
  have hidxlen : (wIndex C ops fmt).to_bytes.length
      = 32 + (ops).length * 48 := by
    rw [FurryIndexV1.to_bytes_length_index _ hreserved, hentlen]
  have hidxlt : (wIndex C ops fmt).to_bytes.length < 2 ^ 32 := by
    rw [hidxlen]
    have : (ops).length * 48 ≤ 2 ^ 26 * 48 :=
      Nat.mul_le_mul_right _ hn
    omega
  have hasl : opsAudioLen C (ops) < 2 ^ 64 := by
    have h1 := opsAudioLen_le C _ (fun op h => (hbound op h).1)
    omega
  refine ⟨?_, ?_, hidxlen, hidxlt, hrec⟩
  · refine ⟨?_, ?_, ?_, ?_, ?_, ?_, ?_, ?_, ?_, ?_, ?_, ?_, ?_⟩ <;>
      simp [wHeader, FurryHeaderV1.new, FURRY_VERSION, FURRY_HEADER_LEN, hfid, hsalt]
    · omega
    · rw [hidxlen]
      have : (ops).length * 48 ≤ 2 ^ 26 * 48 :=
        Nat.mul_le_mul_right _ hn
      have h2 : (32 + (ops).length * 48) % 2 ^ 32
          = 32 + (ops).length * 48 := by omega
      simp [CHUNK_HEADER_LEN, h2]
      omega
  · refine ⟨?_, ?_, ?_, ?_, ?_, ?_, ?_⟩
    · simp [wIndex]
    · simp [wIndex]
    · simp only [wIndex]
      rw [opsEntries_length]
      rcases hempty : (ops) with _ | ⟨op, rest⟩
      · simp
      · have hlen := hn
        rw [hempty] at hlen
        simp at hlen ⊢
        omega
    · rw [hentlen]
      omega
    · simp only [wIndex]
      exact hasl
    · exact hreserved
    · simp only [wIndex]
      exact opsEntries_wf C _ 0 96 (by omega) (by omega)
        (fun op h => hbound op h)

/-- Opening the finished file of any bounded writer run succeeds and yields
exactly the header, keys, and index the writer produced. -/
theorem open_wFile (C : CryptoModel) (hC : C.Sound) (ops : List WriteOp)
    (fmt : OriginalFormat) (master : MasterKey) (fid salt : Bytes)
    (hfid : fid.length = 16) (hsalt : salt.length = 16)
    (hops : OpsWF C (ops)) :
    FurryReader.open C (wFile C ops fmt master fid salt) master
      = .ok (wReader C ops fmt master fid salt) := by
  obtain ⟨hhwf, hiwf, hidxlen, hidxlt, hrec⟩ :=
    w_bounds C ops fmt fid salt hfid hsalt hops
  have hsmall : ∀ op ∈ ops, (opPlain C op).length < 2 ^ 32 :=
    fun op h => lt_of_le_of_lt (hops.2 op h).1 (by norm_num)
  have hOBlen : (opsBytes C (packKeys C master salt) 1 0 fid 0
      (ops)).length = opsRecLenSum C (ops) :=
    opsBytes_length C hC _ 1 0 fid 0 _ hsmall
  have hAlen : (wHeader C ops fmt fid salt).write_to.length = 96 :=
    FurryHeaderV1.write_to_length _ (by simp [wHeader, FurryHeaderV1.new, hfid])
      (by simp [wHeader, FurryHeaderV1.new, hsalt])
      (by simp [wHeader, FurryHeaderV1.new])
  have hfile := wFile_decomp C ops fmt master fid salt hfid hsalt
  have hread : FurryHeaderV1.read_from
      (wFile C ops fmt master fid salt)
      = .ok (wHeader C ops fmt fid salt) := by
    rw [hfile, List.append_assoc]
    exact FurryHeaderV1.read_from_write_to _ _ hhwf
  have hio : (wHeader C ops fmt fid salt).index_offset
      = 96 + opsRecLenSum C (ops) := by
    simp [wHeader]
  have hlen2 : ((wHeader C ops fmt fid salt).write_to
      ++ opsBytes C (packKeys C master salt) 1 0 fid 0 (ops)).length
      = 96 + opsRecLenSum C (ops) := by
    simp [hAlen, hOBlen]
  have hdropF : (wFile C ops fmt master fid salt).drop
        (wHeader C ops fmt fid salt).index_offset
      = encRecord C (packKeys C master salt) 1 0 fid
          (ChunkRecordHeaderV1.new .Index (ops).length 0
            ((wIndex C ops fmt).to_bytes.length % 2 ^ 32))
          (wIndex C ops fmt).to_bytes := by
    rw [hfile, hio, List.drop_append_eq_append_drop,
      List.drop_eq_nil_of_le (le_of_eq hlen2), hlen2, Nat.sub_self, List.drop_zero,
      List.nil_append]
  have hmod : (wIndex C ops fmt).to_bytes.length % 2 ^ 32
      = (wIndex C ops fmt).to_bytes.length := Nat.mod_eq_of_lt hidxlt
  have hchwf : ChunkHeaderWF (ChunkRecordHeaderV1.new .Index
      (ops).length 0
      ((wIndex C ops fmt).to_bytes.length % 2 ^ 32)) := by
    simp only [ChunkRecordHeaderV1.new]
    exact ⟨rfl, rfl, by norm_num, by norm_num, lt_of_le_of_lt hops.1 (by norm_num),
      by norm_num, Nat.mod_lt _ (by norm_num), by norm_num, by norm_num⟩
  have hidxread : FurryReader.read_and_decrypt_index C
      (wFile C ops fmt master fid salt)
      (wHeader C ops fmt fid salt) (packKeys C master salt)
      = FurryIndexV1.parse (wIndex C ops fmt).to_bytes :=
    read_index_encRecord C hC _ _ _ _ _ hdropF hchwf rfl hmod
  have hparse : FurryIndexV1.parse (wIndex C ops fmt).to_bytes
      = .ok (wIndex C ops fmt) :=
    FurryIndexV1.parse_to_bytes _ hiwf
  have hsaltp : (wHeader C ops fmt fid salt).salt = salt := by
    simp [wHeader, FurryHeaderV1.new]
  rw [show packKeys C master salt = C.deriveFileKeys master.bytes salt from rfl]
    at hidxread
  simp [FurryReader.open, hread, hsaltp, hidxread, hparse, wReader, packKeys,
    Bind.bind, Except.bind, pure, Except.pure]


/-! ## Structure of the pack op sequence -/

theorem opsBytes_append (C : CryptoModel) (keys : FileKeys) (hv hf : Nat) (fid : Bytes)
    (a b : List WriteOp) (seq : Nat) :
    opsBytes C keys hv hf fid seq (a ++ b)
      = opsBytes C keys hv hf fid seq a
        ++ opsBytes C keys hv hf fid (seq + a.length) b := by
  induction a generalizing seq with
  | nil => simp [opsBytes]
  | cons op rest ih =>
    have harith : seq + 1 + rest.length = seq + (rest.length + 1) := by omega
    rw [List.cons_append]
    simp only [opsBytes, List.length_cons, List.append_eq]
    rw [ih (seq + 1), harith, List.append_assoc]

theorem opsRecLenSum_append (C : CryptoModel) (a b : List WriteOp) :
    opsRecLenSum C (a ++ b) = opsRecLenSum C a + opsRecLenSum C b := by
  induction a with
  | nil => simp [opsRecLenSum]
  | cons op rest ih =>
    simp only [List.cons_append, opsRecLenSum, List.append_eq, ih]
    omega

theorem opsAudioLen_append (C : CryptoModel) (a b : List WriteOp) :
    opsAudioLen C (a ++ b) = opsAudioLen C a + opsAudioLen C b := by
  induction a with
  | nil => simp [opsAudioLen]
  | cons op rest ih =>
    simp only [List.cons_append, opsAudioLen, List.append_eq, ih]
    omega

theorem opsEntries_append (C : CryptoModel) (a b : List WriteOp) (seq off : Nat) :
    opsEntries C seq off (a ++ b)
      = opsEntries C seq off a
        ++ opsEntries C (seq + a.length) (off + opsRecLenSum C a) b := by
  induction a generalizing seq off with
  | nil => simp [opsEntries, opsRecLenSum]
  | cons op rest ih =>
    have h1 : seq + 1 + rest.length = seq + (rest.length + 1) := by omega
    have h2 : off + opRecLen C op + opsRecLenSum C rest
        = off + (opRecLen C op + opsRecLenSum C rest) := by omega
    rw [List.cons_append]
    simp only [opsEntries, List.length_cons, opsRecLenSum, List.append_eq]
    rw [ih (seq + 1) (off + opRecLen C op), h1, ← h2, List.cons_append]

theorem opEntry_file_offset (C : CryptoModel) (op : WriteOp) (seq off : Nat) :
    (opEntry C op seq off).file_offset = off := by
  cases op <;> rfl

theorem opEntry_chunk_seq (C : CryptoModel) (op : WriteOp) (seq off : Nat) :
    (opEntry C op seq off).chunk_seq = seq := by
  cases op <;> rfl

theorem opEntry_chunk_type (C : CryptoModel) (op : WriteOp) (seq off : Nat) :
    (opEntry C op seq off).chunk_type = opChunkType op := by
  cases op <;> rfl

theorem opEntry_plain_len (C : CryptoModel) (op : WriteOp) (seq off : Nat) :
    (opEntry C op seq off).plain_len = (opPlain C op).length % 2 ^ 32 := by
  cases op <;> rfl

theorem opEntry_voff (C : CryptoModel) (op : WriteOp) (seq off : Nat) :
    (opEntry C op seq off).virtual_offset = opVoff op := by
  cases op <;> rfl

theorem opsEntries_mem (C : CryptoModel) (ops : List WriteOp) (seq off : Nat) :
    ∀ e ∈ opsEntries C seq off ops,
      ∃ op ∈ ops, ∃ s o, e = opEntry C op s o := by
  induction ops generalizing seq off with
  | nil => simp [opsEntries]
  | cons op rest ih =>
    intro e he
    simp only [opsEntries, List.mem_cons] at he
    rcases he with he | he
    · exact ⟨op, by simp, seq, off, he⟩
    · obtain ⟨op', hmem, s, o, he2⟩ := ih (seq + 1) (off + opRecLen C op) e he
      exact ⟨op', List.mem_cons_of_mem _ hmem, s, o, he2⟩

theorem opsEntries_seqs (C : CryptoModel) (ops : List WriteOp) (seq off : Nat) :
    (opsEntries C seq off ops).map (fun e => e.chunk_seq)
      = List.range' seq ops.length := by
  induction ops generalizing seq off with
  | nil => simp [opsEntries]
  | cons op rest ih =>
    simp [opsEntries, opEntry_chunk_seq, ih, List.range'_succ]

/-- Filtering by chunk type kills the entries of a sequence with no op of
that type and keeps those of a sequence made only of that type. -/
theorem opsEntries_filter_none (C : CryptoModel) (ops : List WriteOp) (seq off : Nat)
    (t : ChunkType) (h : ∀ op ∈ ops, opChunkType op ≠ t) :
    (opsEntries C seq off ops).filter (fun e => e.chunk_type = t) = [] := by
  induction ops generalizing seq off with
  | nil => simp [opsEntries]
  | cons op rest ih =>
    have h1 : opChunkType op ≠ t := h op (by simp)
    simp [opsEntries, List.filter_cons, opEntry_chunk_type, h1,
      ih (seq + 1) (off + opRecLen C op) (fun x hx => h x (List.mem_cons_of_mem _ hx))]

theorem opsEntries_filter_all (C : CryptoModel) (ops : List WriteOp) (seq off : Nat)
    (t : ChunkType) (h : ∀ op ∈ ops, opChunkType op = t) :
    (opsEntries C seq off ops).filter (fun e => e.chunk_type = t)
      = opsEntries C seq off ops := by
  induction ops generalizing seq off with
  | nil => simp [opsEntries]
  | cons op rest ih =>
    have h1 : opChunkType op = t := h op (by simp)
    simp [opsEntries, List.filter_cons, opEntry_chunk_type, h1,
      ih (seq + 1) (off + opRecLen C op) (fun x hx => h x (List.mem_cons_of_mem _ hx))]

/-! ## The three segments of `packOps` -/

/-- Size bound on extracted metadata, as a decidable option check. -/
def metaBound (meta : Option ExtractedMeta) : Bool :=
  match meta with
  | none => true
  | some m =>
    (match m.tags_json with
      | none => true
      | some t => t.length ≤ 2 ^ 24) &&
    (match m.cover with
      | none => true
      | some c => c.mime.length + 1 + c.bytes.length ≤ 2 ^ 24) &&
    (match m.lyrics with
      | none => true
      | some l => l.length ≤ 2 ^ 24)

/-- Valid, bounded pack options and inputs: positive chunk sizes (with
`chunk_size = 0` the source silently drops the input; with
`padding_chunk_size = 0` and nonzero padding its padding loop never
terminates) and sizes small enough for every cast to be lossless. -/
def PackBound (input : Bytes) (meta : Option ExtractedMeta) (opts : PackOptions) : Prop :=
  0 < opts.chunk_size ∧ opts.chunk_size ≤ 2 ^ 24 ∧ opts.padding_bytes ≤ 2 ^ 24 ∧
  0 < opts.padding_chunk_size ∧ opts.padding_chunk_size ≤ 2 ^ 24 ∧
  input.length ≤ 2 ^ 24 ∧ metaBound meta = true

theorem metaOps_wf (C : CryptoModel) (opts : PackOptions) (meta : Option ExtractedMeta)
    (hb : metaBound meta = true) :
    (metaOps opts meta).length ≤ 3 ∧
    ∀ op ∈ metaOps opts meta, opChunkType op = .Meta ∧ (opPlain C op).length ≤ 2 ^ 24 ∧
      opVoff op = 0 ∧ opFlags op = 0 := by
  unfold metaOps
  cases hinc : opts.include_meta
  · simp
  · cases meta with
    | none => simp
    | some m =>
      simp only [metaBound] at hb
      cases ht : m.tags_json <;> cases hc : m.cover <;> cases hl : m.lyrics <;>
          simp only [ht, hc, hl] at hb ⊢ <;>
          simp only [Bool.and_eq_true, decide_eq_true_eq] at hb <;>
          refine ⟨by simp, ?_⟩ <;>
          intro op hop <;>
          simp only [List.mem_append, List.mem_singleton, List.not_mem_nil,
            List.mem_cons, or_false, false_or] at hop <;>
          first
            | exact hop.elim
            | (rcases hop with (hop | hop) | hop <;> subst hop <;>
                simp [opChunkType, opPlain, opVoff, opFlags] <;> omega)
            | (rcases hop with hop | hop <;> subst hop <;>
                simp [opChunkType, opPlain, opVoff, opFlags] <;> omega)
            | (subst hop <;>
                simp [opChunkType, opPlain, opVoff, opFlags] <;> omega)

theorem audioOps_mem (cs : Nat) (input : Bytes) (v0 : Nat) :
    ∀ op ∈ audioOps cs input v0, ∃ data voff, op = .audio data voff ∧
      1 ≤ data.length ∧ data.length ≤ cs ∧ v0 ≤ voff ∧
      voff + data.length ≤ v0 + input.length := by
  induction input, v0 using audioOps.induct cs with
  | case1 input v0 h =>
    rw [audioOps, if_pos h]
    simp
  | case2 input v0 h ih =>
    rw [audioOps, if_neg h]
    push_neg at h
    obtain ⟨hcs, hne⟩ := h
    intro op hop
    rcases List.mem_cons.mp hop with hop | hop
    · refine ⟨input.take cs, v0, hop, ?_, ?_, le_refl v0, ?_⟩
      · have : input.length ≠ 0 := fun hl => hne (List.eq_nil_of_length_eq_zero hl)
        simp [List.length_take]
        omega
      · simp [List.length_take]
      · simp [List.length_take]
    · obtain ⟨data, voff, heq, h1, h2, h3, h4⟩ := ih op hop
      refine ⟨data, voff, heq, h1, h2, ?_, ?_⟩
      · have : v0 ≤ v0 + (input.take cs).length := Nat.le_add_right _ _
        omega
      · simp [List.length_take, List.length_drop] at h4 ⊢
        omega

theorem audioOps_length_le (cs : Nat) (input : Bytes) (v0 : Nat) :
    (audioOps cs input v0).length ≤ input.length := by
  induction input, v0 using audioOps.induct cs with
  | case1 input v0 h =>
    rw [audioOps, if_pos h]
    simp
  | case2 input v0 h ih =>
    rw [audioOps, if_neg h]
    push_neg at h
    have hlen : input.length ≠ 0 := fun hl => h.2 (List.eq_nil_of_length_eq_zero hl)
    have hcs : cs ≠ 0 := h.1
    have hd : (List.drop cs input).length = input.length - cs := by simp
    simp only [List.length_cons]
    omega

theorem audioOps_flatten (C : CryptoModel) (cs : Nat) (input : Bytes) (v0 : Nat)
    (hcs : cs ≠ 0) :
    ((audioOps cs input v0).map (opPlain C)).flatten = input := by
  induction input, v0 using audioOps.induct cs with
  | case1 input v0 h =>
    rw [audioOps, if_pos h]
    rcases h with h | h
    · exact absurd h hcs
    · simp [h]
  | case2 input v0 h ih =>
    rw [audioOps, if_neg h]
    simp only [List.map_cons, List.flatten_cons, opPlain]
    rw [ih, List.take_append_drop]

theorem paddingSizes_mem (rem pcs : Nat) :
    ∀ sz ∈ paddingSizes rem pcs, 1 ≤ sz ∧ sz ≤ pcs := by
  induction rem, pcs using paddingSizes.induct with
  | case1 pcs =>
    rw [paddingSizes]
    simp
  | case2 rem h1 =>
    rw [paddingSizes, if_neg h1]
    simp
  | case3 rem pcs h1 h2 ih =>
    rw [paddingSizes, if_neg h1, if_neg h2]
    intro sz hsz
    rcases List.mem_cons.mp hsz with hsz | hsz
    · subst hsz
      refine ⟨?_, ?_⟩ <;> omega
    · exact ih sz hsz

theorem paddingSizes_length_le (rem pcs : Nat) :
    (paddingSizes rem pcs).length ≤ rem := by
  induction rem, pcs using paddingSizes.induct with
  | case1 pcs =>
    rw [paddingSizes]
    simp
  | case2 rem h1 =>
    rw [paddingSizes, if_neg h1]
    simp
  | case3 rem pcs h1 h2 ih =>
    rw [paddingSizes, if_neg h1, if_neg h2]
    simp only [List.length_cons]
    omega

theorem packOps_wf (C : CryptoModel) (hC : C.Sound) (input : Bytes)
    (meta : Option ExtractedMeta) (opts : PackOptions)
    (hb : PackBound input meta opts) : OpsWF C (packOps opts input meta) := by
  obtain ⟨h1, h2, h3, h4, h5, h6, h7⟩ := hb
  obtain ⟨-, -, -, hrand⟩ := hC
  obtain ⟨hm1, hm2⟩ := metaOps_wf C opts meta h7
  constructor
  · have ha := audioOps_length_le opts.chunk_size input 0
    have hp := paddingSizes_length_le opts.padding_bytes opts.padding_chunk_size
    simp only [packOps, List.length_append, List.length_map]
    omega
  · intro op hop
    simp only [packOps, List.mem_append, List.mem_map] at hop
    rcases hop with (hop | hop) | hop
    · obtain ⟨-, hlen, hvoff, hflags⟩ := hm2 op hop
      refine ⟨by omega, by simp [hvoff], by simp [hflags]⟩
    · obtain ⟨data, voff, heq, _, hdl, _, hub⟩ := audioOps_mem _ _ _ op hop
      subst heq
      refine ⟨?_, ?_, ?_⟩
      · simp only [opPlain]
        omega
      · simp only [opVoff]
        omega
      · simp [opFlags]
    · obtain ⟨sz, hsz, heq⟩ := hop
      obtain ⟨-, hszle⟩ := paddingSizes_mem _ _ sz hsz
      subst heq
      refine ⟨?_, by simp [opVoff], by simp [opFlags]⟩
      simp only [opPlain, hrand]
      omega

/-! ## Reading back every chunk of a write sequence -/

theorem opChunkHeader_wf (C : CryptoModel) (op : WriteOp) (seq : Nat)
    (hseq : seq < 2 ^ 64) (hvoff : opVoff op < 2 ^ 64) (hflags : opFlags op < 256) :
    ChunkHeaderWF (opChunkHeader C op seq) := by
  simp only [opChunkHeader, ChunkRecordHeaderV1.new]
  exact ⟨rfl, rfl, hflags, by norm_num, hseq, hvoff, Nat.mod_lt _ (by norm_num),
    by norm_num, by norm_num⟩

/-- Every index entry produced by a write sequence reads back to the
plaintext of the corresponding write, provided the file contains the
sequence's records at the entries' offsets. -/
theorem opsEntries_readback (C : CryptoModel) (hC : C.Sound) (r : FurryReader)
    (ops : List WriteOp) (seq : Nat) (pre post : Bytes)
    (hinner : r.inner = pre
      ++ opsBytes C r.keys r.header.version r.header.flags r.header.file_id seq ops
      ++ post)
    (hseq : seq + ops.length ≤ 2 ^ 64)
    (hops : ∀ op ∈ ops, (opPlain C op).length ≤ 2 ^ 26 ∧ opVoff op < 2 ^ 64 ∧
      opFlags op < 256) :
    List.Forall₂ (fun e d => FurryReader.read_chunk C r e = .ok d ∧ e.plain_len = d.length)
      (opsEntries C seq pre.length ops) (ops.map (opPlain C)) := by
  induction ops generalizing seq pre with
  | nil => simp [opsEntries]
  | cons op rest ih =>
    obtain ⟨hop1, hop2, hop3⟩ := hops op (by simp)
    have hseq1 : seq < 2 ^ 64 := by
      simp at hseq
      omega
    have hmod : (opPlain C op).length % 2 ^ 32 = (opPlain C op).length :=
      Nat.mod_eq_of_lt (by omega)
    have henclen : (encRecord C r.keys r.header.version r.header.flags r.header.file_id
        (opChunkHeader C op seq) (opPlain C op)).length
        = 40 + (opPlain C op).length + 16 :=
      encRecord_length C hC _ _ _ _ _ _
    have hinner' : r.inner
        = (pre ++ encRecord C r.keys r.header.version r.header.flags r.header.file_id
            (opChunkHeader C op seq) (opPlain C op))
          ++ opsBytes C r.keys r.header.version r.header.flags r.header.file_id
            (seq + 1) rest
          ++ post := by
      rw [hinner]
      simp only [opsBytes, List.append_assoc]
    have hlen' : (pre ++ encRecord C r.keys r.header.version r.header.flags
        r.header.file_id (opChunkHeader C op seq) (opPlain C op)).length
        = pre.length + opRecLen C op := by
      simp only [List.length_append, henclen, opRecLen, CHUNK_HEADER_LEN, hmod]
    have htail := ih (seq + 1)
      (pre ++ encRecord C r.keys r.header.version r.header.flags r.header.file_id
        (opChunkHeader C op seq) (opPlain C op))
      hinner' (by simp at hseq ⊢; omega)
      (fun x hx => hops x (List.mem_cons_of_mem _ hx))
    rw [hlen'] at htail
    simp only [opsEntries, List.map_cons]
    refine List.Forall₂.cons ⟨?_, ?_⟩ htail
    · refine read_chunk_encRecord C hC r _ (opChunkHeader C op seq) (opPlain C op)
        (opsBytes C r.keys r.header.version r.header.flags r.header.file_id (seq + 1) rest
          ++ post)
        ?_ (opChunkHeader_wf C op seq hseq1 hop2 hop3) ?_
      · rw [opEntry_file_offset, hinner, List.append_assoc, List.drop_left]
        simp only [opsBytes, List.append_assoc]
      · exact hmod
    · rw [opEntry_plain_len, hmod]

theorem readConcat_forall₂ (C : CryptoModel) (r : FurryReader) (es : List IndexEntryV1)
    (ds : List Bytes)
    (h : List.Forall₂
      (fun e d => FurryReader.read_chunk C r e = .ok d ∧ e.plain_len = d.length) es ds) :
    readConcat C r es = .ok ds.flatten := by
  induction h with
  | nil => simp [readConcat]
  | cons hed hrest ih =>
    obtain ⟨hread, -⟩ := hed
    simp [readConcat, hread, ih, Bind.bind, Except.bind, pure, Except.pure]

theorem audioOps_entries_sorted (C : CryptoModel) (cs : Nat) (input : Bytes) (v0 : Nat) :
    ∀ seq off, (opsEntries C seq off (audioOps cs input v0)).Pairwise
      (fun a b => a.virtual_offset ≤ b.virtual_offset) := by
  induction input, v0 using audioOps.induct cs with
  | case1 input v0 h =>
    intro seq off
    rw [audioOps, if_pos h]
    simp [opsEntries]
  | case2 input v0 h ih =>
    intro seq off
    rw [audioOps, if_neg h]
    simp only [opsEntries]
    refine List.Pairwise.cons ?_ (ih _ _)
    intro e he
    obtain ⟨op, hmem, s, o, heq⟩ := opsEntries_mem C _ _ _ e he
    obtain ⟨data, voff, heqop, h1, h2, h3, h4⟩ := audioOps_mem cs _ _ op hmem
    subst heq
    subst heqop
    simp only [opEntry_voff, opVoff]
    have : v0 ≤ v0 + (input.take cs).length := Nat.le_add_right _ _
    omega

theorem packedIndex_audio_entries (C : CryptoModel) (input : Bytes)
    (meta : Option ExtractedMeta) (fmt : OriginalFormat) (opts : PackOptions)
    (hb : metaBound meta = true) :
    (packedIndex C input meta fmt opts).audio_entries
      = opsEntries C (metaOps opts meta).length
          (96 + opsRecLenSum C (metaOps opts meta))
          (audioOps opts.chunk_size input 0) := by
  obtain ⟨-, hm2⟩ := metaOps_wf C opts meta hb
  have hentries : (packedIndex C input meta fmt opts).entries
      = opsEntries C 0 96 (packOps opts input meta) := rfl
  unfold FurryIndexV1.audio_entries
  rw [hentries]
  rw [show packOps opts input meta
      = (metaOps opts meta ++ audioOps opts.chunk_size input 0)
        ++ (paddingSizes opts.padding_bytes opts.padding_chunk_size).map .padding
      from rfl]
  rw [opsEntries_append, opsEntries_append, List.filter_append, List.filter_append]
  rw [opsEntries_filter_none C _ _ _ _ (fun op h => by
    have := (hm2 op h).1
    simp [this])]
  rw [opsEntries_filter_all C _ _ _ _ (fun op h => by
    obtain ⟨data, voff, heq, -⟩ := audioOps_mem _ _ _ op h
    subst heq
    rfl)]
  rw [opsEntries_filter_none C _ _ _ _ (fun op h => by
    obtain ⟨sz, hsz, heq⟩ := List.mem_map.mp h
    subst heq
    simp [opChunkType])]
  rw [List.nil_append, List.append_nil, Nat.zero_add]
  exact List.Sorted.insertionSort_eq (audioOps_entries_sorted C _ input 0 _ _)

/-- Claim machinery: the packed file unpacks to the original input and
format. -/
theorem pack_unpack (C : CryptoModel) (hC : C.Sound) (input : Bytes)
    (meta : Option ExtractedMeta) (fmt : OriginalFormat) (master : MasterKey)
    (opts : PackOptions) (fid salt : Bytes)
    (hfid : fid.length = 16) (hsalt : salt.length = 16)
    (hb : PackBound input meta opts) :
    unpack_from_furry C (pack_to_furry C input meta fmt master opts fid salt) master
      = .ok (fmt, input) := by
  have hops := packOps_wf C hC input meta opts hb
  have hopen := open_pack C hC input meta fmt master opts fid salt hfid hsalt hops
  have haudio := packedIndex_audio_entries C input meta fmt opts hb.2.2.2.2.2.2
  have hAlen : (packedHeader C input meta fmt opts fid salt).write_to.length = 96 :=
    FurryHeaderV1.write_to_length _ (by simp [packedHeader, FurryHeaderV1.new, hfid])
      (by simp [packedHeader, FurryHeaderV1.new, hsalt])
      (by simp [packedHeader, FurryHeaderV1.new])
  have hsmallm : ∀ op ∈ metaOps opts meta, (opPlain C op).length < 2 ^ 32 := by
    intro op h
    have := (metaOps_wf C opts meta hb.2.2.2.2.2.2).2 op h
    omega
  have hOBm : (opsBytes C (packKeys C master salt) 1 0 fid 0 (metaOps opts meta)).length
      = opsRecLenSum C (metaOps opts meta) :=
    opsBytes_length C hC _ 1 0 fid 0 _ hsmallm
  have hsplit : pack_to_furry C input meta fmt master opts fid salt
      = ((packedHeader C input meta fmt opts fid salt).write_to
          ++ opsBytes C (packKeys C master salt) 1 0 fid 0 (metaOps opts meta))
        ++ opsBytes C (packKeys C master salt) 1 0 fid (metaOps opts meta).length
            (audioOps opts.chunk_size input 0)
        ++ (opsBytes C (packKeys C master salt) 1 0 fid
              ((metaOps opts meta).length + (audioOps opts.chunk_size input 0).length)
              ((paddingSizes opts.padding_bytes opts.padding_chunk_size).map .padding)
            ++ encRecord C (packKeys C master salt) 1 0 fid
              (ChunkRecordHeaderV1.new .Index (packOps opts input meta).length 0
                ((packedIndex C input meta fmt opts).to_bytes.length % 2 ^ 32))
              (packedIndex C input meta fmt opts).to_bytes) := by
    rw [pack_decomp C input meta fmt master opts fid salt hfid hsalt]
    rw [show packOps opts input meta
        = (metaOps opts meta ++ audioOps opts.chunk_size input 0)
          ++ (paddingSizes opts.padding_bytes opts.padding_chunk_size).map .padding
        from rfl]
    rw [opsBytes_append, opsBytes_append]
    have hlen : (packOps opts input meta).length
        = (metaOps opts meta).length + ((audioOps opts.chunk_size input 0).length
          + ((paddingSizes opts.padding_bytes opts.padding_chunk_size).map
              WriteOp.padding).length) := by
      simp [packOps]
    simp only [Nat.zero_add, List.append_assoc, List.length_append, hlen]
  have hfor := opsEntries_readback C hC
    (packedReader C input meta fmt master opts fid salt)
    (audioOps opts.chunk_size input 0) (metaOps opts meta).length
    ((packedHeader C input meta fmt opts fid salt).write_to
      ++ opsBytes C (packKeys C master salt) 1 0 fid 0 (metaOps opts meta))
    (opsBytes C (packKeys C master salt) 1 0 fid
        ((metaOps opts meta).length + (audioOps opts.chunk_size input 0).length)
        ((paddingSizes opts.padding_bytes opts.padding_chunk_size).map .padding)
      ++ encRecord C (packKeys C master salt) 1 0 fid
        (ChunkRecordHeaderV1.new .Index (packOps opts input meta).length 0
          ((packedIndex C input meta fmt opts).to_bytes.length % 2 ^ 32))
        (packedIndex C input meta fmt opts).to_bytes)
    hsplit
    (by
      have h1 := audioOps_length_le opts.chunk_size input 0
      have h2 := hb.2.2.2.2.2.1
      have h3 : (metaOps opts meta).length ≤ 3 :=
        (metaOps_wf C opts meta hb.2.2.2.2.2.2).1
      omega)
    (fun op h => hops.2 op (by
      simp only [packOps, List.mem_append]
      exact Or.inl (Or.inr h)))
  rw [show ((packedHeader C input meta fmt opts fid salt).write_to
      ++ opsBytes C (packKeys C master salt) 1 0 fid 0 (metaOps opts meta)).length
      = 96 + opsRecLenSum C (metaOps opts meta) by simp [hAlen, hOBm]] at hfor
  have hconcat : readConcat C (packedReader C input meta fmt master opts fid salt)
      (packedReader C input meta fmt master opts fid salt).index.audio_entries
      = .ok input := by
    rw [show (packedReader C input meta fmt master opts fid salt).index
        = packedIndex C input meta fmt opts from rfl, haudio]
    rw [readConcat_forall₂ C _ _ _ hfor]
    rw [audioOps_flatten C opts.chunk_size input 0 (by have := hb.1; omega)]
  have hfmt : (packedReader C input meta fmt master opts fid
      salt).index.header.original_format = fmt := rfl
  simp [unpack_from_furry, hopen, hconcat, hfmt,
    Bind.bind, Except.bind, pure, Except.pure]

/-! ## Tiling of the audio entries -/

def voffsOf (es : List IndexEntryV1) : List Nat :=
  es.map (fun e => e.virtual_offset)

/-- The expected `virtual_offset` sequence when entries tile contiguously
starting at `start`: each offset is the running sum of the previous
`plain_len`s. -/
def offsetsAcc (start : Nat) : List IndexEntryV1 → List Nat
  | [] => []
  | e :: es => start :: offsetsAcc (start + e.plain_len) es

def sumPlain (es : List IndexEntryV1) : Nat :=
  (es.map (fun e => e.plain_len)).sum

theorem audioOps_entries_tile (C : CryptoModel) (cs : Nat) (input : Bytes) (v0 : Nat)
    (hcs32 : cs < 2 ^ 32) :
    ∀ seq off, voffsOf (opsEntries C seq off (audioOps cs input v0))
      = offsetsAcc v0 (opsEntries C seq off (audioOps cs input v0)) := by
  induction input, v0 using audioOps.induct cs with
  | case1 input v0 h =>
    intro seq off
    rw [audioOps, if_pos h]
    simp [opsEntries, voffsOf, offsetsAcc]
  | case2 input v0 h ih =>
    intro seq off
    rw [audioOps, if_neg h]
    have hclen : (input.take cs).length % 2 ^ 32 = (input.take cs).length := by
      have : (input.take cs).length ≤ cs := by simp [List.length_take]
      omega
    simp only [opsEntries, voffsOf, List.map_cons, offsetsAcc, opEntry_voff, opVoff,
      opEntry_plain_len, opPlain, hclen]
    have ihv := ih (seq + 1) (off + opRecLen C (WriteOp.audio (input.take cs) v0))
    simp only [voffsOf] at ihv
    rw [ihv]

theorem audioOps_entries_sumPlain (C : CryptoModel) (cs : Nat) (input : Bytes) (v0 : Nat)
    (hcs32 : cs < 2 ^ 32) (hcs : cs ≠ 0) :
    ∀ seq off, sumPlain (opsEntries C seq off (audioOps cs input v0)) = input.length := by
  induction input, v0 using audioOps.induct cs with
  | case1 input v0 h =>
    intro seq off
    rcases h with h | h
    · exact absurd h hcs
    · subst h
      intros
      rw [audioOps, if_pos (Or.inr rfl)]
      simp [opsEntries, sumPlain]
  | case2 input v0 h ih =>
    intro seq off
    rw [audioOps, if_neg h]
    have hne : input ≠ [] := (not_or.mp h).2
    have hlen : input.length ≠ 0 := fun hl => hne (List.eq_nil_of_length_eq_zero hl)
    have hclen : (input.take cs).length % 2 ^ 32 = (input.take cs).length := by
      have : (input.take cs).length ≤ cs := by simp [List.length_take]
      omega
    simp only [opsEntries, sumPlain, List.map_cons, List.sum_cons, opEntry_plain_len,
      opPlain, hclen]
    have ihv := ih (seq + 1) (off + opRecLen C (WriteOp.audio (input.take cs) v0))
    simp only [sumPlain] at ihv
    rw [ihv]
    simp [List.length_take, List.length_drop]
    omega

theorem audioOps_opsAudioLen (C : CryptoModel) (cs : Nat) (input : Bytes) (v0 : Nat)
    (hcs : cs ≠ 0) : opsAudioLen C (audioOps cs input v0) = input.length := by
  induction input, v0 using audioOps.induct cs with
  | case1 input v0 h =>
    rcases h with h | h
    · exact absurd h hcs
    · subst h
      rw [audioOps, if_pos (Or.inr rfl)]
      simp [opsAudioLen]
  | case2 input v0 h ih =>
    rw [audioOps, if_neg h]
    have hne : input ≠ [] := (not_or.mp h).2
    have hlen : input.length ≠ 0 := fun hl => hne (List.eq_nil_of_length_eq_zero hl)
    simp only [opsAudioLen, opAudioLen, ih]
    simp [List.length_take, List.length_drop]
    omega

theorem opsAudioLen_zero_of_no_audio (C : CryptoModel) (ops : List WriteOp)
    (h : ∀ op ∈ ops, ∀ data voff, op ≠ .audio data voff) :
    opsAudioLen C ops = 0 := by
  induction ops with
  | nil => rfl
  | cons op rest ih =>
    have h1 : opAudioLen op = 0 := by
      cases op with
      | audio data voff => exact absurd rfl (h _ (by simp) data voff)
      | metaW kind data flags => rfl
      | padding size => rfl
    simp only [opsAudioLen, h1, ih (fun x hx => h x (List.mem_cons_of_mem _ hx))]

theorem packOps_audio_stream_len (C : CryptoModel) (input : Bytes)
    (meta : Option ExtractedMeta) (opts : PackOptions)
    (hb : metaBound meta = true) (hcs : opts.chunk_size ≠ 0)
    (hcs32 : opts.chunk_size < 2 ^ 32) :
    opsAudioLen C (packOps opts input meta) = input.length := by
  rw [show packOps opts input meta
      = (metaOps opts meta ++ audioOps opts.chunk_size input 0)
        ++ (paddingSizes opts.padding_bytes opts.padding_chunk_size).map .padding
      from rfl]
  rw [opsAudioLen_append, opsAudioLen_append]
  rw [opsAudioLen_zero_of_no_audio C (metaOps opts meta) (fun op h => by
    have := ((metaOps_wf C opts meta hb).2 op h).1
    intro data voff heq
    subst heq
    simp [opChunkType] at this)]
  rw [audioOps_opsAudioLen C _ _ _ hcs]
  rw [opsAudioLen_zero_of_no_audio C
      ((paddingSizes opts.padding_bytes opts.padding_chunk_size).map .padding)
      (fun op h => by
    obtain ⟨sz, hsz, heq⟩ := List.mem_map.mp h
    subst heq
    intro data voff heq2
    exact WriteOp.noConfusion heq2)]
  omega

theorem packedIndex_audio_filter (C : CryptoModel) (input : Bytes)
    (meta : Option ExtractedMeta) (fmt : OriginalFormat) (opts : PackOptions)
    (hb : metaBound meta = true) :
    (packedIndex C input meta fmt opts).entries.filter
        (fun e => e.chunk_type = .Audio)
      = opsEntries C (metaOps opts meta).length
          (96 + opsRecLenSum C (metaOps opts meta))
          (audioOps opts.chunk_size input 0) := by
  obtain ⟨-, hm2⟩ := metaOps_wf C opts meta hb
  have hentries : (packedIndex C input meta fmt opts).entries
      = opsEntries C 0 96 (packOps opts input meta) := rfl
  rw [hentries]
  rw [show packOps opts input meta
      = (metaOps opts meta ++ audioOps opts.chunk_size input 0)
        ++ (paddingSizes opts.padding_bytes opts.padding_chunk_size).map .padding
      from rfl]
  rw [opsEntries_append, opsEntries_append, List.filter_append, List.filter_append]
  rw [opsEntries_filter_none C _ _ _ _ (fun op h => by
    have := (hm2 op h).1
    simp [this])]
  rw [opsEntries_filter_all C _ _ _ _ (fun op h => by
    obtain ⟨data, voff, heq, -⟩ := audioOps_mem _ _ _ op h
    subst heq
    rfl)]
  rw [opsEntries_filter_none C _ _ _ _ (fun op h => by
    obtain ⟨sz, hsz, heq⟩ := List.mem_map.mp h
    subst heq
    simp [opChunkType])]
  rw [List.nil_append, List.append_nil, Nat.zero_add]

/-! ## Nonce uniqueness -/

theorem nonce_inj (np : Bytes) (a b : Nat) (ha : a < 2 ^ 64) (hb : b < 2 ^ 64)
    (h : nonce_for_chunk np a = nonce_for_chunk np b) : a = b := by
  unfold nonce_for_chunk at h
  have h1 : leBytes 8 a = leBytes 8 b := List.append_cancel_left h
  have h2 : leVal (leBytes 8 a) = leVal (leBytes 8 b) := by rw [h1]
  rw [leVal_leBytes, leVal_leBytes] at h2
  omega

theorem nonces_pairwise_ne (np : Bytes) (n : Nat) (hn : n ≤ 2 ^ 64) :
    ((List.range n).map (fun seqn => nonce_for_chunk np seqn)).Pairwise (· ≠ ·) := by
  rw [List.pairwise_map]
  refine List.Pairwise.imp_of_mem ?_ (List.pairwise_lt_range n)
  intro a b hma hmb hlt heq
  have ha := List.mem_range.mp hma
  have hb := List.mem_range.mp hmb
  have := nonce_inj np a b (by omega) (by omega) heq
  omega

/-! ## Claim C9: the hard-coded default master key -/

/-- C9: `MasterKey::default_key()` returns the fixed compile-time constant
`MASTER_KEY_BYTES` — the 32 ASCII bytes of "FURRY_MASTER_KEY_2026_V1_SECRET!"
— so every caller relying on the default uses one hard-coded master key,
identical across processes and files, not a key supplied by the
environment. -/
theorem C9_default_key_is_fixed_constant :
    MasterKey.default_key = MasterKey.new MASTER_KEY_BYTES ∧
    MasterKey.default_key.bytes = MASTER_KEY_BYTES ∧
    MASTER_KEY_BYTES =
      [0x46, 0x55, 0x52, 0x52, 0x59, 0x5f, 0x4d, 0x41,
       0x53, 0x54, 0x45, 0x52, 0x5f, 0x4b, 0x45, 0x59,
       0x5f, 0x32, 0x30, 0x32, 0x36, 0x5f, 0x56, 0x31,
       0x5f, 0x53, 0x45, 0x43, 0x52, 0x45, 0x54, 0x21] ∧
    MASTER_KEY_BYTES.length = 32 :=
  ⟨rfl, rfl, rfl, rfl⟩

/-! ## Claim C10: the u64→i64 cast in `seek(Start(_))` -/

/-- A concrete stream used by the seek witness. -/
def sampleStream : VirtualAudioStream where
  reader :=
    { inner := []
      header := FurryHeaderV1.new (List.replicate 16 0) (List.replicate 16 0)
      keys := ⟨[], [0, 0, 0, 0], []⟩
      index := FurryIndexV1.new 0 .Wav }
  audio_entries := []
  total_len := 0
  position := 0
  current_chunk := none

/-- C10: `seek(SeekFrom::Start(offset))` casts the u64 offset to i64, so
every offset ≥ 2^63 wraps to a negative position and fails with the
invalid-input error, while every offset < 2^63 succeeds and sets the
position to exactly `offset` — with no clamping to the stream length. -/
theorem C10_seek_start_u64_cast (s : VirtualAudioStream) (offset : Nat)
    (hoff : offset < 2 ^ 64) :
    (2 ^ 63 ≤ offset →
      VirtualAudioStream.seek s (.Start offset) = .error .invalidInput) ∧
    (offset < 2 ^ 63 →
      VirtualAudioStream.seek s (.Start offset)
        = .ok (offset, { s with position := offset })) := by
  constructor
  · intro h
    have hneg : i64ofU64 offset < 0 := by
      rw [i64ofU64, if_neg (by omega)]
      have h1 : (offset : Int) < 2 ^ 64 := by exact_mod_cast hoff
      omega
    simp [VirtualAudioStream.seek, hneg]
  · intro h
    have hpos : ¬ i64ofU64 offset < 0 := by
      rw [i64ofU64, if_pos h]
      exact not_lt.mpr (Int.natCast_nonneg _)
    have htn : (i64ofU64 offset).toNat = offset := by
      rw [i64ofU64, if_pos h]
      exact Int.toNat_natCast _
    simp [VirtualAudioStream.seek, hpos, htn]

/-- Witness for C10 at the first wrapping offset 2^63 (and the in-range
bound 2^64): the error branch of the conclusion fires. -/
theorem C10_seek_start_u64_cast_witness :
    (2 ^ 63 : Nat) < 2 ^ 64 ∧
    ((2 ^ 63 ≤ (2 ^ 63 : Nat) →
        VirtualAudioStream.seek sampleStream (.Start (2 ^ 63))
          = .error .invalidInput) ∧
      ((2 ^ 63 : Nat) < 2 ^ 63 →
        VirtualAudioStream.seek sampleStream (.Start (2 ^ 63))
          = .ok (2 ^ 63, { sampleStream with position := 2 ^ 63 }))) :=
  ⟨by norm_num, C10_seek_start_u64_cast sampleStream (2 ^ 63) (by norm_num)⟩

/-! ## Claim C7: which error a wrong fixed-size field raises -/

/-- Reading one little-endian byte off a stream whose head is a literal
singleton returns that byte unreduced (no width bound needed). -/
theorem readLE_singleton (x : Nat) (r : Bytes) : readLE 1 (x :: r) = .ok (x, r) := by
  have h : takeBytes 1 (x :: r) = .ok ([x], r) := by
    simp [takeBytes]
  simp [readLE, h, leVal, Bind.bind, Except.bind]

/-- A file header whose `header_size` field is 95 instead of 96. -/
def badFileHeader : FurryHeaderV1 :=
  { FurryHeaderV1.new (List.replicate 16 0) (List.replicate 16 0) with
    header_size := 95 }

/-- A chunk record header whose `header_len` field is 39 instead of 40. -/
def badChunkHeader : ChunkRecordHeaderV1 :=
  { ChunkRecordHeaderV1.new .Audio 0 0 0 with header_len := 39 }

/-- Counterexample to C7 as stated: a chunk record header with
`header_len = 39` is rejected with `CorruptIndex "chunk header_len != 40"`,
not with `InvalidHeaderSize`. -/
theorem C7_counterexample_chunk_header_len :
    ChunkRecordHeaderV1.read_from badChunkHeader.to_bytes
      = .error (.CorruptIndex "chunk header_len != 40") ∧
    ChunkRecordHeaderV1.read_from badChunkHeader.to_bytes
      ≠ .error (.InvalidHeaderSize 39) := by
  have h : ChunkRecordHeaderV1.read_from badChunkHeader.to_bytes
      = .error (.CorruptIndex "chunk header_len != 40") := by rfl
  refine ⟨h, ?_⟩
  rw [h]
  intro hc
  exact FormatError.noConfusion (Except.error.inj hc)

/-- C7 (amended): a file header whose `header_size` is not 96 is rejected
with `InvalidHeaderSize`, but a chunk record header whose `header_len` is
not 40 is rejected with `CorruptIndex "chunk header_len != 40"` — the
`InvalidHeaderSize` error kind is only used by the file-header decoder. -/
theorem C7_fixed_size_field_errors (h : FurryHeaderV1) (ch : ChunkRecordHeaderV1)
    (r : Bytes) (hv : h.version = 1) (hsz : h.header_size < 2 ^ 16)
    (hne : h.header_size ≠ 96) (hchv : ch.header_version = 1)
    (hcl : ch.header_len < 2 ^ 16) (hcne : ch.header_len ≠ 40) :
    FurryHeaderV1.read_from (h.write_to ++ r)
      = .error (.InvalidHeaderSize h.header_size) ∧
    ChunkRecordHeaderV1.read_from (ch.to_bytes ++ r)
      = .error (.CorruptIndex "chunk header_len != 40") ∧
    ∀ v, ChunkRecordHeaderV1.read_from (ch.to_bytes ++ r)
      ≠ .error (.InvalidHeaderSize v) := by
  have e1 : h.version % 65536 = 1 := by omega
  have e2 : h.header_size % 65536 = h.header_size := by omega
  have hchunk : ChunkRecordHeaderV1.read_from (ch.to_bytes ++ r)
      = .error (.CorruptIndex "chunk header_len != 40") := by
    have e3 : ch.header_version % 65536 = 1 := by omega
    have e4 : ch.header_len % 65536 = ch.header_len := by omega
    simp only [ChunkRecordHeaderV1.to_bytes, List.append_assoc]
    simp [ChunkRecordHeaderV1.read_from, takeBytes_append, CHUNK_MAGIC_length,
      leBytes_length, readLE_leBytes, readLE_singleton, e3, e4, ChunkType.fromU8_toU8,
      CHUNK_HEADER_VERSION, CHUNK_HEADER_LEN, hcne,
      Bind.bind, Except.bind, throw, throwThe, MonadExceptOf.throw, pure, Except.pure,
      Functor.map, Except.map]
  refine ⟨?_, hchunk, ?_⟩
  · simp only [FurryHeaderV1.write_to, List.append_assoc]
    simp [FurryHeaderV1.read_from, takeBytes_append, FURRY_MAGIC_length,
      leBytes_length, readLE_leBytes, e1, e2, FURRY_VERSION, FURRY_HEADER_LEN, hne,
      Bind.bind, Except.bind, throw, throwThe, MonadExceptOf.throw, pure, Except.pure,
      Functor.map, Except.map]
  · intro v hc
    rw [hchunk] at hc
    exact FormatError.noConfusion (Except.error.inj hc)

/-- Witness for C7 at `badFileHeader` (header_size 95) and `badChunkHeader`
(header_len 39). -/
theorem C7_fixed_size_field_errors_witness :
    badFileHeader.version = 1 ∧ badFileHeader.header_size < 2 ^ 16 ∧
    badFileHeader.header_size ≠ 96 ∧ badChunkHeader.header_version = 1 ∧
    badChunkHeader.header_len < 2 ^ 16 ∧ badChunkHeader.header_len ≠ 40 ∧
    (FurryHeaderV1.read_from (badFileHeader.write_to ++ [])
        = .error (.InvalidHeaderSize badFileHeader.header_size) ∧
      ChunkRecordHeaderV1.read_from (badChunkHeader.to_bytes ++ [])
        = .error (.CorruptIndex "chunk header_len != 40") ∧
      ∀ v, ChunkRecordHeaderV1.read_from (badChunkHeader.to_bytes ++ [])
        ≠ .error (.InvalidHeaderSize v)) :=
  ⟨rfl, by decide, by decide, rfl, by decide, by decide,
    C7_fixed_size_field_errors badFileHeader badChunkHeader []
      rfl (by decide) (by decide) rfl (by decide) (by decide)⟩

/-! ## Claim C2: the META XOR mask is never applied -/

/-- A writer that wrote one Meta chunk with `FLAG_META_XOR` set, under the
identity crypto model. -/
def c2Writer : FurryWriter :=
  FurryWriter.write_meta_chunk idCrypto
    (FurryWriter.create idCrypto MasterKey.default_key (List.replicate 16 0)
      (List.replicate 16 0) .Wav)
    .Tags [0] FLAG_META_XOR

/-- Counterexample to C2 as stated: under the identity crypto model the
ciphertext byte stored at offset 136 (after the 96-byte file header and the
40-byte chunk header) for a Meta chunk written with data `[0]` and
`FLAG_META_XOR` set is the raw `[0]` — the AEAD input was the unmasked
data — whereas the META mask stream for this chunk is `[1]`, so the claimed
pre-encryption masking would have stored `[1]` instead. -/
theorem C2_counterexample_no_masking :
    (c2Writer.out.drop 136).take 1 = [0] ∧
    xorMask (idCrypto.metaMask c2Writer.keys.meta_xor_key 0 1) [0] = [1] ∧
    ([0] : Bytes) ≠ [1] :=
  ⟨by rfl, by rfl, by decide⟩

/-- C2 (amended): `write_meta_chunk` records `FLAG_META_XOR` in the chunk
header and index entry but never applies the META XOR mask — the data is
AEAD-encrypted unmasked and `read_chunk` returns it unmasked, so a Meta
chunk written with the flag set round-trips to the raw data with no masking
on either side (`xor_meta_in_place` is dead code). -/
theorem C2_meta_xor_flag_not_applied (C : CryptoModel) (hC : C.Sound) (kind : MetaKind)
    (data : Bytes) (fmt : OriginalFormat) (master : MasterKey) (fid salt : Bytes)
    (hfid : fid.length = 16) (hsalt : salt.length = 16) (hdata : data.length ≤ 2 ^ 26) :
    ∃ r, FurryReader.open C
        (wFile C [.metaW kind data FLAG_META_XOR] fmt master fid salt) master
        = .ok r ∧
      r.index.entries
        = [IndexEntryV1.new_meta 0 96 (CHUNK_HEADER_LEN + data.length % 2 ^ 32 + 16)
            (data.length % 2 ^ 32) kind FLAG_META_XOR] ∧
      FurryReader.read_chunk C r
          (IndexEntryV1.new_meta 0 96 (CHUNK_HEADER_LEN + data.length % 2 ^ 32 + 16)
            (data.length % 2 ^ 32) kind FLAG_META_XOR)
        = .ok data := by
  have hops : OpsWF C [.metaW kind data FLAG_META_XOR] := by
    refine ⟨by norm_num, ?_⟩
    intro op hmem
    rw [List.mem_singleton] at hmem
    subst hmem
    exact ⟨by simpa [opPlain] using hdata, by simp [opVoff],
      by simp [opFlags, FLAG_META_XOR]⟩
  have hopen := open_wFile C hC [.metaW kind data FLAG_META_XOR] fmt master fid salt
    hfid hsalt hops
  have hAlen : (wHeader C [.metaW kind data FLAG_META_XOR] fmt fid salt).write_to.length
      = 96 :=
    FurryHeaderV1.write_to_length _ (by simp [wHeader, FurryHeaderV1.new, hfid])
      (by simp [wHeader, FurryHeaderV1.new, hsalt])
      (by simp [wHeader, FurryHeaderV1.new])
  have hentry : opEntry C (.metaW kind data FLAG_META_XOR) 0 96
      = IndexEntryV1.new_meta 0 96 (CHUNK_HEADER_LEN + data.length % 2 ^ 32 + 16)
          (data.length % 2 ^ 32) kind FLAG_META_XOR := rfl
  refine ⟨wReader C [.metaW kind data FLAG_META_XOR] fmt master fid salt, hopen, ?_, ?_⟩
  · show opsEntries C 0 96 [.metaW kind data FLAG_META_XOR] = _
    simp only [opsEntries, hentry]
  · have hfor := opsEntries_readback C hC
      (wReader C [.metaW kind data FLAG_META_XOR] fmt master fid salt)
      [.metaW kind data FLAG_META_XOR] 0
      (wHeader C [.metaW kind data FLAG_META_XOR] fmt fid salt).write_to
      (encRecord C (packKeys C master salt) 1 0 fid
        (ChunkRecordHeaderV1.new .Index
          ([WriteOp.metaW kind data FLAG_META_XOR]).length 0
          ((wIndex C [.metaW kind data FLAG_META_XOR] fmt).to_bytes.length % 2 ^ 32))
        (wIndex C [.metaW kind data FLAG_META_XOR] fmt).to_bytes)
      (wFile_decomp C [.metaW kind data FLAG_META_XOR] fmt master fid salt hfid hsalt)
      (by norm_num)
      (fun op h => hops.2 op h)
    rw [hAlen] at hfor
    rcases hfor with _ | ⟨⟨hread, -⟩, -⟩
    rw [hentry] at hread
    exact hread

/-- Witness for C2 (amended) at a concrete one-byte Tags chunk under the
identity crypto model. -/
theorem C2_meta_xor_flag_not_applied_witness :
    idCrypto.Sound ∧ (List.replicate 16 2 : Bytes).length = 16 ∧
    (List.replicate 16 3 : Bytes).length = 16 ∧ ([0] : Bytes).length ≤ 2 ^ 26 ∧
    (∃ r, FurryReader.open idCrypto
        (wFile idCrypto [.metaW .Tags [0] FLAG_META_XOR] .Wav MasterKey.default_key
          (List.replicate 16 2) (List.replicate 16 3)) MasterKey.default_key
        = .ok r ∧
      r.index.entries
        = [IndexEntryV1.new_meta 0 96 (CHUNK_HEADER_LEN + ([0] : Bytes).length % 2 ^ 32 + 16)
            (([0] : Bytes).length % 2 ^ 32) .Tags FLAG_META_XOR] ∧
      FurryReader.read_chunk idCrypto r
          (IndexEntryV1.new_meta 0 96 (CHUNK_HEADER_LEN + ([0] : Bytes).length % 2 ^ 32 + 16)
            (([0] : Bytes).length % 2 ^ 32) .Tags FLAG_META_XOR)
        = .ok [0]) :=
  ⟨idCrypto_sound, by decide, by decide, by decide,
    C2_meta_xor_flag_not_applied idCrypto idCrypto_sound .Tags [0] .Wav
      MasterKey.default_key (List.replicate 16 2) (List.replicate 16 3)
      (by decide) (by decide) (by decide)⟩

/-! ## Claim C3: strictly monotone chunk sequence numbers, distinct nonces -/

/-- C3: over any write sequence, the writer assigns `chunk_seq` strictly
monotonically from 0 in write order — the index entries carry exactly
0, 1, …, n−1 — the index chunk written by `finish` receives the next value n
(visible in its chunk header parsed at `index_offset` of the finished file),
and all n+1 sequence numbers, index chunk included, yield pairwise distinct
AEAD nonces under the file's nonce prefix. -/
theorem C3_chunk_seq_monotone_nonces_distinct (C : CryptoModel) (hC : C.Sound)
    (ops : List WriteOp) (fmt : OriginalFormat) (master : MasterKey) (fid salt : Bytes)
    (hfid : fid.length = 16) (hsalt : salt.length = 16) (hops : OpsWF C ops) :
    ((wWriter C ops fmt master fid salt).index.entries.map (fun e => e.chunk_seq)
      = List.range ops.length) ∧
    (wWriter C ops fmt master fid salt).chunk_seq = ops.length ∧
    (∃ rest, ChunkRecordHeaderV1.read_from
        ((wFile C ops fmt master fid salt).drop
          (wHeader C ops fmt fid salt).index_offset)
      = .ok (ChunkRecordHeaderV1.new .Index ops.length 0
          ((wIndex C ops fmt).to_bytes.length % 2 ^ 32), rest)) ∧
    ((List.range (ops.length + 1)).map
        (fun seqn => nonce_for_chunk (packKeys C master salt).noncePre seqn)).Pairwise
      (· ≠ ·) := by
  obtain ⟨p1, p2, p3, p4, p5, p6⟩ := wWriter_spec C ops fmt master fid salt
  obtain ⟨hhwf, hiwf, hidxlen, hidxlt, hrec⟩ := w_bounds C ops fmt fid salt hfid hsalt hops
  have hsmall : ∀ op ∈ ops, (opPlain C op).length < 2 ^ 32 :=
    fun op h => lt_of_le_of_lt (hops.2 op h).1 (by norm_num)
  have hOBlen : (opsBytes C (packKeys C master salt) 1 0 fid 0 ops).length
      = opsRecLenSum C ops :=
    opsBytes_length C hC _ 1 0 fid 0 _ hsmall
  have hAlen : (wHeader C ops fmt fid salt).write_to.length = 96 :=
    FurryHeaderV1.write_to_length _ (by simp [wHeader, FurryHeaderV1.new, hfid])
      (by simp [wHeader, FurryHeaderV1.new, hsalt])
      (by simp [wHeader, FurryHeaderV1.new])
  have hfile := wFile_decomp C ops fmt master fid salt hfid hsalt
  have hio : (wHeader C ops fmt fid salt).index_offset
      = 96 + opsRecLenSum C ops := by
    simp [wHeader]
  have hlen2 : ((wHeader C ops fmt fid salt).write_to
      ++ opsBytes C (packKeys C master salt) 1 0 fid 0 ops).length
      = 96 + opsRecLenSum C ops := by
    simp [hAlen, hOBlen]
  have hdropF : (wFile C ops fmt master fid salt).drop
        (wHeader C ops fmt fid salt).index_offset
      = encRecord C (packKeys C master salt) 1 0 fid
          (ChunkRecordHeaderV1.new .Index ops.length 0
            ((wIndex C ops fmt).to_bytes.length % 2 ^ 32))
          (wIndex C ops fmt).to_bytes := by
    rw [hfile, hio, List.drop_append_eq_append_drop,
      List.drop_eq_nil_of_le (le_of_eq hlen2), hlen2, Nat.sub_self, List.drop_zero,
      List.nil_append]
  have hchwf : ChunkHeaderWF (ChunkRecordHeaderV1.new .Index ops.length 0
      ((wIndex C ops fmt).to_bytes.length % 2 ^ 32)) := by
    simp only [ChunkRecordHeaderV1.new]
    exact ⟨rfl, rfl, by norm_num, by norm_num, lt_of_le_of_lt hops.1 (by norm_num),
      by norm_num, Nat.mod_lt _ (by norm_num), by norm_num, by norm_num⟩
  refine ⟨?_, p3, ?_, ?_⟩
  · rw [p6]
    show (opsEntries C 0 96 ops).map _ = _
    rw [opsEntries_seqs, List.range_eq_range']
  · rw [hdropF]
    rw [show encRecord C (packKeys C master salt) 1 0 fid
        (ChunkRecordHeaderV1.new .Index ops.length 0
          ((wIndex C ops fmt).to_bytes.length % 2 ^ 32))
        (wIndex C ops fmt).to_bytes
      = (ChunkRecordHeaderV1.new .Index ops.length 0
          ((wIndex C ops fmt).to_bytes.length % 2 ^ 32)).to_bytes
        ++ ((C.aeadEncrypt (packKeys C master salt).aead_key
              (nonce_for_chunk (packKeys C master salt).noncePre ops.length)
              (build_aad_v1 fid 1 0 (ChunkRecordHeaderV1.new .Index ops.length 0
                ((wIndex C ops fmt).to_bytes.length % 2 ^ 32)).to_bytes)
              (wIndex C ops fmt).to_bytes).1
          ++ (C.aeadEncrypt (packKeys C master salt).aead_key
              (nonce_for_chunk (packKeys C master salt).noncePre ops.length)
              (build_aad_v1 fid 1 0 (ChunkRecordHeaderV1.new .Index ops.length 0
                ((wIndex C ops fmt).to_bytes.length % 2 ^ 32)).to_bytes)
              (wIndex C ops fmt).to_bytes).2)
      from by simp [encRecord, ChunkRecordHeaderV1.new, List.append_assoc]]
    exact ⟨_, ChunkRecordHeaderV1.read_from_to_bytes _ _ hchwf⟩
  · refine nonces_pairwise_ne _ _ ?_
    have h1 := hops.1
    norm_num at h1 ⊢
    omega

/-- Witness for C3 at a concrete two-chunk write sequence (one audio chunk,
one padding chunk) under the identity crypto model. -/
theorem C3_chunk_seq_monotone_nonces_distinct_witness :
    (List.replicate 16 4 : Bytes).length = 16 ∧
    (List.replicate 16 5 : Bytes).length = 16 ∧
    OpsWF idCrypto [.audio [5] 0, .padding 2] ∧
    (((wWriter idCrypto [.audio [5] 0, .padding 2] .Mp3 MasterKey.default_key
          (List.replicate 16 4) (List.replicate 16 5)).index.entries.map
          (fun e => e.chunk_seq)
        = List.range ([WriteOp.audio [5] 0, WriteOp.padding 2]).length) ∧
      (wWriter idCrypto [.audio [5] 0, .padding 2] .Mp3 MasterKey.default_key
          (List.replicate 16 4) (List.replicate 16 5)).chunk_seq
        = ([WriteOp.audio [5] 0, WriteOp.padding 2]).length ∧
      (∃ rest, ChunkRecordHeaderV1.read_from
          ((wFile idCrypto [.audio [5] 0, .padding 2] .Mp3 MasterKey.default_key
              (List.replicate 16 4) (List.replicate 16 5)).drop
            (wHeader idCrypto [.audio [5] 0, .padding 2] .Mp3
              (List.replicate 16 4) (List.replicate 16 5)).index_offset)
        = .ok (ChunkRecordHeaderV1.new .Index
            ([WriteOp.audio [5] 0, WriteOp.padding 2]).length 0
            ((wIndex idCrypto [.audio [5] 0, .padding 2] .Mp3).to_bytes.length % 2 ^ 32),
            rest)) ∧
      ((List.range (([WriteOp.audio [5] 0, WriteOp.padding 2]).length + 1)).map
          (fun seqn => nonce_for_chunk
            (packKeys idCrypto MasterKey.default_key (List.replicate 16 5)).noncePre
            seqn)).Pairwise (· ≠ ·)) :=
  ⟨by decide, by decide, ⟨by decide, by decide⟩,
    C3_chunk_seq_monotone_nonces_distinct idCrypto idCrypto_sound
      [.audio [5] 0, .padding 2] .Mp3 MasterKey.default_key
      (List.replicate 16 4) (List.replicate 16 5) (by decide) (by decide)
      ⟨by decide, by decide⟩⟩

/-! ## Claim C8: the minimum file -/

theorem metaOps_none (opts : PackOptions) : metaOps opts none = [] := by
  unfold metaOps
  cases opts.include_meta <;> rfl

/-- C8: packing empty input with format Wav (default options) yields a file
of exactly 184 bytes — the 96-byte header followed by a single Index chunk
record (40-byte chunk header, 32-byte encrypted empty index, 16-byte tag) —
whose index records `audio_stream_len = 0` and no entries, and unpacking
that file yields empty output with format Wav. -/
theorem C8_minimum_file (C : CryptoModel) (hC : C.Sound) (master : MasterKey)
    (fid salt : Bytes) (hfid : fid.length = 16) (hsalt : salt.length = 16) :
    (pack_to_furry C [] none .Wav master PackOptions.default fid salt).length = 184 ∧
    (∃ r, FurryReader.open C
        (pack_to_furry C [] none .Wav master PackOptions.default fid salt) master
        = .ok r ∧
      r.index.header.audio_stream_len = 0 ∧ r.index.entries = []) ∧
    unpack_from_furry C (pack_to_furry C [] none .Wav master PackOptions.default fid salt)
      master = .ok (.Wav, []) := by
  have haud : audioOps PackOptions.default.chunk_size ([] : Bytes) 0 = [] := by
    rw [audioOps]
    simp
  have hpad : paddingSizes PackOptions.default.padding_bytes
      PackOptions.default.padding_chunk_size = [] := by
    rw [paddingSizes]
    simp [PackOptions.default]
  have hops0 : packOps PackOptions.default ([] : Bytes) none = [] := by
    rw [packOps, haud, hpad, metaOps_none]
    rfl
  have hw : pack_to_furry C [] none .Wav master PackOptions.default fid salt
      = wFile C [] .Wav master fid salt := by
    unfold pack_to_furry wFile
    rw [hops0]
  have hAlen : (wHeader C [] .Wav fid salt).write_to.length = 96 :=
    FurryHeaderV1.write_to_length _ (by simp [wHeader, FurryHeaderV1.new, hfid])
      (by simp [wHeader, FurryHeaderV1.new, hsalt])
      (by simp [wHeader, FurryHeaderV1.new])
  have hIlen : (wIndex C [] .Wav).to_bytes.length = 32 := by
    rw [FurryIndexV1.to_bytes_length_index _ (by simp [wIndex])]
    simp [wIndex, opsEntries]
  refine ⟨?_, ?_, ?_⟩
  · rw [hw, wFile_decomp C [] .Wav master fid salt hfid hsalt]
    simp [hAlen, opsBytes, encRecord_length C hC, hIlen]
  · refine ⟨wReader C [] .Wav master fid salt, ?_, rfl, rfl⟩
    rw [hw]
    exact open_wFile C hC [] .Wav master fid salt hfid hsalt
      ⟨by norm_num, by simp⟩
  · exact pack_unpack C hC [] none .Wav master PackOptions.default fid salt hfid hsalt
      ⟨by norm_num [PackOptions.default], by norm_num [PackOptions.default],
       by norm_num [PackOptions.default], by norm_num [PackOptions.default],
       by norm_num [PackOptions.default], by simp, rfl⟩

/-- Witness for C8 under the identity crypto model with concrete file id and
salt. -/
theorem C8_minimum_file_witness :
    idCrypto.Sound ∧ (List.replicate 16 6 : Bytes).length = 16 ∧
    (List.replicate 16 7 : Bytes).length = 16 ∧
    ((pack_to_furry idCrypto [] none .Wav MasterKey.default_key PackOptions.default
        (List.replicate 16 6) (List.replicate 16 7)).length = 184 ∧
      (∃ r, FurryReader.open idCrypto
          (pack_to_furry idCrypto [] none .Wav MasterKey.default_key PackOptions.default
            (List.replicate 16 6) (List.replicate 16 7)) MasterKey.default_key
          = .ok r ∧
        r.index.header.audio_stream_len = 0 ∧ r.index.entries = []) ∧
      unpack_from_furry idCrypto
        (pack_to_furry idCrypto [] none .Wav MasterKey.default_key PackOptions.default
          (List.replicate 16 6) (List.replicate 16 7)) MasterKey.default_key
        = .ok (.Wav, [])) :=
  ⟨idCrypto_sound, by decide, by decide,
    C8_minimum_file idCrypto idCrypto_sound MasterKey.default_key
      (List.replicate 16 6) (List.replicate 16 7) (by decide) (by decide)⟩

/-! ## Claim C1: the pack/unpack roundtrip -/

/-- C1: for every input byte sequence, metadata, and format, packing with
any valid bounded options (`PackBound`) and unpacking the produced file with
the same master key returns exactly the original bytes and the recorded
format. -/
theorem C1_pack_unpack_roundtrip (C : CryptoModel) (hC : C.Sound) (input : Bytes)
    (meta : Option ExtractedMeta) (fmt : OriginalFormat) (master : MasterKey)
    (opts : PackOptions) (fid salt : Bytes) (hfid : fid.length = 16)
    (hsalt : salt.length = 16) (hb : PackBound input meta opts) :
    unpack_from_furry C (pack_to_furry C input meta fmt master opts fid salt) master
      = .ok (fmt, input) :=
  pack_unpack C hC input meta fmt master opts fid salt hfid hsalt hb

/-- Witness for C1 at a concrete three-byte input with full metadata under
the identity crypto model. -/
theorem C1_pack_unpack_roundtrip_witness :
    idCrypto.Sound ∧ (List.replicate 16 8 : Bytes).length = 16 ∧
    (List.replicate 16 9 : Bytes).length = 16 ∧
    PackBound [1, 2, 3] (some ⟨some [10], some ⟨[105], [7]⟩, some [20]⟩)
      ⟨2, 3, 2, true⟩ ∧
    unpack_from_furry idCrypto
      (pack_to_furry idCrypto [1, 2, 3]
        (some ⟨some [10], some ⟨[105], [7]⟩, some [20]⟩) .Mp3 MasterKey.default_key
        ⟨2, 3, 2, true⟩ (List.replicate 16 8) (List.replicate 16 9))
      MasterKey.default_key = .ok (.Mp3, [1, 2, 3]) :=
  ⟨idCrypto_sound, by decide, by decide,
    ⟨by decide, by decide, by decide, by decide, by decide, by decide, by decide⟩,
    C1_pack_unpack_roundtrip idCrypto idCrypto_sound [1, 2, 3]
      (some ⟨some [10], some ⟨[105], [7]⟩, some [20]⟩) .Mp3 MasterKey.default_key
      ⟨2, 3, 2, true⟩ (List.replicate 16 8) (List.replicate 16 9)
      (by decide) (by decide)
      ⟨by decide, by decide, by decide, by decide, by decide, by decide, by decide⟩⟩

/-! ## Claim C4: audio chunks tile the virtual stream -/

/-- C4: in every packed file, the Audio entries sorted by `virtual_offset`
coincide with write order, each entry's `virtual_offset` is the running sum
of the `plain_len` of the preceding Audio chunks (`offsetsAcc 0`), so they
tile `[0, audio_stream_len)` contiguously without gaps or overlap, and
`audio_stream_len` equals the sum of `plain_len` over the Audio entries
(both being the packed input's length). -/
theorem C4_audio_tiling (C : CryptoModel) (hC : C.Sound) (input : Bytes)
    (meta : Option ExtractedMeta) (fmt : OriginalFormat) (master : MasterKey)
    (opts : PackOptions) (fid salt : Bytes) (hfid : fid.length = 16)
    (hsalt : salt.length = 16) (hb : PackBound input meta opts) :
    ∃ r, FurryReader.open C (pack_to_furry C input meta fmt master opts fid salt) master
        = .ok r ∧
      r.index.audio_entries
        = r.index.entries.filter (fun e => e.chunk_type = .Audio) ∧
      voffsOf r.index.audio_entries = offsetsAcc 0 r.index.audio_entries ∧
      sumPlain r.index.audio_entries = r.index.header.audio_stream_len ∧
      r.index.header.audio_stream_len = input.length := by
  have hops := packOps_wf C hC input meta opts hb
  have hopen := open_pack C hC input meta fmt master opts fid salt hfid hsalt hops
  have hcs0 : opts.chunk_size ≠ 0 := by have := hb.1; omega
  have hcs32 : opts.chunk_size < 2 ^ 32 := by have := hb.2.1; norm_num at this ⊢; omega
  have hbm := hb.2.2.2.2.2.2
  have haudio := packedIndex_audio_entries C input meta fmt opts hbm
  have hfilter := packedIndex_audio_filter C input meta fmt opts hbm
  have hasl2 := packOps_audio_stream_len C input meta opts hbm hcs0 hcs32
  refine ⟨packedReader C input meta fmt master opts fid salt, hopen, ?_, ?_, ?_, ?_⟩
  · show (packedIndex C input meta fmt opts).audio_entries
      = (packedIndex C input meta fmt opts).entries.filter _
    rw [haudio, hfilter]
  · show voffsOf (packedIndex C input meta fmt opts).audio_entries
      = offsetsAcc 0 (packedIndex C input meta fmt opts).audio_entries
    rw [haudio]
    exact audioOps_entries_tile C opts.chunk_size input 0 hcs32 _ _
  · show sumPlain (packedIndex C input meta fmt opts).audio_entries
      = (packedIndex C input meta fmt opts).header.audio_stream_len
    rw [haudio, audioOps_entries_sumPlain C opts.chunk_size input 0 hcs32 hcs0 _ _]
    exact hasl2.symm
  · exact hasl2

/-- Witness for C4 at a concrete five-byte input, chunk size 2, no metadata,
under the identity crypto model. -/
theorem C4_audio_tiling_witness :
    idCrypto.Sound ∧ (List.replicate 16 10 : Bytes).length = 16 ∧
    (List.replicate 16 11 : Bytes).length = 16 ∧
    PackBound [1, 2, 3, 4, 5] none ⟨2, 0, 2, false⟩ ∧
    (∃ r, FurryReader.open idCrypto
        (pack_to_furry idCrypto [1, 2, 3, 4, 5] none .Flac MasterKey.default_key
          ⟨2, 0, 2, false⟩ (List.replicate 16 10) (List.replicate 16 11))
        MasterKey.default_key = .ok r ∧
      r.index.audio_entries
        = r.index.entries.filter (fun e => e.chunk_type = .Audio) ∧
      voffsOf r.index.audio_entries = offsetsAcc 0 r.index.audio_entries ∧
      sumPlain r.index.audio_entries = r.index.header.audio_stream_len ∧
      r.index.header.audio_stream_len = ([1, 2, 3, 4, 5] : Bytes).length) :=
  ⟨idCrypto_sound, by decide, by decide,
    ⟨by decide, by decide, by decide, by decide, by decide, by decide, by decide⟩,
    C4_audio_tiling idCrypto idCrypto_sound [1, 2, 3, 4, 5] none .Flac
      MasterKey.default_key ⟨2, 0, 2, false⟩ (List.replicate 16 10)
      (List.replicate 16 11) (by decide) (by decide)
      ⟨by decide, by decide, by decide, by decide, by decide, by decide, by decide⟩⟩

/-! ## Claim C6: read_latest_meta -/

/-- The per-kind `max_plain_len` cap of `read_latest_meta`. -/
def metaSizeCap : MetaKind → Nat
  | .Tags => 256 * 1024
  | .Lyrics => 2 * 1024 * 1024
  | .CoverArt => 64 * 1024 * 1024
  | .Unknown => 256 * 1024

theorem mem_of_getLast?_eq {α : Type _} {l : List α} {x : α}
    (h : l.getLast? = some x) : x ∈ l := by
  obtain ⟨hne, heq⟩ := List.mem_getLast?_eq_getLast (by rw [Option.mem_def]; exact h)
  rw [heq]
  exact List.getLast_mem hne

/-- In a list whose `chunk_seq` projections are strictly increasing, the
last element has the maximum `chunk_seq`. -/
theorem last_is_max_of_pairwise_lt (l : List IndexEntryV1) (e : IndexEntryV1)
    (hp : (l.map (fun x => x.chunk_seq)).Pairwise (· < ·))
    (hl : l.getLast? = some e) : ∀ x ∈ l, x.chunk_seq ≤ e.chunk_seq := by
  induction l with
  | nil => simp at hl
  | cons a t ih =>
    rw [List.map_cons, List.pairwise_cons] at hp
    cases t with
    | nil =>
      simp at hl
      subst hl
      simp
    | cons b t2 =>
      rw [List.getLast?_cons_cons] at hl
      intro x hx
      rcases List.mem_cons.mp hx with hx | hx
      · subst hx
        have hmem : e ∈ b :: t2 := mem_of_getLast?_eq hl
        have := hp.1 e.chunk_seq (List.mem_map_of_mem _ hmem)
        omega
      · exact ih hp.2 hl x hx

/-- C6: `read_latest_meta` returns `ok none` when no Meta entry of the
requested kind exists; otherwise — for an index whose entries are in
strictly increasing `chunk_seq` order, as the writer produces — it selects
the last matching entry, which has the maximum `chunk_seq` among the
matches, returns `ok none` (not an error) when that entry's `plain_len`
exceeds the per-kind cap (Tags 256 KiB, Lyrics 2 MiB, CoverArt 64 MiB,
Unknown 256 KiB), and otherwise returns its decrypted payload. -/
theorem C6_read_latest_meta (C : CryptoModel) (r : FurryReader) (kind : MetaKind)
    (hmono : (r.index.entries.map (fun e => e.chunk_seq)).Pairwise (· < ·)) :
    (r.index.meta_entries_by_kind kind = [] →
      FurryReader.read_latest_meta C r kind = .ok none) ∧
    ∀ e, (r.index.meta_entries_by_kind kind).getLast? = some e →
      e ∈ r.index.meta_entries_by_kind kind ∧
      (∀ x ∈ r.index.meta_entries_by_kind kind, x.chunk_seq ≤ e.chunk_seq) ∧
      FurryReader.read_latest_meta C r kind
        = (if e.plain_len > metaSizeCap kind then .ok none
           else (FurryReader.read_chunk C r e).map some) := by
  have hpair : ((r.index.meta_entries_by_kind kind).map
      (fun x => x.chunk_seq)).Pairwise (· < ·) :=
    List.Pairwise.sublist (List.Sublist.map _ (List.filter_sublist _)) hmono
  constructor
  · intro hempty
    unfold FurryReader.read_latest_meta
    rw [hempty]
    rfl
  · intro e hlast
    have hmem : e ∈ r.index.meta_entries_by_kind kind := mem_of_getLast?_eq hlast
    refine ⟨hmem, last_is_max_of_pairwise_lt _ e hpair hlast, ?_⟩
    have hrll : FurryReader.read_latest_meta C r kind
        = if e.plain_len > metaSizeCap kind then .ok none
          else Bind.bind (FurryReader.read_chunk C r e) (fun d => pure (some d)) := by
      unfold FurryReader.read_latest_meta
      rw [hlast]
      cases kind <;> rfl
    have hmap : Bind.bind (FurryReader.read_chunk C r e)
          (fun d => (pure (some d) : Except FormatError (Option Bytes)))
        = (FurryReader.read_chunk C r e).map some := by
      cases h : FurryReader.read_chunk C r e <;>
        simp [h, Bind.bind, Except.bind, pure, Except.pure, Functor.map, Except.map]
    rw [hrll, hmap]

/-- Entries and reader used by the C6 witness: two Tags Meta entries with
sequence numbers 0 and 1. -/
def c6Reader : FurryReader where
  inner := []
  header := FurryHeaderV1.new (List.replicate 16 0) (List.replicate 16 0)
  keys := ⟨[], [0, 0, 0, 0], []⟩
  index :=
    { header := IndexHeaderV1.new 2 0 .Wav
      entries := [IndexEntryV1.new_meta 0 96 57 1 .Tags 0,
        IndexEntryV1.new_meta 1 153 57 1 .Tags 0] }

/-- Witness for C6 at the concrete two-entry reader. -/
theorem C6_read_latest_meta_witness :
    ((c6Reader.index.entries.map (fun e => e.chunk_seq)).Pairwise (· < ·)) ∧
    ((c6Reader.index.meta_entries_by_kind .Tags = [] →
        FurryReader.read_latest_meta idCrypto c6Reader .Tags = .ok none) ∧
      ∀ e, (c6Reader.index.meta_entries_by_kind .Tags).getLast? = some e →
        e ∈ c6Reader.index.meta_entries_by_kind .Tags ∧
        (∀ x ∈ c6Reader.index.meta_entries_by_kind .Tags,
          x.chunk_seq ≤ e.chunk_seq) ∧
        FurryReader.read_latest_meta idCrypto c6Reader .Tags
          = (if e.plain_len > metaSizeCap .Tags then .ok none
             else (FurryReader.read_chunk idCrypto c6Reader e).map some)) :=
  ⟨by decide, C6_read_latest_meta idCrypto c6Reader .Tags (by decide)⟩

/-! ## Claim C5: random access through the virtual stream -/

/-- Every audio entry of a packed file reads back the corresponding audio
chunk plaintext. -/
theorem packedReader_audio_readback (C : CryptoModel) (hC : C.Sound) (input : Bytes)
    (meta : Option ExtractedMeta) (fmt : OriginalFormat) (master : MasterKey)
    (opts : PackOptions) (fid salt : Bytes)
    (hfid : fid.length = 16) (hsalt : salt.length = 16)
    (hb : PackBound input meta opts) :
    List.Forall₂ (fun e d => FurryReader.read_chunk C
        (packedReader C input meta fmt master opts fid salt) e = .ok d ∧
      e.plain_len = d.length)
      ((packedReader C input meta fmt master opts fid salt).index.audio_entries)
      ((audioOps opts.chunk_size input 0).map (opPlain C)) := by
  have hops := packOps_wf C hC input meta opts hb
  have haudio := packedIndex_audio_entries C input meta fmt opts hb.2.2.2.2.2.2
  have hAlen : (packedHeader C input meta fmt opts fid salt).write_to.length = 96 :=
    FurryHeaderV1.write_to_length _ (by simp [packedHeader, FurryHeaderV1.new, hfid])
      (by simp [packedHeader, FurryHeaderV1.new, hsalt])
      (by simp [packedHeader, FurryHeaderV1.new])
  have hsmallm : ∀ op ∈ metaOps opts meta, (opPlain C op).length < 2 ^ 32 := by
    intro op h
    have := (metaOps_wf C opts meta hb.2.2.2.2.2.2).2 op h
    omega
  have hOBm : (opsBytes C (packKeys C master salt) 1 0 fid 0 (metaOps opts meta)).length
      = opsRecLenSum C (metaOps opts meta) :=
    opsBytes_length C hC _ 1 0 fid 0 _ hsmallm
  have hsplit : pack_to_furry C input meta fmt master opts fid salt
      = ((packedHeader C input meta fmt opts fid salt).write_to
          ++ opsBytes C (packKeys C master salt) 1 0 fid 0 (metaOps opts meta))
        ++ opsBytes C (packKeys C master salt) 1 0 fid (metaOps opts meta).length
            (audioOps opts.chunk_size input 0)
        ++ (opsBytes C (packKeys C master salt) 1 0 fid
              ((metaOps opts meta).length + (audioOps opts.chunk_size input 0).length)
              ((paddingSizes opts.padding_bytes opts.padding_chunk_size).map .padding)
            ++ encRecord C (packKeys C master salt) 1 0 fid
              (ChunkRecordHeaderV1.new .Index (packOps opts input meta).length 0
                ((packedIndex C input meta fmt opts).to_bytes.length % 2 ^ 32))
              (packedIndex C input meta fmt opts).to_bytes) := by
    rw [pack_decomp C input meta fmt master opts fid salt hfid hsalt]
    rw [show packOps opts input meta
        = (metaOps opts meta ++ audioOps opts.chunk_size input 0)
          ++ (paddingSizes opts.padding_bytes opts.padding_chunk_size).map .padding
        from rfl]
    rw [opsBytes_append, opsBytes_append]
    have hlen : (packOps opts input meta).length
        = (metaOps opts meta).length + ((audioOps opts.chunk_size input 0).length
          + ((paddingSizes opts.padding_bytes opts.padding_chunk_size).map
              WriteOp.padding).length) := by
      simp [packOps]
    simp only [Nat.zero_add, List.append_assoc, List.length_append, hlen]
  have hfor := opsEntries_readback C hC
    (packedReader C input meta fmt master opts fid salt)
    (audioOps opts.chunk_size input 0) (metaOps opts meta).length
    ((packedHeader C input meta fmt opts fid salt).write_to
      ++ opsBytes C (packKeys C master salt) 1 0 fid 0 (metaOps opts meta))
    (opsBytes C (packKeys C master salt) 1 0 fid
        ((metaOps opts meta).length + (audioOps opts.chunk_size input 0).length)
        ((paddingSizes opts.padding_bytes opts.padding_chunk_size).map .padding)
      ++ encRecord C (packKeys C master salt) 1 0 fid
        (ChunkRecordHeaderV1.new .Index (packOps opts input meta).length 0
          ((packedIndex C input meta fmt opts).to_bytes.length % 2 ^ 32))
        (packedIndex C input meta fmt opts).to_bytes)
    hsplit
    (by
      have h1 := audioOps_length_le opts.chunk_size input 0
      have h2 := hb.2.2.2.2.2.1
      have h3 : (metaOps opts meta).length ≤ 3 :=
        (metaOps_wf C opts meta hb.2.2.2.2.2.2).1
      omega)
    (fun op h => hops.2 op (by
      simp only [packOps, List.mem_append]
      exact Or.inl (Or.inr h)))
  rw [show ((packedHeader C input meta fmt opts fid salt).write_to
      ++ opsBytes C (packKeys C master salt) 1 0 fid 0 (metaOps opts meta)).length
      = 96 + opsRecLenSum C (metaOps opts meta) by simp [hAlen, hOBm]] at hfor
  rw [show (packedReader C input meta fmt master opts fid salt).index
      = packedIndex C input meta fmt opts from rfl, haudio]
  exact hfor

/-- Covering-entry lookup: over entries that tile contiguously from `start`
and read back to `ds`, `find?` at any in-range position returns an entry
whose data is the matching slice of the concatenated content. -/
theorem find_cover (C : CryptoModel) (r : FurryReader) :
    ∀ (es : List IndexEntryV1) (ds : List Bytes) (start p : Nat),
      voffsOf es = offsetsAcc start es →
      List.Forall₂ (fun e d => FurryReader.read_chunk C r e = .ok d ∧
        e.plain_len = d.length) es ds →
      start ≤ p → p < start + ds.flatten.length →
      ∃ e d, es.find? (fun x =>
          x.virtual_offset ≤ p ∧ p < x.virtual_offset + x.plain_len) = some e ∧
        FurryReader.read_chunk C r e = .ok d ∧ e.plain_len = d.length ∧
        start ≤ e.virtual_offset ∧ e.virtual_offset ≤ p ∧
        p < e.virtual_offset + d.length ∧
        d = (ds.flatten.drop (e.virtual_offset - start)).take d.length := by
  intro es
  induction es with
  | nil =>
    intro ds start p h1 h2 h3 h4
    cases h2
    simp at h4
    omega
  | cons e es ih =>
    intro ds start p h1 h2 h3 h4
    cases h2 with
    | cons hed htail =>
      rename_i d ds'
      obtain ⟨hread, hplen⟩ := hed
      simp only [voffsOf, List.map_cons, offsetsAcc] at h1
      rw [List.cons.injEq] at h1
      obtain ⟨hv0, hrest⟩ := h1
      by_cases hp : p < e.virtual_offset + e.plain_len
      · refine ⟨e, d, ?_, hread, hplen, le_of_eq hv0.symm, ?_, ?_, ?_⟩
        · have hft : decide (e.virtual_offset ≤ p ∧ p < e.virtual_offset + e.plain_len)
              = true := by
            simp only [decide_eq_true_eq]
            exact ⟨hv0 ▸ h3, hp⟩
          simp only [List.find?, hft]
        · exact hv0 ▸ h3
        · omega
        · rw [hv0, Nat.sub_self, List.flatten_cons, List.drop_zero, List.take_left]
      · have hfb : decide (e.virtual_offset ≤ p
            ∧ p < e.virtual_offset + e.plain_len) = false := by
          simp only [decide_eq_false_iff_not]
          intro hcon
          exact hp hcon.2
        have h3' : start + e.plain_len ≤ p := by omega
        have h4' : p < (start + e.plain_len) + ds'.flatten.length := by
          rw [List.flatten_cons, List.length_append] at h4
          omega
        obtain ⟨e2, d2, hfind2, hread2, hplen2, hge2, hle2, hlt2, heq2⟩ :=
          ih ds' (start + e.plain_len) p (by
            simpa only [voffsOf] using hrest) htail (by omega) h4'
        refine ⟨e2, d2, ?_, hread2, hplen2, by omega, hle2, hlt2, ?_⟩
        · simp only [List.find?, hfb]
          exact hfind2
        · have hslice : (((d :: ds').flatten).drop (e2.virtual_offset - start)).take
              d2.length
              = (ds'.flatten.drop (e2.virtual_offset - (start + e.plain_len))).take
                d2.length := by
            rw [List.flatten_cons]
            have hoff : e2.virtual_offset - start
                = d.length + (e2.virtual_offset - (start + e.plain_len)) := by
              omega
            rw [hoff, ← List.drop_drop, List.drop_left]
          rw [hslice]
          exact heq2

/-- The stream invariant tying a `VirtualAudioStream` to the virtual audio
content it exposes: the advertised length is the content length, the audio
entries tile from 0 and each reads back its slice, and any cached chunk
holds the slice of the content it claims. -/
def StreamInv (C : CryptoModel) (s : VirtualAudioStream) (content : Bytes) : Prop :=
  s.total_len = content.length ∧
  voffsOf s.audio_entries = offsetsAcc 0 s.audio_entries ∧
  (∃ ds, List.Forall₂ (fun e d => FurryReader.read_chunk C s.reader e = .ok d ∧
      e.plain_len = d.length) s.audio_entries ds ∧ ds.flatten = content) ∧
  (∀ cache, s.current_chunk = some cache →
    cache.data = (content.drop cache.virtual_start).take cache.data.length)

/-- `ensure_chunk_loaded` below the stream length succeeds, preserves the
invariant and every field except the cache, and leaves a cache covering the
current position. -/
theorem ensure_spec (C : CryptoModel) (s : VirtualAudioStream) (content : Bytes)
    (hinv : StreamInv C s content) (hpos : s.position < s.total_len) :
    ∃ s', VirtualAudioStream.ensure_chunk_loaded C s = .ok s' ∧
      StreamInv C s' content ∧
      s'.reader = s.reader ∧ s'.audio_entries = s.audio_entries ∧
      s'.total_len = s.total_len ∧ s'.position = s.position ∧
      ∃ cache, s'.current_chunk = some cache ∧
        cache.virtual_start ≤ s.position ∧
        s.position < cache.virtual_start + cache.data.length := by
  obtain ⟨h1, h2, ⟨ds, hfor, hflat⟩, hcache⟩ := hinv
  obtain ⟨e, d, hfind, hread, hplen, -, hle, hlt, heq⟩ :=
    find_cover C s.reader s.audio_entries ds 0 s.position h2 hfor
      (Nat.zero_le _) (by rw [Nat.zero_add, hflat]; omega)
  have heq' : d = (content.drop e.virtual_offset).take d.length := by
    rw [hflat, Nat.sub_zero] at heq
    exact heq
  have hnew : StreamInv C { s with current_chunk := some ⟨d, e.virtual_offset⟩ }
      content := by
    refine ⟨h1, h2, ⟨ds, hfor, hflat⟩, ?_⟩
    intro cache hc
    rw [Option.some.injEq] at hc
    rw [← hc]
    exact heq'
  unfold VirtualAudioStream.ensure_chunk_loaded
  rw [if_neg (by omega)]
  cases hcc : s.current_chunk with
  | none =>
    refine ⟨{ s with current_chunk := some ⟨d, e.virtual_offset⟩ }, ?_, hnew,
      rfl, rfl, rfl, rfl, ⟨d, e.virtual_offset⟩, rfl, hle, hlt⟩
    simp only [hcc, hfind, hread, if_true]
  | some cache0 =>
    by_cases hcov : cache0.virtual_start ≤ s.position
        ∧ s.position < cache0.virtual_start + cache0.data.length
    · have hnl : (decide (s.position < cache0.virtual_start)
          || decide (s.position ≥ cache0.virtual_start + cache0.data.length))
          = false := by
        simp only [Bool.or_eq_false_iff, decide_eq_false_iff_not]
        omega
      refine ⟨s, ?_, ⟨h1, h2, ⟨ds, hfor, hflat⟩, hcache⟩, rfl, rfl, rfl, rfl,
        cache0, hcc, hcov.1, hcov.2⟩
      simp only [hcc, hnl]
      rw [if_neg (fun h => Bool.noConfusion h)]
    · have hnl : (decide (s.position < cache0.virtual_start)
          || decide (s.position ≥ cache0.virtual_start + cache0.data.length))
          = true := by
        simp only [Bool.or_eq_true, decide_eq_true_eq]
        omega
      refine ⟨{ s with current_chunk := some ⟨d, e.virtual_offset⟩ }, ?_, hnew,
        rfl, rfl, rfl, rfl, ⟨d, e.virtual_offset⟩, rfl, hle, hlt⟩
      simp only [hcc, hnl, hfind, hread, if_true]

/-- A positive-length `read` below the stream length succeeds, returns a
nonempty prefix of the remaining content, advances the position by what it
returned, and preserves the invariant. -/
theorem read_spec (C : CryptoModel) (s : VirtualAudioStream) (content : Bytes)
    (hinv : StreamInv C s content) (hpos : s.position < s.total_len) (n : Nat)
    (hn : 0 < n) :
    ∃ bytes s', VirtualAudioStream.read C s n = .ok (bytes, s') ∧
      StreamInv C s' content ∧
      s'.reader = s.reader ∧ s'.audio_entries = s.audio_entries ∧
      s'.total_len = s.total_len ∧
      0 < bytes.length ∧ bytes.length ≤ n ∧
      s'.position = s.position + bytes.length ∧
      bytes = (content.drop s.position).take bytes.length := by
  obtain ⟨s1, hens, hinv1, hr, ha, ht, hp, cache, hcc, hc1, hc2⟩ :=
    ensure_spec C s content hinv hpos
  have hdata : cache.data = (content.drop cache.virtual_start).take cache.data.length :=
    hinv1.2.2.2 cache hcc
  have hoff := hc1
  set p := s.position with hpdef
  set vs := cache.virtual_start with hvsdef
  set len := cache.data.length with hlendef
  have havail : 0 < len - (p - vs) := by omega
  have htr0 : 0 < min n (len - (p - vs)) := by
    omega
  have htrle : min n (len - (p - vs)) ≤ n := Nat.min_le_left _ _
  have htra : min n (len - (p - vs)) ≤ len - (p - vs) := Nat.min_le_right _ _
  have hblen : ((cache.data.drop (p - vs)).take (min n (len - (p - vs)))).length
      = min n (len - (p - vs)) := by
    rw [List.length_take, List.length_drop]
    omega
  have hbytes : (cache.data.drop (p - vs)).take (min n (len - (p - vs)))
      = (content.drop p).take (min n (len - (p - vs))) := by
    conv_lhs => rw [hdata]
    rw [List.drop_take, List.drop_drop]
    rw [show vs + (p - vs) = p from by omega]
    rw [List.take_take]
    rw [Nat.min_eq_left htra]
  refine ⟨(cache.data.drop (p - vs)).take (min n (len - (p - vs))),
    { s1 with position := s1.position + min n (len - (p - vs)) }, ?_, ?_, hr, ha, ht,
    ?_, ?_, ?_, ?_⟩
  · unfold VirtualAudioStream.read
    rw [if_neg (by omega)]
    simp only [hens, hcc, hp]
  · exact ⟨hinv1.1, hinv1.2.1, hinv1.2.2.1, hinv1.2.2.2⟩
  · rw [hblen]
    exact htr0
  · rw [hblen]
    exact htrle
  · rw [hblen, hp]
  · rw [hblen]
    exact hbytes

/-- Looping `read` until `n` bytes arrive returns exactly the next `n` bytes
of the content whenever they exist. -/
theorem readLoop_spec (C : CryptoModel) (content : Bytes) :
    ∀ n s, StreamInv C s content → s.position + n ≤ s.total_len →
      ∃ s', readLoop C s n = .ok ((content.drop s.position).take n, s') ∧
        StreamInv C s' content ∧ s'.position = s.position + n ∧
        s'.total_len = s.total_len := by
  intro n
  induction n using Nat.strong_induction_on with
  | _ n ih =>
    intro s hinv hle
    by_cases hn : n = 0
    · subst hn
      refine ⟨s, ?_, hinv, by omega, rfl⟩
      rw [readLoop]
      simp
    · rw [readLoop, dif_neg hn]
      have hpos : s.position < s.total_len := by omega
      obtain ⟨bytes, s1, hread, hinv1, hr, ha, ht, hblen, hbn, hp1, hbytes⟩ :=
        read_spec C s content hinv hpos n (by omega)
      obtain ⟨s2, hrec, hinv2, hp2, ht2⟩ := ih (n - bytes.length) (by omega) s1 hinv1
        (by omega)
      have hval : bytes ++ (content.drop s1.position).take (n - bytes.length)
          = (content.drop s.position).take n := by
        conv_rhs => rw [show n = bytes.length + (n - bytes.length) from by omega]
        rw [List.take_add, ← hbytes, List.drop_drop]
        rw [show s.position + bytes.length = s1.position from by omega]
      simp only [hread, hrec]
      rw [dif_neg (by omega)]
      refine ⟨s2, ?_, hinv2, by omega, by omega⟩
      rw [hval]

/-- Opening a virtual stream on a packed file succeeds and establishes the
stream invariant for the packed input as content. -/
theorem packed_stream_inv (C : CryptoModel) (hC : C.Sound) (input : Bytes)
    (meta : Option ExtractedMeta) (fmt : OriginalFormat) (master : MasterKey)
    (opts : PackOptions) (fid salt : Bytes) (hfid : fid.length = 16)
    (hsalt : salt.length = 16) (hb : PackBound input meta opts) :
    ∃ s0, VirtualAudioStream.open C
        (pack_to_furry C input meta fmt master opts fid salt) master = .ok s0 ∧
      StreamInv C s0 input ∧ s0.position = 0 ∧ s0.total_len = input.length := by
  have hops := packOps_wf C hC input meta opts hb
  have hopen := open_pack C hC input meta fmt master opts fid salt hfid hsalt hops
  have hcs0 : opts.chunk_size ≠ 0 := by have := hb.1; omega
  have hcs32 : opts.chunk_size < 2 ^ 32 := by have := hb.2.1; norm_num at this ⊢; omega
  have hbm := hb.2.2.2.2.2.2
  have haudio := packedIndex_audio_entries C input meta fmt opts hbm
  have hasl2 := packOps_audio_stream_len C input meta opts hbm hcs0 hcs32
  have hfor := packedReader_audio_readback C hC input meta fmt master opts fid salt
    hfid hsalt hb
  have hflat := audioOps_flatten C opts.chunk_size input 0 (by have := hb.1; omega)
  refine ⟨{ reader := packedReader C input meta fmt master opts fid salt
            audio_entries :=
              (packedReader C input meta fmt master opts fid salt).index.audio_entries
            total_len := (packedReader C input meta fmt master opts
              fid salt).index.header.audio_stream_len
            position := 0
            current_chunk := none }, ?_, ⟨hasl2, ?_, ?_, ?_⟩, rfl, hasl2⟩
  · unfold VirtualAudioStream.open
    simp only [hopen]
  · show voffsOf (packedIndex C input meta fmt opts).audio_entries
      = offsetsAcc 0 (packedIndex C input meta fmt opts).audio_entries
    rw [haudio]
    exact audioOps_entries_tile C opts.chunk_size input 0 hcs32 _ _
  · exact ⟨(audioOps opts.chunk_size input 0).map (opPlain C), hfor, hflat⟩
  · intro cache hc
    simp at hc

/-- C5: for every packed file and every byte range `[a, b)` within
`[0, audio_stream_len)`, opening a virtual stream, seeking to `a`, and
reading `b − a` bytes (looping over partial reads) yields exactly bytes
`[a, b)` of the `unpack_from_furry` output for the same file. -/
theorem C5_random_access (C : CryptoModel) (hC : C.Sound) (input : Bytes)
    (meta : Option ExtractedMeta) (fmt : OriginalFormat) (master : MasterKey)
    (opts : PackOptions) (fid salt : Bytes) (hfid : fid.length = 16)
    (hsalt : salt.length = 16) (hb : PackBound input meta opts)
    (a b : Nat) (hab : a ≤ b) (hbl : b ≤ input.length) :
    ∃ out, unpack_from_furry C (pack_to_furry C input meta fmt master opts fid salt)
        master = .ok (fmt, out) ∧
      ∃ s0 s1 s2, VirtualAudioStream.open C
          (pack_to_furry C input meta fmt master opts fid salt) master = .ok s0 ∧
        VirtualAudioStream.seek s0 (.Start a) = .ok (a, s1) ∧
        readLoop C s1 (b - a) = .ok ((out.drop a).take (b - a), s2) := by
  obtain ⟨s0, hopen, hinv, hpos0, htot⟩ :=
    packed_stream_inv C hC input meta fmt master opts fid salt hfid hsalt hb
  have ha63 : a < 2 ^ 63 := by
    have := hb.2.2.2.2.2.1
    norm_num at this ⊢
    omega
  have hnneg : ¬ i64ofU64 a < 0 := by
    rw [i64ofU64, if_pos ha63]
    exact not_lt.mpr (Int.natCast_nonneg _)
  have htn : (i64ofU64 a).toNat = a := by
    rw [i64ofU64, if_pos ha63]
    exact Int.toNat_natCast _
  have hseek : VirtualAudioStream.seek s0 (.Start a)
      = .ok (a, { s0 with position := a }) := by
    simp [VirtualAudioStream.seek, hnneg, htn]
  have hinv1 : StreamInv C { s0 with position := a } input :=
    ⟨hinv.1, hinv.2.1, hinv.2.2.1, hinv.2.2.2⟩
  obtain ⟨s2, hloop, -, -, -⟩ := readLoop_spec C input (b - a)
    { s0 with position := a } hinv1 (by
      show a + (b - a) ≤ s0.total_len
      omega)
  exact ⟨input, pack_unpack C hC input meta fmt master opts fid salt hfid hsalt hb,
    s0, { s0 with position := a }, s2, hopen, hseek, hloop⟩

/-- Witness for C5: the byte range `[1, 3)` of a concrete four-byte input
packed with chunk size 2 under the identity crypto model. -/
theorem C5_random_access_witness :
    idCrypto.Sound ∧ (List.replicate 16 12 : Bytes).length = 16 ∧
    (List.replicate 16 13 : Bytes).length = 16 ∧
    PackBound [9, 8, 7, 6] none ⟨2, 0, 2, false⟩ ∧ 1 ≤ 3 ∧
    3 ≤ ([9, 8, 7, 6] : Bytes).length ∧
    (∃ out, unpack_from_furry idCrypto
        (pack_to_furry idCrypto [9, 8, 7, 6] none .Wav MasterKey.default_key
          ⟨2, 0, 2, false⟩ (List.replicate 16 12) (List.replicate 16 13))
        MasterKey.default_key = .ok (.Wav, out) ∧
      ∃ s0 s1 s2, VirtualAudioStream.open idCrypto
          (pack_to_furry idCrypto [9, 8, 7, 6] none .Wav MasterKey.default_key
            ⟨2, 0, 2, false⟩ (List.replicate 16 12) (List.replicate 16 13))
          MasterKey.default_key = .ok s0 ∧
        VirtualAudioStream.seek s0 (.Start 1) = .ok (1, s1) ∧
        readLoop idCrypto s1 (3 - 1) = .ok ((out.drop 1).take (3 - 1), s2)) :=
  ⟨idCrypto_sound, by decide, by decide,
    ⟨by decide, by decide, by decide, by decide, by decide, by decide, by decide⟩,
    by decide, by decide,
    C5_random_access idCrypto idCrypto_sound [9, 8, 7, 6] none .Wav
      MasterKey.default_key ⟨2, 0, 2, false⟩ (List.replicate 16 12)
      (List.replicate 16 13) (by decide) (by decide)
      ⟨by decide, by decide, by decide, by decide, by decide, by decide, by decide⟩
      1 3 (by decide) (by decide)⟩

end Furry
